import Mathlib

/-!
# Maze generator (maze_gen.c): shallow embedding and verification

The C program builds a character matrix for a `width x height` maze whose cells are
`cell_size x cell_size` blocks separated by one-character walls, carves a spanning
tree with an explicit stack, opens an entry and an exit, and drops three potions.

Modelling conventions.

* `unsigned int` and non-negative `int` values are natural numbers; all sizes are
  taken small enough that no 32-bit arithmetic wraps (the matrix could not be
  allocated otherwise), and `width, height >= 1` wherever `width - 1` is formed.
* The three places where C subtracts (`matrix_idx_prev_cell`, `remove_wall`,
  `fill_cell`) compute their index in `Int`; a negative index (a wrapped unsigned
  index in C) is an out-of-range access.
* Every array access is checked: an index outside the allocated range gives
  `Fault.outOfBounds`, a `%` by zero gives `Fault.divByZero`.  The one exception is
  the read of column `-1` of a row in the play loop of `main` (line 372), which
  yields the byte stored before that row, an unknown value `pad row`.
* `rand()` is a stream `draws : Nat → Nat` read through a counter, so the result is
  a function of the arguments and of the draw sequence (which `srand(seed)` fixes).
* `malloc` returns uninitialised memory: the stack array starts with arbitrary
  content `heap`; the matrix rows are `memset` to `WALL` by the code itself.
* Loops without a syntactic bound (`while (!stack_isempty)`, `do ... while`) take
  `fuel`, the number of iterations allowed; running out gives `Fault.outOfFuel`.
-/

namespace MazeGen

/-! ## Data model (lines 5-34) -/

abbrev WALL : Char := 'w'
abbrev POTION : Char := '#'
abbrev NEEDED_POTIONS : Nat := 3

/-- The C `struct maze`: field `a` is the matrix as a list of rows. -/
structure maze where
  a : List (List Char)
  w : Nat
  h : Nat
  cell_size : Nat
deriving DecidableEq, Repr

/-- The C `struct cell`: a position in the matrix (`x` column, `y` row). -/
structure cell where
  x : Nat
  y : Nat
deriving DecidableEq, Repr

/-- The C `struct stack`: `cell_list` has `capacity + 1` slots, slot 0 is unused. -/
structure stack where
  cell_list : List cell
  top_of_stack : Nat
  capacity : Nat
deriving DecidableEq, Repr

/-- Ways in which a run of the model stops without a result. -/
inductive Fault where
  | outOfBounds
  | divByZero
  | outOfFuel
deriving DecidableEq, Repr

/-! ## Checked primitives -/

/-- Read `a[row][col]`. -/
def matrix_get (a : List (List Char)) (row col : Int) : Except Fault Char :=
  if 0 ≤ row ∧ 0 ≤ col then
    match a[row.toNat]? with
    | some r =>
      match r[col.toNat]? with
      | some ch => .ok ch
      | none => .error .outOfBounds
    | none => .error .outOfBounds
  else .error .outOfBounds

/-- Write `a[row][col] = value`. -/
def matrix_set (a : List (List Char)) (row col : Int) (value : Char) :
    Except Fault (List (List Char)) :=
  if 0 ≤ row ∧ 0 ≤ col then
    match a[row.toNat]? with
    | some r =>
      if col.toNat < r.length then .ok (a.set row.toNat (r.set col.toNat value))
      else .error .outOfBounds
    | none => .error .outOfBounds
  else .error .outOfBounds

/-- Write into the matrix of a maze. -/
def maze_set (m : maze) (row col : Int) (value : Char) : Except Fault maze :=
  (matrix_set m.a row col value).map (fun a1 => { m with a := a1 })

/-- The C operator `%` on non-negative operands. -/
def c_mod (n d : Nat) : Except Fault Nat :=
  if d = 0 then .error .divByZero else .ok (n % d)

/-- The loop `for (i = 0; i < n; i++) body`. -/
def for_loop {σ : Type} (body : Nat → σ → Except Fault σ) : Nat → σ → Except Fault σ
  | 0, s => .ok s
  | n + 1, s => for_loop body n s >>= body n

/-! ## Stack (lines 39-74) -/

def init_stack (heap : Nat → cell) (capacity : Nat) : stack :=
  { cell_list := (List.range (capacity + 1)).map heap, top_of_stack := 0, capacity := capacity }

def stack_pop (s : stack) : Except Fault (cell × stack) :=
  match s.cell_list[s.top_of_stack]? with
  | some c =>
    .ok (c, if s.top_of_stack > 0 then { s with top_of_stack := s.top_of_stack - 1 } else s)
  | none => .error .outOfBounds

/-- Returns the C return value (0 or -1) and the stack afterwards. -/
def stack_push (s : stack) (c : cell) : Except Fault (Int × stack) :=
  if s.top_of_stack = s.capacity then .ok (-1, s)
  else if s.top_of_stack + 1 < s.cell_list.length then
    .ok (0, { s with top_of_stack := s.top_of_stack + 1,
                     cell_list := s.cell_list.set (s.top_of_stack + 1) c })
  else .error .outOfBounds

def stack_isempty (s : stack) : Bool := s.top_of_stack == 0

/-! ## Grid geometry (lines 78-110) -/

def mark_visited (m : maze) (c : cell) : Except Fault maze :=
  maze_set m c.y c.x 'v'

def cell_to_matrix_idx (m : maze) (c : Nat) : Nat :=
  (m.cell_size + 1) * c + (m.cell_size / 2) + 1

def maze_dimension_to_matrix (m : maze) (dimension : Nat) : Nat :=
  (m.cell_size + 1) * dimension + 1

def matrix_idx_prev_cell (m : maze) (cell_num : Nat) : Int :=
  (cell_num : Int) - ((m.cell_size : Int) + 1)

def matrix_idx_next_cell (m : maze) (cell_num : Nat) : Nat :=
  cell_num + (m.cell_size + 1)

/-! ## Neighbours (lines 117-151) -/

/-- One of the four tests of `get_available_neighbours`: when `guard` holds, read the
matrix at `(row, col)` and append that position unless it is marked visited.  The
read is skipped when the guard fails (`&&` short-circuits). -/
def check_neighbour (m : maze) (guard : Bool) (row col : Int) (neighbours : List cell) :
    Except Fault (List cell) :=
  if guard then
    match matrix_get m.a row col with
    | .ok ch => if ch ≠ 'v' then .ok (neighbours ++ [⟨col.toNat, row.toNat⟩]) else .ok neighbours
    | .error e => .error e
  else .ok neighbours

/-- The list returned holds the `num_neighbrs` entries the C function stores. -/
def get_available_neighbours (m : maze) (c : cell) : Except Fault (List cell) :=
  check_neighbour m (decide (c.y > cell_to_matrix_idx m 0))
      (matrix_idx_prev_cell m c.y) c.x [] >>= fun n1 =>
  check_neighbour m (decide (c.x > cell_to_matrix_idx m 0))
      c.y (matrix_idx_prev_cell m c.x) n1 >>= fun n2 =>
  check_neighbour m (decide (c.x < cell_to_matrix_idx m (m.w - 1)))
      c.y (matrix_idx_next_cell m c.x) n2 >>= fun n3 =>
  check_neighbour m (decide (c.y < cell_to_matrix_idx m (m.h - 1)))
      (matrix_idx_next_cell m c.y) c.x n3

/-! ## Walls and cells (lines 157-176) -/

/-- The column (or row) `a.x - ((int) a.x - (int) b.x) / 2` written by `remove_wall`:
C integer division truncates toward zero. -/
def wall_idx (p q : Nat) : Int :=
  (p : Int) - Int.tdiv ((p : Int) - (q : Int)) 2

/-- The index `c - cell_size / 2 + i` used by `remove_wall` and `fill_cell`. -/
def block_idx (m : maze) (c i : Nat) : Int :=
  (c : Int) - ((m.cell_size / 2 : Nat) : Int) + (i : Int)

def remove_wall (m : maze) (a b : cell) : Except Fault maze :=
  if a.y = b.y then
    for_loop (fun i mz => maze_set mz (block_idx m a.y i) (wall_idx a.x b.x) ' ') m.cell_size m
  else
    for_loop (fun i mz => maze_set mz (wall_idx a.y b.y) (block_idx m a.x i) ' ') m.cell_size m

def fill_cell (m : maze) (c : cell) (value : Char) : Except Fault maze :=
  for_loop (fun i mz =>
    for_loop (fun j mz1 => maze_set mz1 (block_idx m c.y i) (block_idx m c.x j) value)
      m.cell_size mz) m.cell_size m

/-! ## generate_maze (lines 195-283) -/

/-- State of the carving loop: the maze, the stack, the number of `rand()` calls made
so far, and three ghost fields that record the history of the run: the values returned
by the calls to `stack_push` (which the C code discards), the arguments of the calls to
`mark_visited` and the arguments of the calls to `remove_wall`, each in call order. -/
structure carve_state where
  mz : maze
  stk : stack
  drawn : Nat
  push_results : List Int
  marked : List cell
  removed : List (cell × cell)
deriving DecidableEq, Repr

/-- Lines 201-224: allocate, fill with walls, mark and push the start cell. -/
def carve_init (heap : Nat → cell) (draws : Nat → Nat) (width height cell_size : Nat) :
    Except Fault carve_state :=
  let maze0 : maze := { a := [], w := width, h := height, cell_size := cell_size }
  let maze1 : maze := { maze0 with
    a := List.replicate (maze_dimension_to_matrix maze0 height)
          (List.replicate (maze_dimension_to_matrix maze0 width) WALL) }
  let stack0 := init_stack heap (width * height)
  c_mod (draws 0) height >>= fun r =>
  let c : cell := { x := cell_to_matrix_idx maze1 0, y := cell_to_matrix_idx maze1 r }
  mark_visited maze1 c >>= fun maze2 =>
  stack_push stack0 c >>= fun p =>
  .ok { mz := maze2, stk := p.2, drawn := 1, push_results := [p.1], marked := [c],
        removed := [] }

/-- Lines 227-243: one iteration of the body of the carving loop. -/
def carve_step (draws : Nat → Nat) (s : carve_state) : Except Fault carve_state :=
  stack_pop s.stk >>= fun p =>
  get_available_neighbours s.mz p.1 >>= fun neighbours =>
  if neighbours.length > 0 then
    stack_push p.2 p.1 >>= fun p1 =>
    c_mod (draws s.drawn) neighbours.length >>= fun i =>
    match neighbours[i]? with
    | none => .error .outOfBounds
    | some next =>
      mark_visited s.mz next >>= fun m1 =>
      remove_wall m1 p.1 next >>= fun m2 =>
      stack_push p1.2 next >>= fun p2 =>
      .ok { mz := m2, stk := p2.2, drawn := s.drawn + 1,
            push_results := s.push_results ++ [p1.1, p2.1],
            marked := s.marked ++ [next], removed := s.removed ++ [(p.1, next)] }
  else .ok { s with stk := p.2 }

/-- The state after at most `n` iterations of `while (!stack_isempty(&stack))`. -/
def carve_run (draws : Nat → Nat) : Nat → carve_state → Except Fault carve_state
  | 0, s => .ok s
  | n + 1, s => if stack_isempty s.stk then .ok s else carve_step draws s >>= carve_run draws n

/-- Lines 226-244: the carving loop, allowed `fuel` iterations. -/
def carve_loop (draws : Nat → Nat) (fuel : Nat) (s : carve_state) : Except Fault carve_state :=
  carve_run draws fuel s >>= fun s1 =>
  if stack_isempty s1.stk then .ok s1 else .error .outOfFuel

/-- Lines 247-253: replace every visited mark by a cell filled with spaces. -/
def sweep_visited (m : maze) : Except Fault maze :=
  for_loop (fun row mz =>
    for_loop (fun col mz1 =>
      matrix_get mz1.a row col >>= fun ch =>
      if ch = 'v' then fill_cell mz1 { x := col, y := row } ' ' else .ok mz1)
      (maze_dimension_to_matrix m m.w) mz) (maze_dimension_to_matrix m m.h) m

/-- The two loops with `break` of lines 257-268: go through `rows` in order, and at
the first row whose entry in column `test_col` is a space, write a space in column
`open_col` and stop. -/
def open_border (m : maze) (test_col open_col : Int) : List Nat → Except Fault maze
  | [] => .ok m
  | row :: rows =>
    match matrix_get m.a row test_col with
    | .ok ch => if ch = ' ' then maze_set m row open_col ' ' else open_border m test_col open_col rows
    | .error e => .error e

/-- Lines 257-261. -/
def select_entry (m : maze) : Except Fault maze :=
  open_border m 1 0 (List.range (maze_dimension_to_matrix m m.h))

/-- Lines 264-268: `row` runs from the last row down to 0. -/
def select_exit (m : maze) : Except Fault maze :=
  open_border m (cell_to_matrix_idx m (m.w - 1)) ((maze_dimension_to_matrix m m.w : Nat) - 1 : Int)
    (List.range (maze_dimension_to_matrix m m.h)).reverse

/-- Lines 275-278: the `do ... while` loop; returns the position found and the number
of draws made. -/
def pick_passage (draws : Nat → Nat) (m : maze) : Nat → Nat → Except Fault (Nat × Nat × Nat)
  | 0, _ => .error .outOfFuel
  | fuel + 1, k =>
    c_mod (draws k) (m.h - 1) >>= fun row =>
    c_mod (draws (k + 1)) (m.w - 1) >>= fun col =>
    matrix_get m.a row col >>= fun ch =>
    if ch ≠ ' ' then pick_passage draws m fuel (k + 2) else .ok (row, col, k + 2)

/-- Lines 274-280: the placement loop, `n` potions. -/
def place_potions (draws : Nat → Nat) (fuel : Nat) : Nat → maze × Nat → Except Fault (maze × Nat) :=
  for_loop (fun _ s =>
    pick_passage draws s.1 fuel s.2 >>= fun p =>
    maze_set s.1 p.1 p.2.1 POTION >>= fun m1 => .ok (m1, p.2.2))

/-- Lines 195-271: everything up to the assignment of the matrix dimensions to
`maze.w` and `maze.h`; returns the maze and the number of draws made. -/
def carve_maze (heap : Nat → cell) (draws : Nat → Nat) (fuel : Nat)
    (width height cell_size : Nat) : Except Fault (maze × Nat) :=
  carve_init heap draws width height cell_size >>= fun s0 =>
  carve_loop draws fuel s0 >>= fun s1 =>
  sweep_visited s1.mz >>= fun m1 =>
  select_entry m1 >>= fun m2 =>
  select_exit m2 >>= fun m3 =>
  .ok ({ m3 with w := maze_dimension_to_matrix m3 m3.w, h := maze_dimension_to_matrix m3 m3.h },
       s1.drawn)

/-- The function `generate_maze`.  `heap` is the content of freshly allocated memory,
`draws` the sequence of values of `rand()` after `srand(rand_seed)`, `fuel` the
number of iterations allowed to each unbounded loop. -/
def generate_maze (heap : Nat → cell) (draws : Nat → Nat) (fuel : Nat)
    (width height cell_size : Nat) : Except Fault maze :=
  carve_maze heap draws fuel width height cell_size >>= fun s =>
  place_potions draws fuel NEEDED_POTIONS s >>= fun r => .ok r.1

/-! ## Vocabulary of the specification -/

/-- The character at `(row, col)` of a matrix (`WALL` outside it). -/
def rd (a : List (List Char)) (row col : Nat) : Char :=
  (a.getD row []).getD col WALL

/-- The matrix has `rows` rows of `cols` characters each. -/
def well_formed (a : List (List Char)) (rows cols : Nat) : Prop :=
  a.length = rows ∧ ∀ r ∈ a, r.length = cols

/-- The fields other than the matrix are those of `m`, and the matrix keeps its shape. -/
def same_frame (m m1 : maze) (rows cols : Nat) : Prop :=
  m1.w = m.w ∧ m1.h = m.h ∧ m1.cell_size = m.cell_size ∧ well_formed m1.a rows cols

/-- Matrix `a1` is `a` with `value` written at the positions in `P` and nothing else changed. -/
def written (a a1 : List (List Char)) (P : Nat → Nat → Prop) (value : Char) : Prop :=
  ∀ row col, (P row col → rd a1 row col = value) ∧ (¬ P row col → rd a1 row col = rd a row col)

/-- Matrix index of the centre of logical cell `k` along one axis, for cell size `s`:
the value of `cell_to_matrix_idx`. -/
def centre (s k : Nat) : Nat := (s + 1) * k + s / 2 + 1

/-- Position `(x, y)` is the centre of a logical cell of a `width x height` maze. -/
def is_centre (s width height x y : Nat) : Prop :=
  ∃ c r, c < width ∧ r < height ∧ x = centre s c ∧ y = centre s r

/-- Number of logical cells whose centre carries the visited mark. -/
def visited_count (a : List (List Char)) (s width height : Nat) : Nat :=
  ((Finset.range width ×ˢ Finset.range height).filter
    (fun p => rd a (centre s p.2) (centre s p.1) = 'v')).card

/-- Cell `n` is the centre of a logical cell next to the logical cell `(c, r)`. -/
def is_neighbour (s width height c r : Nat) (n : cell) : Prop :=
  ∃ c1 r1, c1 < width ∧ r1 < height ∧ n.x = centre s c1 ∧ n.y = centre s r1 ∧
    ((c1 = c ∧ (r1 + 1 = r ∨ r1 = r + 1)) ∨ (r1 = r ∧ (c1 + 1 = c ∨ c1 = c + 1)))

/-- Invariant of the carving loop for a `width x height` maze of cell size `s`. -/
structure carve_inv (s width height : Nat) (st : carve_state) : Prop where
  frame_w : st.mz.w = width
  frame_h : st.mz.h = height
  frame_s : st.mz.cell_size = s
  shape : well_formed st.mz.a ((s + 1) * height + 1) ((s + 1) * width + 1)
  cap : st.stk.capacity = width * height
  len : st.stk.cell_list.length = width * height + 1
  top_le : st.stk.top_of_stack ≤ visited_count st.mz.a s width height
  live : ∀ i, 1 ≤ i → i ≤ st.stk.top_of_stack →
    ∃ c, st.stk.cell_list[i]? = some c ∧ is_centre s width height c.x c.y
  marks : ∀ y x, rd st.mz.a y x = 'v' → is_centre s width height x y
  chars : ∀ y x, rd st.mz.a y x = 'w' ∨ rd st.mz.a y x = 'v' ∨ rd st.mz.a y x = ' '
  pushes : ∀ rc ∈ st.push_results, rc = 0

/-- Bound on the number of iterations the carving loop still makes. -/
def carve_measure (s width height : Nat) (st : carve_state) : Nat :=
  2 * (width * height - visited_count st.mz.a s width height) + st.stk.top_of_stack

/-- Position `(row, col)` lies in the `s x s` block of logical cell `(c, r)`. -/
def in_block (s c r row col : Nat) : Prop :=
  (s + 1) * r + 1 ≤ row ∧ row ≤ (s + 1) * r + s ∧ (s + 1) * c + 1 ≤ col ∧ col ≤ (s + 1) * c + s

/-- Position `(y0, x0)` comes before `(i, j)` in the row-by-row order of the sweep. -/
def scanned_before (y0 x0 i j : Nat) : Prop := y0 < i ∨ (y0 = i ∧ x0 < j)

/-- Position `(row, col)` lies in the block of a cell whose centre is marked visited in
`a` and comes before `(i, j)` in the order of the sweep. -/
def swept (a : List (List Char)) (s width height i j row col : Nat) : Prop :=
  ∃ c r, c < width ∧ r < height ∧ rd a (centre s r) (centre s c) = 'v' ∧
    scanned_before (centre s r) (centre s c) i j ∧ in_block s c r row col

/-- Positions of the matrix of a returned maze that hold a potion. -/
def potion_positions (m : maze) : Finset (Nat × Nat) :=
  (Finset.range m.h ×ˢ Finset.range m.w).filter (fun p => rd m.a p.1 p.2 = POTION)

/-- The wall seam between logical cells `(c, r)` and `(c + 1, r)` is open: none of its
`cell_size` characters, in column `(cell_size + 1) * (c + 1)`, is `WALL`. -/
def joined_right (m : maze) (c r : Nat) : Bool :=
  (List.range m.cell_size).all
    (fun i => rd m.a ((m.cell_size + 1) * r + 1 + i) ((m.cell_size + 1) * (c + 1)) != WALL)

/-- The wall seam between logical cells `(c, r)` and `(c, r + 1)` is open: none of its
`cell_size` characters, in row `(cell_size + 1) * (r + 1)`, is `WALL`. -/
def joined_down (m : maze) (c r : Nat) : Bool :=
  (List.range m.cell_size).all
    (fun i => rd m.a ((m.cell_size + 1) * (r + 1)) ((m.cell_size + 1) * c + 1 + i) != WALL)

/-- Number of pairs of adjacent logical cells joined by an open seam. -/
def joined_pairs (m : maze) (width height : Nat) : Nat :=
  ((List.range height).map
    (fun r => (List.range (width - 1)).countP (fun c => joined_right m c r))).sum +
  ((List.range (height - 1)).map
    (fun r => (List.range width).countP (fun c => joined_down m c r))).sum

/-- A draw sequence that starts with the given values and continues with zeros. -/
def draws_of (l : List Nat) : Nat → Nat := fun k => l.getD k 0

/-- Freshly allocated memory that happens to hold zeros. -/
def heap_zero : Nat → cell := fun _ => { x := 0, y := 0 }

/-- Positions of the region sampled by the placement loop (rows `0 .. h - 2`, columns
`0 .. w - 2`) that hold a space. -/
def region_spaces (m : maze) : Finset (Nat × Nat) :=
  (Finset.range (m.h - 1) ×ˢ Finset.range (m.w - 1)).filter (fun p => rd m.a p.1 p.2 = ' ')

/-- Two stacks that hold the same cells: they differ at most in slot 0 of the array and
in the slots above the top, which hold whatever the memory held. -/
def stack_eqv (s1 s2 : stack) : Prop :=
  s1.top_of_stack = s2.top_of_stack ∧ s1.capacity = s2.capacity ∧
  s1.cell_list.length = s2.cell_list.length ∧
  ∀ i, 1 ≤ i → i ≤ s1.top_of_stack → s1.cell_list[i]? = s2.cell_list[i]?

/-- Two states of the carving loop that differ at most in the unused slots of the stack
array. -/
def state_eqv (s1 s2 : carve_state) : Prop :=
  s1.mz = s2.mz ∧ s1.drawn = s2.drawn ∧ s1.push_results = s2.push_results ∧
  stack_eqv s1.stk s2.stk ∧ s1.marked = s2.marked ∧ s1.removed = s2.removed

/-- Two runs end alike: with the same fault, or with related results. -/
def rel_result {α : Type} (R : α → α → Prop) (e1 e2 : Except Fault α) : Prop :=
  match e1, e2 with
  | .ok a, .ok b => R a b
  | .error x, .error y => x = y
  | _, _ => False

/-! ## The play loop of main (lines 286-387) -/

/-- State of the play loop of `main`: the matrix, the player position (`int x`, `int y`)
and the number of potions collected. -/
structure play_state where
  a : List (List Char)
  x : Int
  y : Int
  potion : Nat
deriving DecidableEq, Repr

/-- The loop condition `x != maze.w - 1 && y != maze.h - 1`. -/
def play_running (m : maze) (s : play_state) : Bool :=
  decide (s.x ≠ (m.w : Int) - 1) && decide (s.y ≠ (m.h : Int) - 1)

/-- A read `maze.a[y][x - 1]` or `maze.a[1][-1]` of line 372.  Every row of the matrix is
a block of its own (line 215), and a read at column `-1` of a row is a read of the byte
stored just before the block of that row: the program gets that byte, which is not part
of the matrix, and carries on.  `pad row` is that byte.  Any other read outside the
matrix is a fault. -/
def play_get (pad : Nat → Char) (a : List (List Char)) (y x : Int) : Except Fault Char :=
  if x = -1 ∧ 0 ≤ y ∧ y < (a.length : Int) then .ok (pad y.toNat) else matrix_get a y x

/-- Lines 317-386: one iteration of the play loop with the command read by `scanf`.
The printing of the matrix (lines 321-353) only reads entries inside the matrix and
changes no state; it is left out.  `&&` evaluates its second operand only when the
first holds. -/
def play_step (m : maze) (pad : Nat → Char) (s : play_state) (input : Char) :
    Except Fault play_state :=
  matrix_get s.a s.y s.x >>= fun here =>
  let potion := if here = POTION then s.potion + 1 else s.potion
  matrix_set s.a s.y s.x '@' >>= fun a1 =>
  matrix_set a1 s.y s.x ' ' >>= fun a2 =>
  if input = 'w' then
    matrix_get a2 (s.y - 1) s.x >>= fun ch =>
    .ok { a := a2, x := s.x, y := if ch ≠ 'w' then s.y - 1 else s.y, potion := potion }
  else if input = 's' then
    matrix_get a2 (s.y + 1) s.x >>= fun ch =>
    .ok { a := a2, x := s.x, y := if ch ≠ 'w' then s.y + 1 else s.y, potion := potion }
  else if input = 'a' then
    play_get pad a2 s.y (s.x - 1) >>= fun ch =>
    if ch ≠ 'w' then
      play_get pad a2 1 (-1) >>= fun ch1 =>
      .ok { a := a2, x := if ch ≠ ch1 then s.x - 1 else s.x, y := s.y, potion := potion }
    else .ok { a := a2, x := s.x, y := s.y, potion := potion }
  else if input = 'd' then
    if s.y + 2 = (m.h : Int) ∧ s.x = (m.w : Int) - 2 ∧ potion ≠ 3 then
      .ok { a := a2, x := s.x, y := s.y, potion := potion }
    else
      matrix_get a2 s.y (s.x + 1) >>= fun ch =>
      .ok { a := a2, x := if ch ≠ 'w' then s.x + 1 else s.x, y := s.y, potion := potion }
  else .ok { a := a2, x := s.x, y := s.y, potion := potion }

/-- Lines 315-387: the play loop run on a finite sequence of commands; it stops when the
loop condition fails or the commands are used up. -/
def play_loop (m : maze) (pad : Nat → Char) : List Char → play_state → Except Fault play_state
  | [], s => .ok s
  | input :: rest, s =>
    if play_running m s then play_step m pad s input >>= play_loop m pad rest else .ok s

/-- Lines 292-296: the state in which `main` enters the play loop. -/
def play_init (m : maze) : play_state := { a := m.a, x := 0, y := 1, potion := 0 }

/-! ## Vocabulary for the history of the carving loop -/

/-- The positions `remove_wall` writes when called with `p` and `q`. -/
def wall_of (s : Nat) (p q : cell) (row col : Nat) : Prop :=
  (p.y = q.y ∧ (col : Int) = wall_idx p.x q.x ∧ p.y - s / 2 ≤ row ∧ row < p.y - s / 2 + s) ∨
  (p.y ≠ q.y ∧ (row : Int) = wall_idx p.y q.y ∧ p.x - s / 2 ≤ col ∧ col < p.x - s / 2 + s)

/-- Logical cells `(c, r)` and `(c1, r1)` are orthogonally adjacent. -/
def adjacent (c r c1 r1 : Nat) : Prop :=
  (c1 = c ∧ (r1 + 1 = r ∨ r1 = r + 1)) ∨ (r1 = r ∧ (c1 + 1 = c ∨ c1 = c + 1))

/-- The centre of logical cell `(c, r)` carries the visited mark. -/
def visited (a : List (List Char)) (s c r : Nat) : Prop :=
  rd a (centre s r) (centre s c) = 'v'

/-- The centre of logical cell `(c, r)` is stored in the live part of the stack. -/
def on_stack (s : Nat) (stk : stack) (c r : Nat) : Prop :=
  ∃ i, 1 ≤ i ∧ i ≤ stk.top_of_stack ∧ stk.cell_list[i]? = some ⟨centre s c, centre s r⟩

/-- The matrix index of the line `remove_wall` writes between cell index `k` and the
adjacent index `k1` along one axis: the seam `(s + 1) * (k + 1)` towards the next cell;
towards the previous cell the seam `(s + 1) * k` for odd `s`, but `(s + 1) * k + 1` for
even `s`. -/
def wall_line (s k k1 : Nat) : Nat :=
  if k1 = k + 1 then (s + 1) * (k + 1) else (s + 1) * k + (if s % 2 = 1 then 0 else 1)

/-- Second invariant of the carving loop: what the depth-first traversal has done so
far.  Every visited cell is on the stack or has all its neighbours visited; the cells
on the stack are visited; the border of the matrix is untouched; the history `marked`
lists the visited cells, each once; and `remove_wall` has been called once for every
marked cell but the first, with that cell as second argument and a cell marked earlier
as first argument. -/
structure dfs_inv (s width height : Nat) (st : carve_state) : Prop where
  closed : ∀ c r, c < width → r < height → visited st.mz.a s c r →
    on_stack s st.stk c r ∨
    ∀ c1 r1, c1 < width → r1 < height → adjacent c r c1 r1 → visited st.mz.a s c1 r1
  stack_visited : ∀ i, 1 ≤ i → i ≤ st.stk.top_of_stack →
    ∃ c r, c < width ∧ r < height ∧
      st.stk.cell_list[i]? = some ⟨centre s c, centre s r⟩ ∧ visited st.mz.a s c r
  border : ∀ y x, (y = 0 ∨ x = 0 ∨ (s + 1) * height ≤ y ∨ (s + 1) * width ≤ x) →
    rd st.mz.a y x = WALL
  marked_iff : ∀ cl, cl ∈ st.marked ↔
    ∃ c r, c < width ∧ r < height ∧ cl = ⟨centre s c, centre s r⟩ ∧ visited st.mz.a s c r
  marked_nodup : st.marked.Nodup
  marked_len : st.marked.length = visited_count st.mz.a s width height
  removed_snd : ∃ start, st.marked = start :: st.removed.map Prod.snd
  removed_fst : ∀ e ∈ st.removed, e.1 ∈ st.marked

/-- Position `(row, col)` lies in the block of some logical cell of the maze. -/
def in_some_block (s width height row col : Nat) : Prop :=
  ∃ c r, c < width ∧ r < height ∧ in_block s c r row col

/-- Invariant of the play loop on a maze that `generate_maze` returned: the matrix keeps
its shape, the border is `WALL` except for the entry in row 1 of column 0 and the exit
in row `h - 2` of the last column, the player is inside the matrix, in column 0 only at
the entry, and in the last column only with three potions. -/
structure play_inv (m : maze) (s : play_state) : Prop where
  shape : well_formed s.a m.h m.w
  top_row : ∀ col, rd s.a 0 col = WALL
  bottom_row : ∀ col, rd s.a (m.h - 1) col = WALL
  left_col : ∀ row, row ≠ 1 → rd s.a row 0 = WALL
  right_col : ∀ row, row + 2 ≠ m.h → rd s.a row (m.w - 1) = WALL
  y_lo : 1 ≤ s.y
  y_hi : s.y + 2 ≤ (m.h : Int)
  x_lo : 0 ≤ s.x
  x_hi : s.x + 1 ≤ (m.w : Int)
  at_entry : s.x = 0 → s.y = 1
  at_exit : s.x = (m.w : Int) - 1 → s.potion = 3

/-- A memory in which the byte before every row of the matrix is zero. -/
def pad_zero : Nat → Char := fun _ => Char.ofNat 0

/-! ## Matrix primitives -/

theorem rd_set (a : List (List Char)) (y x : Nat) (v : Char) (hy : y < a.length)
    (hx : x < (a.getD y []).length) (row col : Nat) :
    rd (a.set y ((a.getD y []).set x v)) row col
      = if row = y ∧ col = x then v else rd a row col := by
  unfold rd
  rw [List.getD_eq_getElem?_getD, List.getElem?_eq_getElem hy] at hx
  simp only [Option.getD_some] at hx
  by_cases h1 : row = y
  · subst h1
    by_cases h2 : col = x
    · subst h2
      simp [List.getD_eq_getElem?_getD, List.getElem?_set, hy, hx]
    · have h3 : ¬ x = col := fun h => h2 h.symm
      simp [List.getD_eq_getElem?_getD, List.getElem?_set, hy, h2, h3]
  · have h3 : ¬ y = row := fun h => h1 h.symm
    simp [List.getD_eq_getElem?_getD, List.getElem?_set, h1, h3]

theorem well_formed_set {a : List (List Char)} {H W : Nat} (h : well_formed a H W)
    (y x : Nat) (v : Char) : well_formed (a.set y ((a.getD y []).set x v)) H W := by
  obtain ⟨h1, h2⟩ := h
  refine ⟨by simp [h1], ?_⟩
  intro r hr
  rcases List.mem_or_eq_of_mem_set hr with h3 | h3
  · exact h2 r h3
  · subst h3
    by_cases hy : y < a.length
    · have : a.getD y [] ∈ a := by
        rw [List.getD_eq_getElem?_getD, List.getElem?_eq_getElem hy]
        exact List.getElem_mem hy
      simpa using h2 _ this
    · rw [List.set_eq_of_length_le (by omega)] at hr
      exact h2 _ hr

theorem well_formed_row {a : List (List Char)} {H W : Nat} (h : well_formed a H W)
    {y : Nat} (hy : y < H) : ∃ r, a[y]? = some r ∧ r.length = W ∧ a.getD y [] = r := by
  obtain ⟨h1, h2⟩ := h
  have hy1 : y < a.length := by omega
  refine ⟨a[y], List.getElem?_eq_getElem hy1, h2 _ (List.getElem_mem hy1), ?_⟩
  simp [List.getD_eq_getElem?_getD, List.getElem?_eq_getElem hy1]

theorem matrix_get_ok {a : List (List Char)} {H W : Nat} (h : well_formed a H W)
    {y x : Nat} (hy : y < H) (hx : x < W) :
    matrix_get a (y : Int) (x : Int) = .ok (rd a y x) := by
  obtain ⟨r, h1, h2, h3⟩ := well_formed_row h hy
  have hx1 : x < r.length := by omega
  simp [matrix_get, rd, h1, h3, List.getElem?_eq_getElem hx1, List.getD_eq_getElem?_getD]

theorem matrix_set_ok {a : List (List Char)} {H W : Nat} (h : well_formed a H W)
    {y x : Nat} (hy : y < H) (hx : x < W) (v : Char) :
    ∃ a1, matrix_set a (y : Int) (x : Int) v = .ok a1 ∧ well_formed a1 H W ∧
      ∀ row col, rd a1 row col = if row = y ∧ col = x then v else rd a row col := by
  obtain ⟨r, h1, h2, h3⟩ := well_formed_row h hy
  have hx1 : x < r.length := by omega
  refine ⟨a.set y ((a.getD y []).set x v), ?_, well_formed_set h y x v, ?_⟩
  · simp [matrix_set, h1, h3, hx1]
  · intro row col
    exact rd_set a y x v (by rw [h.1]; exact hy) (by rw [h3]; exact hx1) row col

/-- A successful read was in range. -/
theorem matrix_get_inv {a : List (List Char)} {H W : Nat} (h : well_formed a H W)
    {row col : Int} {ch : Char} (hg : matrix_get a row col = .ok ch) :
    ∃ y x : Nat, row = y ∧ col = x ∧ y < H ∧ x < W ∧ rd a y x = ch := by
  unfold matrix_get at hg
  split at hg
  · rename_i h0
    split at hg
    · rename_i r hr
      split at hg
      · rename_i c hc
        have h4 := List.getElem?_eq_some_iff.mp hr
        obtain ⟨h5, h6⟩ := h4
        obtain ⟨h7, h8⟩ := List.getElem?_eq_some_iff.mp hc
        refine ⟨row.toNat, col.toNat, by omega, by omega, by rw [← h.1]; exact h5, ?_, ?_⟩
        · rw [← h.2 r (by rw [← h6]; exact List.getElem_mem h5)]; exact h7
        · injection hg with hg
          simp [rd, List.getD_eq_getElem?_getD, hr, hc, hg]
      · cases hg
    · cases hg
  · cases hg

theorem maze_set_ok {m : maze} {H W : Nat} (h : well_formed m.a H W)
    {y x : Nat} (hy : y < H) (hx : x < W) (v : Char) :
    ∃ m1, maze_set m (y : Int) (x : Int) v = .ok m1 ∧ same_frame m m1 H W ∧
      ∀ row col, rd m1.a row col = if row = y ∧ col = x then v else rd m.a row col := by
  obtain ⟨a1, h1, h2, h3⟩ := matrix_set_ok h hy hx v
  exact ⟨{ m with a := a1 }, by simp [maze_set, h1, Except.map], ⟨rfl, rfl, rfl, h2⟩, h3⟩

theorem same_frame_refl {m : maze} {H W : Nat} (h : well_formed m.a H W) :
    same_frame m m H W := ⟨rfl, rfl, rfl, h⟩

theorem same_frame_trans {m m1 m2 : maze} {H W : Nat} (h1 : same_frame m m1 H W)
    (h2 : same_frame m1 m2 H W) : same_frame m m2 H W :=
  ⟨h2.1.trans h1.1, h2.2.1.trans h1.2.1, h2.2.2.1.trans h1.2.2.1, h2.2.2.2⟩

theorem written_refl (a : List (List Char)) (v : Char) : written a a (fun _ _ => False) v :=
  fun _ _ => ⟨fun h => h.elim, fun _ => rfl⟩

theorem written_trans {a a1 a2 : List (List Char)} {P Q : Nat → Nat → Prop} {v : Char}
    (h1 : written a a1 P v) (h2 : written a1 a2 Q v) :
    written a a2 (fun row col => P row col ∨ Q row col) v := by
  intro row col
  by_cases hq : Q row col
  · exact ⟨fun _ => (h2 row col).1 hq, fun h => (h (Or.inr hq)).elim⟩
  · refine ⟨fun h => ?_, fun h => ?_⟩
    · rw [(h2 row col).2 hq]
      exact (h1 row col).1 (h.resolve_right hq)
    · rw [(h2 row col).2 hq]
      exact (h1 row col).2 (fun hp => h (Or.inl hp))

theorem written_congr {a a1 : List (List Char)} {P Q : Nat → Nat → Prop} {v : Char}
    (h : written a a1 P v) (hpq : ∀ row col, P row col ↔ Q row col) : written a a1 Q v :=
  fun row col => ⟨fun hq => (h row col).1 ((hpq row col).2 hq),
    fun hq => (h row col).2 (fun hp => hq ((hpq row col).1 hp))⟩

/-! ## Loops -/

/-- Invariant rule for `for_loop`: the loop returns, and the invariant holds at the end. -/
theorem for_loop_inv {σ : Type} (body : Nat → σ → Except Fault σ) (P : Nat → σ → Prop)
    (n : Nat) (s : σ) (h0 : P 0 s)
    (hstep : ∀ i s1, i < n → P i s1 → ∃ s2, body i s1 = .ok s2 ∧ P (i + 1) s2) :
    ∃ s1, for_loop body n s = .ok s1 ∧ P n s1 := by
  induction n with
  | zero => exact ⟨s, rfl, h0⟩
  | succ k ih =>
    obtain ⟨s1, h1, h2⟩ := ih (fun i s1 hi hp => hstep i s1 (by omega) hp)
    obtain ⟨s2, h3, h4⟩ := hstep k s1 (by omega) h2
    exact ⟨s2, by simp [for_loop, h1, bind, Except.bind, h3], h4⟩

/-- A loop of `n` writes of the same value at positions `(fy i, fx i)`. -/
theorem for_loop_set {m : maze} {H W : Nat} (h : well_formed m.a H W) (v : Char)
    (iy ix : Nat → Int) (fy fx : Nat → Nat) (n : Nat)
    (hidx : ∀ i, i < n → iy i = fy i ∧ ix i = fx i ∧ fy i < H ∧ fx i < W) :
    ∃ m1, for_loop (fun i mz => maze_set mz (iy i) (ix i) v) n m = .ok m1 ∧
      same_frame m m1 H W ∧
      written m.a m1.a (fun row col => ∃ i, i < n ∧ row = fy i ∧ col = fx i) v := by
  have key := for_loop_inv (fun i mz => maze_set mz (iy i) (ix i) v)
    (fun k mz => same_frame m mz H W ∧
      written m.a mz.a (fun row col => ∃ i, i < k ∧ row = fy i ∧ col = fx i) v) n m
    ⟨same_frame_refl h, written_congr (written_refl m.a v) (by simp)⟩
    (by
      intro i s1 hi hp
      obtain ⟨hf, hw⟩ := hp
      obtain ⟨e1, e2, b1, b2⟩ := hidx i hi
      obtain ⟨m2, g1, g2, g3⟩ := maze_set_ok hf.2.2.2 b1 b2 v
      refine ⟨m2, by simp only [e1, e2]; exact g1, same_frame_trans hf g2, ?_⟩
      have hw2 : written s1.a m2.a (fun row col => row = fy i ∧ col = fx i) v := by
        intro row col
        rw [g3]
        constructor
        · intro hh; simp [hh]
        · intro hh; simp [hh]
      refine written_congr (written_trans hw hw2) ?_
      intro row col
      constructor
      · rintro (⟨j, hj, hr⟩ | hr)
        · exact ⟨j, by omega, hr⟩
        · exact ⟨i, by omega, hr⟩
      · rintro ⟨j, hj, hr⟩
        by_cases hji : j = i
        · subst hji; exact Or.inr hr
        · exact Or.inl ⟨j, by omega, hr⟩)
  exact key

theorem block_idx_eq (m : maze) (c i : Nat) (h : m.cell_size / 2 ≤ c) :
    block_idx m c i = ((c - m.cell_size / 2 + i : Nat) : Int) := by
  unfold block_idx
  omega

/-- What `fill_cell` does, for a centre whose block lies inside the matrix. -/
theorem fill_cell_ok {m : maze} {H W : Nat} (h : well_formed m.a H W) (c : cell) (v : Char)
    (hy : m.cell_size / 2 ≤ c.y) (hx : m.cell_size / 2 ≤ c.x)
    (hy1 : c.y - m.cell_size / 2 + m.cell_size ≤ H)
    (hx1 : c.x - m.cell_size / 2 + m.cell_size ≤ W) :
    ∃ m1, fill_cell m c v = .ok m1 ∧ same_frame m m1 H W ∧
      written m.a m1.a (fun row col =>
        c.y - m.cell_size / 2 ≤ row ∧ row < c.y - m.cell_size / 2 + m.cell_size ∧
        c.x - m.cell_size / 2 ≤ col ∧ col < c.x - m.cell_size / 2 + m.cell_size) v := by
  have key := for_loop_inv (fun i mz =>
      for_loop (fun j mz1 => maze_set mz1 (block_idx m c.y i) (block_idx m c.x j) v)
        m.cell_size mz)
    (fun k mz => same_frame m mz H W ∧
      written m.a mz.a (fun row col =>
        c.y - m.cell_size / 2 ≤ row ∧ row < c.y - m.cell_size / 2 + k ∧
        c.x - m.cell_size / 2 ≤ col ∧ col < c.x - m.cell_size / 2 + m.cell_size) v)
    m.cell_size m
    ⟨same_frame_refl h, written_congr (written_refl m.a v)
      (fun row col => ⟨fun hh => hh.elim, fun hh => by omega⟩)⟩
    (by
      intro i s1 hi hp
      obtain ⟨hf, hw⟩ := hp
      obtain ⟨m2, g1, g2, g3⟩ := for_loop_set hf.2.2.2 v (fun _ => block_idx m c.y i)
        (fun j => block_idx m c.x j) (fun _ => c.y - m.cell_size / 2 + i)
        (fun j => c.x - m.cell_size / 2 + j) m.cell_size
        (by
          intro j hj
          exact ⟨block_idx_eq m c.y i hy, block_idx_eq m c.x j hx, by dsimp only; omega,
            by dsimp only; omega⟩)
      refine ⟨m2, g1, same_frame_trans hf g2, ?_⟩
      refine written_congr (written_trans hw g3) ?_
      intro row col
      constructor
      · rintro (⟨h1, h2, h3, h4⟩ | ⟨j, hj, h1, h2⟩)
        · exact ⟨h1, by omega, h3, h4⟩
        · exact ⟨by omega, by omega, by omega, by omega⟩
      · rintro ⟨h1, h2, h3, h4⟩
        by_cases hr : row < c.y - m.cell_size / 2 + i
        · exact Or.inl ⟨h1, hr, h3, h4⟩
        · exact Or.inr ⟨col - (c.x - m.cell_size / 2), by omega, by omega, by omega⟩)
  exact key

/-! ## Arithmetic of the grid -/

theorem cell_to_matrix_idx_eq (m : maze) (k : Nat) :
    cell_to_matrix_idx m k = centre m.cell_size k := rfl

theorem mul_ne_mul_add (t k c d : Nat) (h0 : 0 < d) (h1 : d < t) : t * k ≠ t * c + d := by
  intro h
  have h2 := congrArg (fun n => n % t) h
  simp only [Nat.mul_mod_right, Nat.mul_add_mod, Nat.mod_eq_of_lt h1] at h2
  omega

theorem centre_inj {s a b : Nat} (h : centre s a = centre s b) : a = b := by
  unfold centre at h
  have h1 : (s + 1) * a = (s + 1) * b := by omega
  exact Nat.eq_of_mul_eq_mul_left (by omega) h1

theorem centre_succ (s k : Nat) : centre s (k + 1) = centre s k + (s + 1) := by
  unfold centre
  rw [Nat.mul_add]
  omega

theorem block_le {s k n : Nat} (h : k < n) : (s + 1) * k + s + 1 ≤ (s + 1) * n := by
  have h1 : (s + 1) * (k + 1) ≤ (s + 1) * n := Nat.mul_le_mul_left _ h
  rw [Nat.mul_add] at h1
  omega

theorem centre_sub (s k : Nat) : centre s k - s / 2 = (s + 1) * k + 1 := by
  unfold centre
  omega

theorem centre_lt {s k n : Nat} (hs : 1 ≤ s) (h : k < n) : centre s k < (s + 1) * n := by
  have h1 := @block_le s k n h
  unfold centre
  omega

theorem centre_lt_centre {s a b : Nat} (h : a < b) : centre s a + (s + 1) ≤ centre s b := by
  unfold centre
  have h1 : (s + 1) * (a + 1) ≤ (s + 1) * b := Nat.mul_le_mul_left _ h
  rw [Nat.mul_add] at h1
  omega

theorem centre_lt_iff {s a b : Nat} : centre s a < centre s b ↔ a < b := by
  constructor
  · intro h
    by_contra hn
    rcases Nat.eq_or_lt_of_le (Nat.le_of_not_lt hn) with h1 | h1
    · subst h1; omega
    · have := @centre_lt_centre s b a h1
      omega
  · intro h
    have := @centre_lt_centre s a b h
    omega

/-- A position strictly between a centre and the next or previous one is no centre. -/
theorem centre_ne_add {s : Nat} (a k d : Nat) (h0 : 0 < d) (h1 : d < s + 1) :
    centre s k ≠ centre s a + d := by
  unfold centre
  intro h
  exact mul_ne_mul_add (s + 1) k a d h0 h1 (by omega)

theorem centre_ne_sub {s : Nat} (a k d : Nat) (h0 : 0 < d) (h1 : d < s + 1) :
    centre s k + d ≠ centre s a := by
  unfold centre
  intro h
  exact mul_ne_mul_add (s + 1) a k d h0 h1 (by omega)

theorem wall_idx_next (p d : Nat) : wall_idx p (p + d) = ((p + d / 2 : Nat) : Int) := by
  unfold wall_idx
  have h : ((p : Int) - ((p + d : Nat) : Int)) = -(d : Int) := by push_cast; ring
  rw [h, Int.neg_tdiv, Int.tdiv_eq_ediv (by omega) (by omega)]
  omega

theorem wall_idx_prev (p d : Nat) (hd : d ≤ p) :
    wall_idx (p + 0) (p - d) = ((p - d / 2 : Nat) : Int) := by
  unfold wall_idx
  have h : (((p + 0 : Nat) : Int) - ((p - d : Nat) : Int)) = (d : Int) := by omega
  rw [h, Int.tdiv_eq_ediv (by omega) (by omega)]
  omega

/-! ## remove_wall -/

/-- The two cells are in the same row: `remove_wall` writes a column of spaces. -/
theorem remove_wall_row {m : maze} {H W : Nat} (h : well_formed m.a H W) (a b : cell)
    (X : Nat) (hab : a.y = b.y) (hX : wall_idx a.x b.x = (X : Int)) (hXW : X < W)
    (hy : m.cell_size / 2 ≤ a.y) (hy1 : a.y - m.cell_size / 2 + m.cell_size ≤ H) :
    ∃ m1, remove_wall m a b = .ok m1 ∧ same_frame m m1 H W ∧
      written m.a m1.a (fun row col => col = X ∧
        a.y - m.cell_size / 2 ≤ row ∧ row < a.y - m.cell_size / 2 + m.cell_size) ' ' := by
  obtain ⟨m1, g1, g2, g3⟩ := for_loop_set h ' ' (fun i => block_idx m a.y i)
    (fun _ => wall_idx a.x b.x) (fun i => a.y - m.cell_size / 2 + i) (fun _ => X) m.cell_size
    (by
      intro i hi
      exact ⟨block_idx_eq m a.y i hy, hX, by dsimp only; omega, hXW⟩)
  refine ⟨m1, by simp only [remove_wall, hab, if_true]; rw [← hab]; exact g1, g2, ?_⟩
  refine written_congr g3 ?_
  intro row col
  constructor
  · rintro ⟨i, hi, h1, h2⟩
    exact ⟨h2, by omega, by omega⟩
  · rintro ⟨h1, h2, h3⟩
    exact ⟨row - (a.y - m.cell_size / 2), by omega, by omega, h1⟩

/-- The two cells are in different rows: `remove_wall` writes a row of spaces. -/
theorem remove_wall_col {m : maze} {H W : Nat} (h : well_formed m.a H W) (a b : cell)
    (Y : Nat) (hab : a.y ≠ b.y) (hY : wall_idx a.y b.y = (Y : Int)) (hYH : Y < H)
    (hx : m.cell_size / 2 ≤ a.x) (hx1 : a.x - m.cell_size / 2 + m.cell_size ≤ W) :
    ∃ m1, remove_wall m a b = .ok m1 ∧ same_frame m m1 H W ∧
      written m.a m1.a (fun row col => row = Y ∧
        a.x - m.cell_size / 2 ≤ col ∧ col < a.x - m.cell_size / 2 + m.cell_size) ' ' := by
  obtain ⟨m1, g1, g2, g3⟩ := for_loop_set h ' ' (fun _ => wall_idx a.y b.y)
    (fun i => block_idx m a.x i) (fun _ => Y) (fun i => a.x - m.cell_size / 2 + i) m.cell_size
    (by
      intro i hi
      exact ⟨hY, block_idx_eq m a.x i hx, hYH, by dsimp only; omega⟩)
  refine ⟨m1, by simp only [remove_wall, hab, if_false]; exact g1, g2, ?_⟩
  refine written_congr g3 ?_
  intro row col
  constructor
  · rintro ⟨i, hi, h1, h2⟩
    exact ⟨h1, by omega, by omega⟩
  · rintro ⟨h1, h2, h3⟩
    exact ⟨col - (a.x - m.cell_size / 2), by omega, h1, by omega⟩

/-- The index written by `remove_wall` lies strictly between the two centres, at
distance `(s + 1) / 2` from the first. -/
theorem wall_idx_centre {s : Nat} (hs : 1 ≤ s) (k k1 : Nat) (hk : k1 + 1 = k ∨ k1 = k + 1) :
    ∃ X : Nat, wall_idx (centre s k) (centre s k1) = (X : Int) ∧
      (X = centre s k + (s + 1) / 2 ∨ X + (s + 1) / 2 = centre s k) ∧
      X < centre s k + (s + 1) ∧ (s + 1) / 2 ≤ centre s k ∧
      (k1 = k + 1 → X = centre s k + (s + 1) / 2) ∧
      (k1 + 1 = k → X + (s + 1) / 2 = centre s k) := by
  have hc : (s + 1) / 2 ≤ centre s k := by unfold centre; omega
  rcases hk with hk | hk
  · subst hk
    refine ⟨centre s (k1 + 1) - (s + 1) / 2, ?_, Or.inr (by omega), by omega, hc,
      fun h => by omega, fun _ => by omega⟩
    have h1 : centre s k1 = centre s (k1 + 1) - (s + 1) := by rw [centre_succ]; omega
    have h2 := wall_idx_prev (centre s (k1 + 1)) (s + 1) (by rw [centre_succ]; omega)
    rw [h1]
    simpa using h2
  · subst hk
    refine ⟨centre s k + (s + 1) / 2, ?_, Or.inl rfl, by omega, hc, fun _ => rfl,
      fun h => by omega⟩
    rw [centre_succ]
    exact wall_idx_next _ _

/-- What `remove_wall` does between the centre of cell `(c, r)` and a neighbouring
centre: it returns, keeps the shape, and writes spaces at positions none of which is
the centre of a cell. -/
theorem remove_wall_ok {m : maze} {s width height : Nat} (hs : 1 ≤ s)
    (hms : m.cell_size = s)
    (h : well_formed m.a ((s + 1) * height + 1) ((s + 1) * width + 1))
    {c r : Nat} (hc : c < width) (hr : r < height) {n : cell}
    (hn : is_neighbour s width height c r n) :
    ∃ m1 P, remove_wall m ⟨centre s c, centre s r⟩ n = .ok m1 ∧
      same_frame m m1 ((s + 1) * height + 1) ((s + 1) * width + 1) ∧
      written m.a m1.a P ' ' ∧
      ∀ row col, P row col → ¬ is_centre s width height col row := by
  subst hms
  obtain ⟨c1, r1, hc1, hr1, hx, hy, hadj⟩ := hn
  have hbc := @block_le m.cell_size c width hc
  have hbr := @block_le m.cell_size r height hr
  have hsc := centre_sub m.cell_size c
  have hsr := centre_sub m.cell_size r
  have hcc : m.cell_size / 2 ≤ centre m.cell_size c := by unfold centre; omega
  have hcr : m.cell_size / 2 ≤ centre m.cell_size r := by unfold centre; omega
  rcases hadj with ⟨h1, h2⟩ | ⟨h1, h2⟩
  · -- same column, different rows
    obtain ⟨Y, e1, e2, e3, e4, e5, e6⟩ := wall_idx_centre hs r r1 h2
    have hne : centre m.cell_size r ≠ n.y := by
      rw [hy]; intro hh; have := centre_inj hh; omega
    have hYH : Y < (m.cell_size + 1) * height + 1 := by
      rcases h2 with h2 | h2
      · have := e6 h2; omega
      · have := e5 h2
        have h3 := @centre_lt m.cell_size r1 height hs hr1
        rw [h2, centre_succ] at h3
        omega
    obtain ⟨m1, g1, g2, g3⟩ := remove_wall_col h ⟨centre m.cell_size c, centre m.cell_size r⟩
      n Y hne (by rw [hy]; exact e1) hYH hcc (by simp only; omega)
    refine ⟨m1, _, g1, g2, g3, ?_⟩
    rintro row col ⟨p1, p2, p3⟩ ⟨c2, r2, q1, q2, q3, q4⟩
    rcases e2 with e2 | e2
    · exact @centre_ne_add m.cell_size r r2 ((m.cell_size + 1) / 2) (by omega) (by omega) (by omega)
    · exact @centre_ne_sub m.cell_size r r2 ((m.cell_size + 1) / 2) (by omega) (by omega) (by omega)
  · -- same row, different columns
    obtain ⟨X, e1, e2, e3, e4, e5, e6⟩ := wall_idx_centre hs c c1 h2
    have hXW : X < (m.cell_size + 1) * width + 1 := by
      rcases h2 with h2 | h2
      · have := e6 h2; omega
      · have := e5 h2
        have h3 := @centre_lt m.cell_size c1 width hs hc1
        rw [h2, centre_succ] at h3
        omega
    obtain ⟨m1, g1, g2, g3⟩ := remove_wall_row h ⟨centre m.cell_size c, centre m.cell_size r⟩
      n X (by rw [hy, h1]) (by rw [hx]; exact e1) hXW hcr (by simp only; omega)
    refine ⟨m1, _, g1, g2, g3, ?_⟩
    rintro row col ⟨p1, p2, p3⟩ ⟨c2, r2, q1, q2, q3, q4⟩
    rcases e2 with e2 | e2
    · exact @centre_ne_add m.cell_size c c2 ((m.cell_size + 1) / 2) (by omega) (by omega) (by omega)
    · exact @centre_ne_sub m.cell_size c c2 ((m.cell_size + 1) / 2) (by omega) (by omega) (by omega)

/-! ## get_available_neighbours -/

theorem check_neighbour_eq {m : maze} {H W : Nat} (h : well_formed m.a H W) (guard : Bool)
    (row col : Int) (y x : Nat) (nb : List cell)
    (hb : guard = true → row = y ∧ col = x ∧ y < H ∧ x < W) :
    check_neighbour m guard row col nb
      = .ok (nb ++ (if guard = true ∧ rd m.a y x ≠ 'v' then [⟨x, y⟩] else [])) := by
  unfold check_neighbour
  cases guard with
  | false => simp
  | true =>
    obtain ⟨e1, e2, b1, b2⟩ := hb rfl
    rw [e1, e2, matrix_get_ok h b1 b2]
    by_cases hv : rd m.a y x = 'v'
    · simp [hv]
    · simp [hv]

/-- The neighbours found from the centre of cell `(c, r)`, in the order of the code:
above, left, right, below, each only when inside the maze and not marked visited. -/
theorem get_available_neighbours_eq {m : maze} {s width height : Nat} (hs : 1 ≤ s)
    (hms : m.cell_size = s) (hmw : m.w = width) (hmh : m.h = height)
    (h : well_formed m.a ((s + 1) * height + 1) ((s + 1) * width + 1))
    {c r : Nat} (hc : c < width) (hr : r < height) :
    get_available_neighbours m ⟨centre s c, centre s r⟩ = .ok (
      (if 1 ≤ r ∧ rd m.a (centre s (r - 1)) (centre s c) ≠ 'v'
        then [⟨centre s c, centre s (r - 1)⟩] else []) ++
      (if 1 ≤ c ∧ rd m.a (centre s r) (centre s (c - 1)) ≠ 'v'
        then [⟨centre s (c - 1), centre s r⟩] else []) ++
      (if c + 1 < width ∧ rd m.a (centre s r) (centre s (c + 1)) ≠ 'v'
        then [⟨centre s (c + 1), centre s r⟩] else []) ++
      (if r + 1 < height ∧ rd m.a (centre s (r + 1)) (centre s c) ≠ 'v'
        then [⟨centre s c, centre s (r + 1)⟩] else [])) := by
  subst hms hmw hmh
  have hxc := @centre_lt m.cell_size c m.w hs hc
  have hyr := @centre_lt m.cell_size r m.h hs hr
  unfold get_available_neighbours
  simp only [cell_to_matrix_idx_eq]
  -- above
  rw [check_neighbour_eq h _ _ _ (centre m.cell_size (r - 1)) (centre m.cell_size c) []
    (by
      intro hg
      have hg1 : 0 < r := centre_lt_iff.mp (by simpa using hg)
      have h1 := centre_succ m.cell_size (r - 1)
      rw [Nat.sub_add_cancel hg1] at h1
      refine ⟨by unfold matrix_idx_prev_cell; omega, rfl, by omega, by omega⟩)]
  simp only [bind, Except.bind]
  -- left
  rw [check_neighbour_eq h _ _ _ (centre m.cell_size r) (centre m.cell_size (c - 1)) _
    (by
      intro hg
      have hg1 : 0 < c := centre_lt_iff.mp (by simpa using hg)
      have h1 := centre_succ m.cell_size (c - 1)
      rw [Nat.sub_add_cancel hg1] at h1
      refine ⟨rfl, by unfold matrix_idx_prev_cell; omega, by omega, by omega⟩)]
  simp only []
  -- right
  rw [check_neighbour_eq h _ _ _ (centre m.cell_size r) (centre m.cell_size (c + 1)) _
    (by
      intro hg
      have hg1 : c < m.w - 1 := centre_lt_iff.mp (by simpa using hg)
      have h1 := centre_succ m.cell_size c
      have h2 := @centre_lt m.cell_size (c + 1) m.w hs (by omega)
      refine ⟨rfl, by unfold matrix_idx_next_cell; omega, by omega, by omega⟩)]
  simp only []
  -- below
  rw [check_neighbour_eq h _ _ _ (centre m.cell_size (r + 1)) (centre m.cell_size c) _
    (by
      intro hg
      have hg1 : r < m.h - 1 := centre_lt_iff.mp (by simpa using hg)
      have h1 := centre_succ m.cell_size r
      have h2 := @centre_lt m.cell_size (r + 1) m.h hs (by omega)
      refine ⟨by unfold matrix_idx_next_cell; omega, rfl, by omega, by omega⟩)]
  have g1 : (centre m.cell_size r > centre m.cell_size 0) ↔ 1 ≤ r := by
    rw [gt_iff_lt, centre_lt_iff]; omega
  have g2 : (centre m.cell_size c > centre m.cell_size 0) ↔ 1 ≤ c := by
    rw [gt_iff_lt, centre_lt_iff]; omega
  have g3 : (centre m.cell_size c < centre m.cell_size (m.w - 1)) ↔ c + 1 < m.w := by
    rw [centre_lt_iff]; omega
  have g4 : (centre m.cell_size r < centre m.cell_size (m.h - 1)) ↔ r + 1 < m.h := by
    rw [centre_lt_iff]; omega
  simp only [decide_eq_true_eq, g1, g2, g3, g4, List.nil_append]

/-- Every neighbour found is the unvisited centre of an adjacent cell. -/
theorem get_available_neighbours_ok {m : maze} {s width height : Nat} (hs : 1 ≤ s)
    (hms : m.cell_size = s) (hmw : m.w = width) (hmh : m.h = height)
    (h : well_formed m.a ((s + 1) * height + 1) ((s + 1) * width + 1))
    {c r : Nat} (hc : c < width) (hr : r < height) :
    ∃ nb, get_available_neighbours m ⟨centre s c, centre s r⟩ = .ok nb ∧
      ∀ n ∈ nb, is_neighbour s width height c r n ∧ rd m.a n.y n.x ≠ 'v' := by
  refine ⟨_, get_available_neighbours_eq hs hms hmw hmh h hc hr, ?_⟩
  intro n hn
  simp only [List.mem_append] at hn
  rcases hn with ((hn | hn) | hn) | hn
  · split at hn
    · rename_i hg
      simp only [List.mem_singleton] at hn
      subst hn
      exact ⟨⟨c, r - 1, hc, by omega, rfl, rfl, Or.inl ⟨rfl, Or.inl (by omega)⟩⟩, hg.2⟩
    · simp at hn
  · split at hn
    · rename_i hg
      simp only [List.mem_singleton] at hn
      subst hn
      exact ⟨⟨c - 1, r, by omega, hr, rfl, rfl, Or.inr ⟨rfl, Or.inl (by omega)⟩⟩, hg.2⟩
    · simp at hn
  · split at hn
    · rename_i hg
      simp only [List.mem_singleton] at hn
      subst hn
      exact ⟨⟨c + 1, r, hg.1, hr, rfl, rfl, Or.inr ⟨rfl, Or.inr rfl⟩⟩, hg.2⟩
    · simp at hn
  · split at hn
    · rename_i hg
      simp only [List.mem_singleton] at hn
      subst hn
      exact ⟨⟨c, r + 1, hc, hg.1, rfl, rfl, Or.inl ⟨rfl, Or.inr rfl⟩⟩, hg.2⟩
    · simp at hn

/-! ## Counting visited cells -/

theorem visited_count_le (a : List (List Char)) (s width height : Nat) :
    visited_count a s width height ≤ width * height := by
  unfold visited_count
  refine le_trans (Finset.card_filter_le _ _) ?_
  simp

theorem visited_count_lt {a a1 : List (List Char)} {s width height : Nat}
    (hmono : ∀ c r, c < width → r < height →
      rd a (centre s r) (centre s c) = 'v' → rd a1 (centre s r) (centre s c) = 'v')
    (hnew : ∃ c r, c < width ∧ r < height ∧
      rd a (centre s r) (centre s c) ≠ 'v' ∧ rd a1 (centre s r) (centre s c) = 'v') :
    visited_count a s width height < visited_count a1 s width height := by
  unfold visited_count
  apply Finset.card_lt_card
  rw [Finset.ssubset_iff_of_subset]
  · obtain ⟨c, r, hc, hr, h1, h2⟩ := hnew
    refine ⟨(c, r), ?_, ?_⟩
    · simp [hc, hr, h2]
    · simp [h1]
  · intro p hp
    simp only [Finset.mem_filter, Finset.mem_product, Finset.mem_range] at hp ⊢
    exact ⟨hp.1, hmono p.1 p.2 hp.1.1 hp.1.2 hp.2⟩

/-! ## Stack -/

theorem stack_pop_eq {s : stack} {c : cell} (h : s.cell_list[s.top_of_stack]? = some c)
    (h0 : s.top_of_stack ≠ 0) :
    stack_pop s = .ok (c, { s with top_of_stack := s.top_of_stack - 1 }) := by
  unfold stack_pop
  rw [h]
  simp [Nat.pos_of_ne_zero h0]

theorem stack_push_eq {s : stack} (c : cell) (h : s.top_of_stack ≠ s.capacity)
    (h1 : s.top_of_stack + 1 < s.cell_list.length) :
    stack_push s c = .ok (0, { s with top_of_stack := s.top_of_stack + 1,
                                      cell_list := s.cell_list.set (s.top_of_stack + 1) c }) := by
  unfold stack_push
  simp [h, h1]

/-! ## The carving loop -/

/-- Visiting a new cell: `mark_visited` on an unvisited neighbouring centre followed by
`remove_wall` returns, marks exactly one more centre and touches no other centre. -/
theorem visit_ok {m : maze} {s width height : Nat} (hs : 1 ≤ s)
    (hms : m.cell_size = s)
    (h : well_formed m.a ((s + 1) * height + 1) ((s + 1) * width + 1))
    (hmarks : ∀ y x, rd m.a y x = 'v' → is_centre s width height x y)
    (hchars : ∀ y x, rd m.a y x = 'w' ∨ rd m.a y x = 'v' ∨ rd m.a y x = ' ')
    {c r : Nat} (hc : c < width) (hr : r < height) {n : cell}
    (hn : is_neighbour s width height c r n) (hv : rd m.a n.y n.x ≠ 'v') :
    ∃ m1 m2, mark_visited m n = .ok m1 ∧ remove_wall m1 ⟨centre s c, centre s r⟩ n = .ok m2 ∧
      same_frame m m2 ((s + 1) * height + 1) ((s + 1) * width + 1) ∧
      (∀ y x, rd m2.a y x = 'v' → is_centre s width height x y) ∧
      (∀ y x, rd m2.a y x = 'w' ∨ rd m2.a y x = 'v' ∨ rd m2.a y x = ' ') ∧
      visited_count m.a s width height < visited_count m2.a s width height := by
  have hn0 := hn
  obtain ⟨c1, r1, hc1, hr1, hx, hy, -⟩ := hn
  have b1 := @centre_lt s r1 height hs hr1
  have b2 := @centre_lt s c1 width hs hc1
  obtain ⟨m1, g1, g2, g3⟩ := @maze_set_ok m _ _ h n.y n.x (by omega) (by omega) 'v'
  obtain ⟨m2, P, k1, k2, k3, k4⟩ := remove_wall_ok hs (g2.2.2.1.trans hms) g2.2.2.2 hc hr hn0
  have hcentre : ∀ y x, is_centre s width height x y → rd m2.a y x = rd m1.a y x :=
    fun y x hxy => (k3 y x).2 (fun hp => k4 y x hp hxy)
  refine ⟨m1, m2, g1, k1, same_frame_trans g2 k2, ?_, ?_, ?_⟩
  · intro y x hyx
    by_cases hp : P y x
    · rw [(k3 y x).1 hp] at hyx
      exact absurd hyx (by decide)
    · rw [(k3 y x).2 hp, g3] at hyx
      split at hyx
      · rename_i heq
        exact ⟨c1, r1, hc1, hr1, by rw [heq.2, hx], by rw [heq.1, hy]⟩
      · exact hmarks y x hyx
  · intro y x
    by_cases hp : P y x
    · rw [(k3 y x).1 hp]; simp
    · rw [(k3 y x).2 hp, g3]
      split
      · simp
      · exact hchars y x
  · apply visited_count_lt
    · intro c2 r2 hc2 hr2 hv2
      rw [hcentre _ _ ⟨c2, r2, hc2, hr2, rfl, rfl⟩, g3]
      split
      · rfl
      · exact hv2
    · refine ⟨c1, r1, hc1, hr1, by rw [← hx, ← hy]; exact hv, ?_⟩
      rw [hcentre _ _ ⟨c1, r1, hc1, hr1, rfl, rfl⟩, g3]
      simp [hx, hy]

/-- One iteration of the carving loop from a state with a non-empty stack: it returns,
keeps the invariant, and the measure goes down. -/
theorem carve_step_ok (draws : Nat → Nat) {s width height : Nat} (hs : 1 ≤ s)
    {st : carve_state} (inv : carve_inv s width height st)
    (hne : st.stk.top_of_stack ≠ 0) :
    ∃ st1, carve_step draws st = .ok st1 ∧ carve_inv s width height st1 ∧
      carve_measure s width height st1 < carve_measure s width height st := by
  obtain ⟨cl, hcl, c, r, hc, hr, hx, hy⟩ := inv.live st.stk.top_of_stack (by omega) le_rfl
  have hcl2 : cl = ⟨centre s c, centre s r⟩ := by
    cases cl; simp only at hx hy; rw [hx, hy]
  subst hcl2
  have hpop := stack_pop_eq hcl hne
  obtain ⟨nb, hnb, hnbp⟩ := get_available_neighbours_ok hs inv.frame_s inv.frame_w
    inv.frame_h inv.shape hc hr
  have hvle := visited_count_le st.mz.a s width height
  have htop := inv.top_le
  have hcap := inv.cap
  have hlen := inv.len
  unfold carve_step
  simp only [hpop, bind, Except.bind, hnb]
  by_cases hl : nb.length > 0
  · simp only [hl, if_true]
    -- push the current cell back
    rw [stack_push_eq _ (by simp only; omega) (by simp only; omega)]
    simp only [c_mod, Nat.ne_of_gt hl, if_false]
    have hi : draws st.drawn % nb.length < nb.length := Nat.mod_lt _ hl
    rw [List.getElem?_eq_getElem hi]
    simp only []
    have hmem : nb[draws st.drawn % nb.length] ∈ nb := List.getElem_mem hi
    obtain ⟨hnei, hnv⟩ := hnbp _ hmem
    obtain ⟨m1, m2, g1, g2, g3, g4, g5, g6⟩ := visit_ok hs inv.frame_s inv.shape inv.marks
      inv.chars hc hr hnei hnv
    have hvle2 := visited_count_le m2.a s width height
    rw [g1]
    simp only []
    rw [g2]
    simp only []
    rw [stack_push_eq _ (by simp only; omega) (by simp only [List.length_set]; omega)]
    refine ⟨_, rfl, ?_, ?_⟩
    · have e1 : st.stk.top_of_stack - 1 + 1 = st.stk.top_of_stack := by omega
      refine ⟨g3.1.trans inv.frame_w, g3.2.1.trans inv.frame_h, g3.2.2.1.trans inv.frame_s,
        g3.2.2.2, hcap, by simp only [List.length_set]; exact hlen,
        by simp only; omega, ?_, g4, g5, ?_⟩
      · intro i hi1 hi2
        simp only [e1] at hi2 ⊢
        simp only [List.getElem?_set, List.length_set]
        by_cases h1 : st.stk.top_of_stack + 1 = i
        · obtain ⟨c1, r1, hc1, hr1, hx1, hy1, -⟩ := hnei
          refine ⟨_, by rw [if_pos h1, if_pos (by omega)], c1, r1, hc1, hr1, hx1, hy1⟩
        · rw [if_neg h1]
          by_cases h2 : st.stk.top_of_stack = i
          · refine ⟨_, by rw [if_pos h2, if_pos (by omega)], c, r, hc, hr, rfl, rfl⟩
          · rw [if_neg h2]
            exact inv.live i hi1 (by omega)
      · intro rc hrc
        simp only [List.mem_append, List.mem_cons, List.mem_singleton, List.not_mem_nil,
          or_false] at hrc
        rcases hrc with hrc | hrc | hrc
        · exact inv.pushes rc hrc
        · exact hrc
        · exact hrc
    · unfold carve_measure
      simp only
      omega
  · simp only [hl, if_false]
    refine ⟨_, rfl, ?_, ?_⟩
    · refine ⟨inv.frame_w, inv.frame_h, inv.frame_s, inv.shape, hcap, hlen,
        by simp only; omega, ?_, inv.marks, inv.chars, inv.pushes⟩
      intro i hi1 hi2
      exact inv.live i hi1 (by simp only at hi2; omega)
    · unfold carve_measure
      simp only
      omega

/-- From any state satisfying the invariant, the loop can be run for any number of
iterations: the state reached satisfies the invariant. -/
theorem carve_run_inv (draws : Nat → Nat) {s width height : Nat} (hs : 1 ≤ s) (n : Nat) :
    ∀ st, carve_inv s width height st →
      ∃ st1, carve_run draws n st = .ok st1 ∧ carve_inv s width height st1 ∧
        carve_measure s width height st1 ≤ carve_measure s width height st ∧
        (carve_measure s width height st ≤ n → st1.stk.top_of_stack = 0) := by
  induction n with
  | zero =>
    intro st inv
    refine ⟨st, rfl, inv, le_rfl, ?_⟩
    intro h0
    unfold carve_measure at h0
    omega
  | succ k ih =>
    intro st inv
    by_cases he : st.stk.top_of_stack = 0
    · exact ⟨st, by simp [carve_run, stack_isempty, he], inv, le_rfl, fun _ => he⟩
    · obtain ⟨st1, h1, h2, h3⟩ := carve_step_ok draws hs inv he
      obtain ⟨st2, k1, k2, k3, k4⟩ := ih st1 h2
      refine ⟨st2, ?_, k2, by omega, fun hle => k4 (by omega)⟩
      simp [carve_run, stack_isempty, he, h1, bind, Except.bind, k1]

/-- The carving loop returns when given at least `carve_measure` iterations. -/
theorem carve_loop_ok (draws : Nat → Nat) {s width height : Nat} (hs : 1 ≤ s) (fuel : Nat)
    {st : carve_state} (inv : carve_inv s width height st)
    (hfuel : carve_measure s width height st ≤ fuel) :
    ∃ st1, carve_loop draws fuel st = .ok st1 ∧ carve_inv s width height st1 ∧
      st1.stk.top_of_stack = 0 := by
  obtain ⟨st1, h1, h2, -, h4⟩ := carve_run_inv draws hs fuel st inv
  refine ⟨st1, ?_, h2, h4 hfuel⟩
  simp [carve_loop, h1, bind, Except.bind, stack_isempty, h4 hfuel]

theorem rd_replicate (H W : Nat) (y x : Nat) :
    rd (List.replicate H (List.replicate W WALL)) y x = WALL := by
  unfold rd
  simp only [List.getD_eq_getElem?_getD, List.getElem?_replicate]
  by_cases hy : y < H
  · by_cases hx : x < W
    · simp [hy, hx]
    · simp [hy, hx]
  · simp [hy]

theorem well_formed_replicate (H W : Nat) :
    well_formed (List.replicate H (List.replicate W WALL)) H W := by
  refine ⟨by simp, ?_⟩
  intro r hr
  rw [List.eq_of_mem_replicate hr]
  simp

/-- Lines 201-224 return a state that satisfies the invariant, with one cell visited
and on the stack. -/
theorem carve_init_ok (heap : Nat → cell) (draws : Nat → Nat) {s width height : Nat}
    (hs : 1 ≤ s) (hw : 1 ≤ width) (hh : 1 ≤ height) :
    ∃ st, carve_init heap draws width height s = .ok st ∧ carve_inv s width height st ∧
      carve_measure s width height st + 1 ≤ 2 * (width * height) ∧ st.drawn = 1 := by
  have hr : draws 0 % height < height := Nat.mod_lt _ (by omega)
  have b1 := @centre_lt s (draws 0 % height) height hs hr
  have b2 := @centre_lt s 0 width hs (by omega)
  have hwf := well_formed_replicate ((s + 1) * height + 1) ((s + 1) * width + 1)
  obtain ⟨m1, g1, g2, g3⟩ := @maze_set_ok
    { a := List.replicate ((s + 1) * height + 1) (List.replicate ((s + 1) * width + 1) WALL),
      w := width, h := height, cell_size := s } _ _ hwf
    (centre s (draws 0 % height)) (centre s 0) (by omega) (by omega) 'v'
  have hpos : 1 ≤ width * height := Nat.mul_pos hw hh
  have hv : 1 ≤ visited_count m1.a s width height := by
    unfold visited_count
    apply Finset.card_pos.mpr
    refine ⟨(0, draws 0 % height), ?_⟩
    simp only [Finset.mem_filter, Finset.mem_product, Finset.mem_range]
    refine ⟨⟨by omega, hr⟩, ?_⟩
    rw [g3]; simp
  refine ⟨{ mz := m1,
            stk := { cell_list := ((List.range (width * height + 1)).map heap).set 1
                       ⟨centre s 0, centre s (draws 0 % height)⟩,
                     top_of_stack := 1, capacity := width * height },
            drawn := 1, push_results := [0],
            marked := [⟨centre s 0, centre s (draws 0 % height)⟩], removed := [] },
    ?_, ?_, ?_, rfl⟩
  · unfold carve_init
    simp only [c_mod, Nat.ne_of_gt hh, if_false, bind, Except.bind, mark_visited,
      maze_dimension_to_matrix, cell_to_matrix_idx_eq, g1]
    rw [stack_push_eq _ (by simp only [init_stack]; omega)
      (by simp only [init_stack, List.length_map, List.length_range]; omega)]
    rfl
  · refine ⟨g2.1, g2.2.1, g2.2.2.1, g2.2.2.2, rfl, by simp, hv, ?_, ?_, ?_, ?_⟩
    · intro i hi1 hi2
      have hi : i = 1 := by simp only at hi2; omega
      subst hi
      refine ⟨⟨centre s 0, centre s (draws 0 % height)⟩, ?_, 0, _, by omega, hr, rfl, rfl⟩
      simp only [List.getElem?_set, List.length_map, List.length_range]
      simp
      omega
    · intro y x hyx
      rw [g3] at hyx
      split at hyx
      · rename_i heq
        exact ⟨0, _, by omega, hr, heq.2, heq.1⟩
      · rw [rd_replicate] at hyx
        exact absurd hyx (by decide)
    · intro y x
      rw [g3]
      split
      · simp
      · rw [rd_replicate]; simp
    · intro rc hrc
      simpa using hrc
  · have hvle := visited_count_le m1.a s width height
    unfold carve_measure
    simp only
    omega

/-! ## The sweep that erases the visited marks -/

theorem in_block_self {s : Nat} (hs : 1 ≤ s) (c r : Nat) :
    in_block s c r (centre s r) (centre s c) := by
  unfold in_block centre
  omega

theorem block_unique_aux {s a b x : Nat} (h1 : (s + 1) * a + 1 ≤ x) (h2 : x ≤ (s + 1) * a + s)
    (h3 : (s + 1) * b + 1 ≤ x) (h4 : x ≤ (s + 1) * b + s) : a = b := by
  rcases Nat.lt_trichotomy a b with h | h | h
  · have := @block_le s a b h; omega
  · exact h
  · have := @block_le s b a h; omega

theorem in_block_unique {s c r c1 r1 row col : Nat} (h : in_block s c r row col)
    (h1 : in_block s c1 r1 row col) : c = c1 ∧ r = r1 :=
  ⟨block_unique_aux h.2.2.1 h.2.2.2 h1.2.2.1 h1.2.2.2, block_unique_aux h.1 h.2.1 h1.1 h1.2.1⟩

/-- One step of the inner loop of the sweep, at position `(i, j)`. -/
theorem sweep_step {m mz : maze} {s width height : Nat} (hs : 1 ≤ s)
    (hms : m.cell_size = s)
    (hmarks : ∀ y x, rd m.a y x = 'v' → is_centre s width height x y)
    {i j : Nat} (hi : i < (s + 1) * height + 1) (hj : j < (s + 1) * width + 1)
    (hf : same_frame m mz ((s + 1) * height + 1) ((s + 1) * width + 1))
    (hw : written m.a mz.a (swept m.a s width height i j) ' ') :
    ∃ mz1, (matrix_get mz.a i j >>= fun ch =>
        if ch = 'v' then fill_cell mz { x := j, y := i } ' ' else .ok mz) = .ok mz1 ∧
      same_frame m mz1 ((s + 1) * height + 1) ((s + 1) * width + 1) ∧
      written m.a mz1.a (swept m.a s width height i (j + 1)) ' ' := by
  rw [matrix_get_ok hf.2.2.2 hi hj]
  simp only [bind, Except.bind]
  have hmono : ∀ row col, swept m.a s width height i j row col →
      swept m.a s width height i (j + 1) row col := by
    rintro row col ⟨c, r, hc, hr, hv, hb, hin⟩
    refine ⟨c, r, hc, hr, hv, ?_, hin⟩
    unfold scanned_before at hb ⊢
    omega
  have hnot : ¬ swept m.a s width height i j i j → rd m.a i j = rd mz.a i j :=
    fun hn => ((hw i j).2 hn).symm
  have hself : ∀ c r, c < width → r < height → i = centre s r → j = centre s c →
      ¬ swept m.a s width height i j i j := by
    rintro c r hc hr hi hj ⟨c1, r1, hc1, hr1, hv1, hb1, hin1⟩
    have hin : in_block s c r i j := by rw [hi, hj]; exact in_block_self hs c r
    obtain ⟨e1, e2⟩ := in_block_unique hin hin1
    subst e1 e2
    unfold scanned_before at hb1
    omega
  by_cases hv : rd mz.a i j = 'v'
  · simp only [hv, if_true]
    have hns : ¬ swept m.a s width height i j i j := by
      intro hsw
      rw [(hw i j).1 hsw] at hv
      exact absurd hv (by decide)
    have hvm : rd m.a i j = 'v' := by rw [hnot hns]; exact hv
    obtain ⟨c0, r0, hc0, hr0, hx0, hy0⟩ := hmarks i j hvm
    subst hx0 hy0
    have hbc := @block_le s c0 width hc0
    have hbr := @block_le s r0 height hr0
    have hsc := centre_sub s c0
    have hsr := centre_sub s r0
    have hgc : s / 2 + 1 ≤ centre s c0 := by unfold centre; omega
    have hgr : s / 2 + 1 ≤ centre s r0 := by unfold centre; omega
    have hcs : mz.cell_size = s := hf.2.2.1.trans hms
    obtain ⟨mz1, g1, g2, g3⟩ := fill_cell_ok hf.2.2.2 ⟨centre s c0, centre s r0⟩ ' '
      (by show mz.cell_size / 2 ≤ centre s r0; rw [hcs]; omega)
      (by show mz.cell_size / 2 ≤ centre s c0; rw [hcs]; omega)
      (by show centre s r0 - mz.cell_size / 2 + mz.cell_size ≤ _; rw [hcs]; omega)
      (by show centre s c0 - mz.cell_size / 2 + mz.cell_size ≤ _; rw [hcs]; omega)
    simp only [hcs, hsc, hsr] at g3
    refine ⟨mz1, g1, same_frame_trans hf g2, ?_⟩
    refine written_congr (written_trans hw g3) ?_
    intro row col
    constructor
    · rintro (h1 | ⟨h1, h2, h3, h4⟩)
      · exact hmono row col h1
      · refine ⟨c0, r0, hc0, hr0, hvm, ?_, ?_⟩
        · unfold scanned_before; omega
        · unfold in_block; omega
    · rintro ⟨c, r, hc, hr, hv1, hb, hin⟩
      by_cases hb0 : scanned_before (centre s r) (centre s c) (centre s r0) (centre s c0)
      · left
        exact ⟨c, r, hc, hr, hv1, hb0, hin⟩
      · right
        have e1 : centre s r = centre s r0 ∧ centre s c = centre s c0 := by
          unfold scanned_before at hb hb0
          omega
        have e2 := centre_inj e1.1
        have e3 := centre_inj e1.2
        subst e2 e3
        unfold in_block at hin
        omega
  · simp only [hv, if_false]
    refine ⟨mz, rfl, hf, ?_⟩
    refine written_congr hw ?_
    intro row col
    constructor
    · exact hmono row col
    · rintro ⟨c, r, hc, hr, hv1, hb, hin⟩
      by_cases hb0 : scanned_before (centre s r) (centre s c) i j
      · exact ⟨c, r, hc, hr, hv1, hb0, hin⟩
      · exfalso
        have e1 : centre s r = i ∧ centre s c = j := by
          unfold scanned_before at hb hb0
          omega
        have hns := hself c r hc hr e1.1.symm e1.2.symm
        have := hnot hns
        rw [← e1.1, ← e1.2] at this
        rw [← e1.1, ← e1.2, ← this] at hv
        exact hv hv1

/-- The sweep returns and writes spaces exactly in the blocks of the cells whose centre
was marked visited (so no mark is left when the marks are at centres only). -/
theorem sweep_visited_ok {m : maze} {s width height : Nat} (hs : 1 ≤ s)
    (hms : m.cell_size = s) (hmw : m.w = width) (hmh : m.h = height)
    (h : well_formed m.a ((s + 1) * height + 1) ((s + 1) * width + 1))
    (hmarks : ∀ y x, rd m.a y x = 'v' → is_centre s width height x y) :
    ∃ m1, sweep_visited m = .ok m1 ∧
      same_frame m m1 ((s + 1) * height + 1) ((s + 1) * width + 1) ∧
      written m.a m1.a (fun row col => ∃ c r, c < width ∧ r < height ∧
        rd m.a (centre s r) (centre s c) = 'v' ∧ in_block s c r row col) ' ' := by
  have key := for_loop_inv
    (fun row mz => for_loop (fun col mz1 =>
      matrix_get mz1.a row col >>= fun ch =>
      if ch = 'v' then fill_cell mz1 { x := col, y := row } ' ' else .ok mz1)
      ((s + 1) * width + 1) mz)
    (fun i mz => same_frame m mz ((s + 1) * height + 1) ((s + 1) * width + 1) ∧
      written m.a mz.a (swept m.a s width height i 0) ' ')
    ((s + 1) * height + 1) m
    ⟨same_frame_refl h, written_congr (written_refl m.a ' ') (by
      intro row col
      constructor
      · intro hh; exact hh.elim
      · rintro ⟨c, r, -, -, -, hb, -⟩
        unfold scanned_before at hb
        omega)⟩
    (by
      intro i mz hi hp
      obtain ⟨mz1, g1, g2, g3⟩ := for_loop_inv
        (fun col mz1 => matrix_get mz1.a i col >>= fun ch =>
          if ch = 'v' then fill_cell mz1 { x := col, y := i } ' ' else .ok mz1)
        (fun j mz1 => same_frame m mz1 ((s + 1) * height + 1) ((s + 1) * width + 1) ∧
          written m.a mz1.a (swept m.a s width height i j) ' ')
        ((s + 1) * width + 1) mz hp
        (fun j mz1 hj hq => sweep_step hs hms hmarks hi hj hq.1 hq.2)
      refine ⟨mz1, g1, g2, written_congr g3 ?_⟩
      intro row col
      constructor
      · rintro ⟨c, r, hc, hr, hv, hb, hin⟩
        refine ⟨c, r, hc, hr, hv, ?_, hin⟩
        unfold scanned_before at hb ⊢
        omega
      · rintro ⟨c, r, hc, hr, hv, hb, hin⟩
        refine ⟨c, r, hc, hr, hv, ?_, hin⟩
        have := @centre_lt s c width hs hc
        unfold scanned_before at hb ⊢
        omega)
  obtain ⟨m1, g1, g2, g3⟩ := key
  refine ⟨m1, ?_, g2, written_congr g3 ?_⟩
  · unfold sweep_visited maze_dimension_to_matrix
    rw [hms, hmw, hmh]
    exact g1
  · intro row col
    constructor
    · rintro ⟨c, r, hc, hr, hv, -, hin⟩
      exact ⟨c, r, hc, hr, hv, hin⟩
    · rintro ⟨c, r, hc, hr, hv, hin⟩
      refine ⟨c, r, hc, hr, hv, ?_, hin⟩
      have := @centre_lt s r height hs hr
      unfold scanned_before
      omega

/-! ## Entry, exit and the result of the carving phase -/

/-- The loops with `break`: the first row of `rows` whose test column holds a space gets
a space in the column to open; without such a row nothing is written. -/
theorem open_border_eq {m : maze} {H W : Nat} (h : well_formed m.a H W) (tc : Nat)
    (htc : tc < W) (oc : Int) (rows : List Nat) (hrows : ∀ row ∈ rows, row < H) :
    open_border m (tc : Int) oc rows =
      match rows.find? (fun row => decide (rd m.a row tc = ' ')) with
      | none => .ok m
      | some row => maze_set m row oc ' ' := by
  induction rows with
  | nil => rfl
  | cons row rest ih =>
    unfold open_border
    rw [matrix_get_ok h (hrows row (List.mem_cons_self _ _)) htc]
    by_cases hsp : rd m.a row tc = ' '
    · simp [hsp, List.find?_cons]
    · simp only [hsp, if_false, List.find?_cons, decide_False]
      exact ih (fun r hr => hrows r (List.mem_cons_of_mem _ hr))

/-- The loops with `break` return, keep the shape and write at most one space. -/
theorem open_border_ok {m : maze} {H W : Nat} (h : well_formed m.a H W) (tc : Nat)
    (htc : tc < W) (oc : Nat) (hoc : oc < W) (rows : List Nat) (hrows : ∀ row ∈ rows, row < H) :
    ∃ m1, open_border m (tc : Int) (oc : Int) rows = .ok m1 ∧ same_frame m m1 H W ∧
      ∀ y x, rd m1.a y x = rd m.a y x ∨ rd m1.a y x = ' ' := by
  rw [open_border_eq h tc htc _ rows hrows]
  split
  · exact ⟨m, rfl, same_frame_refl h, fun y x => Or.inl rfl⟩
  · rename_i row hfind
    have hrow := hrows row (List.mem_of_find?_eq_some hfind)
    obtain ⟨m1, g1, g2, g3⟩ := maze_set_ok h hrow hoc ' '
    refine ⟨m1, g1, g2, ?_⟩
    intro y x
    rw [g3]
    split
    · exact Or.inr rfl
    · exact Or.inl rfl

/-- Lines 195-271: for every number of iterations allowed, the carving phase either
runs out of them (only when fewer than `2 * width * height - 1` are allowed) or returns
a maze whose matrix has the dimensions stored in `w` and `h` and holds only walls and
spaces. -/
theorem carve_maze_ok (heap : Nat → cell) (draws : Nat → Nat) (fuel : Nat)
    {s width height : Nat} (hs : 1 ≤ s) (hw : 1 ≤ width) (hh : 1 ≤ height) :
    (carve_maze heap draws fuel width height s = .error .outOfFuel ∧
      fuel + 1 < 2 * (width * height)) ∨
    ∃ m k, carve_maze heap draws fuel width height s = .ok (m, k) ∧
      m.w = (s + 1) * width + 1 ∧ m.h = (s + 1) * height + 1 ∧ m.cell_size = s ∧
      well_formed m.a m.h m.w ∧
      ∀ y x, rd m.a y x = WALL ∨ rd m.a y x = ' ' := by
  obtain ⟨st0, a1, a2, a3, -⟩ := carve_init_ok heap draws hs hw hh
  obtain ⟨st1, r1, b2, -, r4⟩ := carve_run_inv draws hs fuel st0 a2
  by_cases htop : st1.stk.top_of_stack = 0
  swap
  · left
    refine ⟨?_, ?_⟩
    · simp [carve_maze, a1, carve_loop, r1, bind, Except.bind, stack_isempty, htop]
    · by_contra hn
      exact htop (r4 (by omega))
  right
  have b1 : carve_loop draws fuel st0 = .ok st1 := by
    simp [carve_loop, r1, bind, Except.bind, stack_isempty, htop]
  obtain ⟨m1, c1, c2, c3⟩ := sweep_visited_ok hs b2.frame_s b2.frame_w b2.frame_h b2.shape
    b2.marks
  have hm1 : ∀ y x, rd m1.a y x = WALL ∨ rd m1.a y x = ' ' := by
    intro y x
    by_cases hp : ∃ c r, c < width ∧ r < height ∧
        rd st1.mz.a (centre s r) (centre s c) = 'v' ∧ in_block s c r y x
    · exact Or.inr ((c3 y x).1 hp)
    · rw [(c3 y x).2 hp]
      rcases b2.chars y x with h1 | h1 | h1
      · exact Or.inl h1
      · exfalso
        obtain ⟨c, r, hc, hr, hx, hy⟩ := b2.marks y x h1
        subst hx hy
        exact hp ⟨c, r, hc, hr, h1, in_block_self hs c r⟩
      · exact Or.inr h1
  have e1w : m1.w = width := c2.1.trans b2.frame_w
  have e1h : m1.h = height := c2.2.1.trans b2.frame_h
  have e1s : m1.cell_size = s := c2.2.2.1.trans b2.frame_s
  have hpw : 0 < (s + 1) * width := Nat.mul_pos (by omega) hw
  obtain ⟨m2, d1, d2, d3⟩ := open_border_ok c2.2.2.2 1 (by omega) 0 (by omega)
    (List.range ((s + 1) * height + 1)) (fun row hrow => List.mem_range.mp hrow)
  have e2w : m2.w = width := d2.1.trans e1w
  have e2h : m2.h = height := d2.2.1.trans e1h
  have e2s : m2.cell_size = s := d2.2.2.1.trans e1s
  have hcl := @centre_lt s (width - 1) width hs (by omega)
  obtain ⟨m3, f1, f2, f3⟩ := open_border_ok d2.2.2.2 (centre s (width - 1)) (by omega)
    ((s + 1) * width) (by omega) (List.range ((s + 1) * height + 1)).reverse
    (fun row hrow => List.mem_range.mp (List.mem_reverse.mp hrow))
  have e3w : m3.w = width := f2.1.trans e2w
  have e3h : m3.h = height := f2.2.1.trans e2h
  have e3s : m3.cell_size = s := f2.2.2.1.trans e2s
  refine ⟨{ m3 with w := (s + 1) * width + 1, h := (s + 1) * height + 1 }, st1.drawn,
    ?_, rfl, rfl, e3s, f2.2.2.2, ?_⟩
  · unfold carve_maze
    simp only [a1, b1, c1, bind, Except.bind]
    have hd1 : select_entry m1 = .ok m2 := by
      unfold select_entry maze_dimension_to_matrix
      rw [e1s, e1h]
      exact d1
    have hd2 : select_exit m2 = .ok m3 := by
      unfold select_exit maze_dimension_to_matrix
      rw [cell_to_matrix_idx_eq, e2s, e2h, e2w]
      have : (((s + 1) * width + 1 : Nat) : Int) - 1 = (((s + 1) * width : Nat) : Int) := by
        omega
      rw [this]
      exact f1
    simp only [hd1, hd2, maze_dimension_to_matrix, e3w, e3h, e3s]
  · intro y x
    show rd m3.a y x = WALL ∨ rd m3.a y x = ' '
    rcases f3 y x with h1 | h1
    · rw [h1]
      rcases d3 y x with h2 | h2
      · rw [h2]; exact hm1 y x
      · exact Or.inr h2
    · exact Or.inr h1

/-! ## Potion placement -/

theorem for_loop_succ_inv {σ : Type} {body : Nat → σ → Except Fault σ} {n : Nat} {s s2 : σ}
    (h : for_loop body (n + 1) s = .ok s2) :
    ∃ s1, for_loop body n s = .ok s1 ∧ body n s1 = .ok s2 := by
  simp only [for_loop, bind, Except.bind] at h
  split at h
  · cases h
  · rename_i s1 h1
    exact ⟨s1, h1, h⟩

/-- A position returned by the `do ... while` loop is in the sampled region and holds a
space. -/
theorem pick_passage_inv (draws : Nat → Nat) (m : maze) (fuel : Nat) :
    ∀ k row col k1, pick_passage draws m fuel k = .ok (row, col, k1) →
      row < m.h - 1 ∧ col < m.w - 1 ∧ matrix_get m.a row col = .ok ' ' := by
  induction fuel with
  | zero => intro k row col k1 h; simp [pick_passage] at h
  | succ n ih =>
    intro k row col k1 h
    unfold pick_passage at h
    unfold c_mod at h
    by_cases h1 : m.h - 1 = 0
    · simp [h1, bind, Except.bind] at h
    by_cases h2 : m.w - 1 = 0
    · simp [h1, h2, bind, Except.bind] at h
    simp only [h1, h2, if_false, bind, Except.bind] at h
    split at h
    · cases h
    · rename_i ch hch
      by_cases hsp : ch = ' '
      · subst hsp
        simp only [ne_eq, not_true_eq_false, if_false] at h
        injection h with h
        injection h with e1 e2
        injection e2 with e2 e3
        subst e1 e2
        exact ⟨Nat.mod_lt _ (by omega), Nat.mod_lt _ (by omega), hch⟩
      · simp only [ne_eq, hsp, not_false_eq_true, if_true] at h
        exact ih _ _ _ _ h

/-- One round of the placement loop turns one space of the matrix into a potion. -/
theorem place_step_inv {draws : Nat → Nat} {fuel : Nat} {s s1 : maze × Nat} {H W : Nat}
    (hwf : well_formed s.1.a H W)
    (h : (pick_passage draws s.1 fuel s.2 >>= fun p =>
          maze_set s.1 p.1 p.2.1 POTION >>= fun m1 => .ok (m1, p.2.2)) = .ok s1) :
    ∃ row col, row < H ∧ col < W ∧ rd s.1.a row col = ' ' ∧ same_frame s.1 s1.1 H W ∧
      ∀ y x, rd s1.1.a y x = if y = row ∧ x = col then POTION else rd s.1.a y x := by
  simp only [bind, Except.bind] at h
  split at h
  · cases h
  · rename_i p hp
    obtain ⟨row, col, k1⟩ := p
    obtain ⟨-, -, h3⟩ := pick_passage_inv draws s.1 fuel s.2 row col k1 hp
    obtain ⟨y, x, e1, e2, b1, b2, hrd⟩ := matrix_get_inv hwf h3
    have e3 : y = row := by omega
    have e4 : x = col := by omega
    subst e3 e4
    obtain ⟨m1, g1, g2, g3⟩ := maze_set_ok hwf b1 b2 POTION
    simp only [g1] at h
    injection h with h
    subst h
    exact ⟨y, x, b1, b2, hrd, g2, g3⟩

theorem mem_rd {a : List (List Char)} {r : List Char} {ch : Char} (hr : r ∈ a) (hch : ch ∈ r) :
    ∃ y x, rd a y x = ch := by
  obtain ⟨y, hy, e1⟩ := List.mem_iff_getElem.mp hr
  obtain ⟨x, hx, e2⟩ := List.mem_iff_getElem.mp hch
  refine ⟨y, x, ?_⟩
  subst e1
  simp [rd, List.getD_eq_getElem?_getD, List.getElem?_eq_getElem hy,
    List.getElem?_eq_getElem hx, e2]

/-- When `generate_maze` returns, the carving phase returned a maze of walls and spaces
and three rounds of placement each turned a space into a potion. -/
theorem generate_maze_inv {heap : Nat → cell} {draws : Nat → Nat} {fuel : Nat}
    {s width height : Nat} (hs : 1 ≤ s) (hw : 1 ≤ width) (hh : 1 ≤ height) {m : maze}
    (hret : generate_maze heap draws fuel width height s = .ok m) :
    ∃ m0 k m1 m2 r1 c1 r2 c2 r3 c3,
      carve_maze heap draws fuel width height s = .ok (m0, k) ∧
      m0.w = (s + 1) * width + 1 ∧ m0.h = (s + 1) * height + 1 ∧ m0.cell_size = s ∧
      well_formed m0.a m0.h m0.w ∧ (∀ y x, rd m0.a y x = WALL ∨ rd m0.a y x = ' ') ∧
      same_frame m0 m1 m0.h m0.w ∧ same_frame m1 m2 m0.h m0.w ∧ same_frame m2 m m0.h m0.w ∧
      r1 < m0.h ∧ c1 < m0.w ∧ rd m0.a r1 c1 = ' ' ∧
      (∀ y x, rd m1.a y x = if y = r1 ∧ x = c1 then POTION else rd m0.a y x) ∧
      r2 < m0.h ∧ c2 < m0.w ∧ rd m1.a r2 c2 = ' ' ∧
      (∀ y x, rd m2.a y x = if y = r2 ∧ x = c2 then POTION else rd m1.a y x) ∧
      r3 < m0.h ∧ c3 < m0.w ∧ rd m2.a r3 c3 = ' ' ∧
      (∀ y x, rd m.a y x = if y = r3 ∧ x = c3 then POTION else rd m2.a y x) := by
  rcases carve_maze_ok heap draws fuel hs hw hh with ⟨he, -⟩ | ⟨m0, k, h0, e1, e2, e3, e4, e5⟩
  · simp [generate_maze, he, bind, Except.bind] at hret
  simp only [generate_maze, h0, bind, Except.bind] at hret
  split at hret
  · cases hret
  rename_i res hres
  injection hret with hret
  unfold place_potions NEEDED_POTIONS at hres
  obtain ⟨s2, hs2, hb3⟩ := for_loop_succ_inv hres
  obtain ⟨s1, hs1, hb2⟩ := for_loop_succ_inv hs2
  obtain ⟨s0, hs0, hb1⟩ := for_loop_succ_inv hs1
  simp only [for_loop] at hs0
  injection hs0 with hs0
  subst hs0
  obtain ⟨r1, c1, p1, p2, p3, p4, p5⟩ := place_step_inv e4 hb1
  obtain ⟨r2, c2, q1, q2, q3, q4, q5⟩ := place_step_inv p4.2.2.2 hb2
  obtain ⟨r3, c3, t1, t2, t3, t4, t5⟩ := place_step_inv q4.2.2.2 hb3
  subst hret
  exact ⟨m0, k, s1.1, s2.1, r1, c1, r2, c2, r3, c3, h0, e1, e2, e3, e4, e5, p4, q4, t4,
    p1, p2, p3, p5, q1, q2, q3, q5, t1, t2, t3, t5⟩

/-! ## Claims -/

/-- C3: whenever `generate_maze` returns, exactly `NEEDED_POTIONS = 3` entries of the
returned matrix equal `POTION`, at three pairwise distinct positions, and each of these
positions held a space in the matrix as it was just before the placement loop (the
matrix returned by the carving phase). -/
theorem potions_placed (heap : Nat → cell) (draws : Nat → Nat) (fuel : Nat)
    (width height cell_size : Nat) (m : maze)
    (hw : 1 ≤ width) (hh : 1 ≤ height) (hs : 1 ≤ cell_size)
    (hret : generate_maze heap draws fuel width height cell_size = .ok m) :
    ∃ m0 k p1 p2 p3, carve_maze heap draws fuel width height cell_size = .ok (m0, k) ∧
      p1 ≠ p2 ∧ p1 ≠ p3 ∧ p2 ≠ p3 ∧
      potion_positions m = {p1, p2, p3} ∧ (potion_positions m).card = NEEDED_POTIONS ∧
      (∀ y x, rd m.a y x = POTION ↔ (y, x) = p1 ∨ (y, x) = p2 ∨ (y, x) = p3) ∧
      rd m0.a p1.1 p1.2 = ' ' ∧ rd m0.a p2.1 p2.2 = ' ' ∧ rd m0.a p3.1 p3.2 = ' ' := by
  obtain ⟨m0, k, m1, m2, r1, c1, r2, c2, r3, c3, h0, e1, e2, e3, e4, e5, f1, f2, f3,
    a1, a2, a3, a4, b1, b2, b3, b4, d1, d2, d3, d4⟩ := generate_maze_inv hs hw hh hret
  have hne0 : ∀ y x, rd m0.a y x ≠ POTION := by
    intro y x
    rcases e5 y x with h | h <;> rw [h] <;> decide
  have n12 : (r1, c1) ≠ (r2, c2) := by
    intro h
    injection h with h1 h2
    subst h1 h2
    rw [a4, if_pos ⟨rfl, rfl⟩] at b3
    exact absurd b3 (by decide)
  have n23 : (r2, c2) ≠ (r3, c3) := by
    intro h
    injection h with h1 h2
    subst h1 h2
    rw [b4, if_pos ⟨rfl, rfl⟩] at d3
    exact absurd d3 (by decide)
  have n13 : (r1, c1) ≠ (r3, c3) := by
    intro h
    injection h with h1 h2
    subst h1 h2
    rw [b4] at d3
    split at d3
    · exact absurd d3 (by decide)
    · rw [a4, if_pos ⟨rfl, rfl⟩] at d3
      exact absurd d3 (by decide)
  have hiff : ∀ y x, rd m.a y x = POTION ↔
      (y, x) = (r1, c1) ∨ (y, x) = (r2, c2) ∨ (y, x) = (r3, c3) := by
    intro y x
    rw [d4, b4, a4]
    simp only [Prod.mk.injEq]
    by_cases h3 : y = r3 ∧ x = c3
    · simp [h3]
    · by_cases h2 : y = r2 ∧ x = c2
      · simp [h2]
      · by_cases h1 : y = r1 ∧ x = c1
        · simp [h1]
        · simp only [h1, h2, h3, if_false, or_false]
          exact iff_of_false (hne0 y x) (fun h => h)
  have hset : potion_positions m = {(r1, c1), (r2, c2), (r3, c3)} := by
    ext p
    obtain ⟨y, x⟩ := p
    simp only [potion_positions, Finset.mem_filter, Finset.mem_product, Finset.mem_range,
      Finset.mem_insert, Finset.mem_singleton, hiff]
    constructor
    · exact fun h => h.2
    · intro h
      refine ⟨?_, h⟩
      have hmh : m.h = m0.h := f3.2.1.trans (f2.2.1.trans f1.2.1)
      have hmw : m.w = m0.w := f3.1.trans (f2.1.trans f1.1)
      rw [hmh, hmw]
      rcases h with h | h | h <;> injection h with h1 h2 <;> subst h1 h2
      · exact ⟨a1, a2⟩
      · exact ⟨b1, b2⟩
      · exact ⟨d1, d2⟩
  refine ⟨m0, k, (r1, c1), (r2, c2), (r3, c3), h0, n12, n13, n23, hset, ?_, hiff, a3, ?_, ?_⟩
  · rw [hset]
    exact Finset.card_eq_three.mpr ⟨_, _, _, n12, n13, n23, rfl⟩
  · rw [a4] at b3
    split at b3
    · exact absurd b3 (by decide)
    · exact b3
  · rw [b4] at d3
    split at d3
    · exact absurd d3 (by decide)
    · rw [a4] at d3
      split at d3
      · exact absurd d3 (by decide)
      · exact d3

/-- Witness for C3: a 3 x 3 maze of cell size 1. -/
theorem potions_placed_witness :
    ∃ m0 k p1 p2 p3,
      carve_maze heap_zero (draws_of [0, 0, 0, 0, 0, 0, 0, 0, 0, 1, 1, 1, 2, 1, 3]) 20 3 3 1
        = .ok (m0, k) ∧
      p1 ≠ p2 ∧ p1 ≠ p3 ∧ p2 ≠ p3 ∧
      potion_positions
        { a := [['w', 'w', 'w', 'w', 'w', 'w', 'w'],
                [' ', '#', '#', '#', ' ', ' ', 'w'],
                ['w', 'w', 'w', 'w', 'w', ' ', 'w'],
                ['w', ' ', ' ', ' ', ' ', ' ', 'w'],
                ['w', ' ', 'w', 'w', 'w', 'w', 'w'],
                ['w', ' ', ' ', ' ', ' ', ' ', ' '],
                ['w', 'w', 'w', 'w', 'w', 'w', 'w']], w := 7, h := 7, cell_size := 1 }
        = {p1, p2, p3} ∧
      (potion_positions
        { a := [['w', 'w', 'w', 'w', 'w', 'w', 'w'],
                [' ', '#', '#', '#', ' ', ' ', 'w'],
                ['w', 'w', 'w', 'w', 'w', ' ', 'w'],
                ['w', ' ', ' ', ' ', ' ', ' ', 'w'],
                ['w', ' ', 'w', 'w', 'w', 'w', 'w'],
                ['w', ' ', ' ', ' ', ' ', ' ', ' '],
                ['w', 'w', 'w', 'w', 'w', 'w', 'w']], w := 7, h := 7, cell_size := 1 }).card
        = NEEDED_POTIONS ∧
      (∀ y x, rd [['w', 'w', 'w', 'w', 'w', 'w', 'w'],
                [' ', '#', '#', '#', ' ', ' ', 'w'],
                ['w', 'w', 'w', 'w', 'w', ' ', 'w'],
                ['w', ' ', ' ', ' ', ' ', ' ', 'w'],
                ['w', ' ', 'w', 'w', 'w', 'w', 'w'],
                ['w', ' ', ' ', ' ', ' ', ' ', ' '],
                ['w', 'w', 'w', 'w', 'w', 'w', 'w']] y x = POTION ↔
          (y, x) = p1 ∨ (y, x) = p2 ∨ (y, x) = p3) ∧
      rd m0.a p1.1 p1.2 = ' ' ∧ rd m0.a p2.1 p2.2 = ' ' ∧ rd m0.a p3.1 p3.2 = ' ' :=
  potions_placed heap_zero (draws_of [0, 0, 0, 0, 0, 0, 0, 0, 0, 1, 1, 1, 2, 1, 3]) 20 3 3 1
    { a := [['w', 'w', 'w', 'w', 'w', 'w', 'w'],
            [' ', '#', '#', '#', ' ', ' ', 'w'],
            ['w', 'w', 'w', 'w', 'w', ' ', 'w'],
            ['w', ' ', ' ', ' ', ' ', ' ', 'w'],
            ['w', ' ', 'w', 'w', 'w', 'w', 'w'],
            ['w', ' ', ' ', ' ', ' ', ' ', ' '],
            ['w', 'w', 'w', 'w', 'w', 'w', 'w']], w := 7, h := 7, cell_size := 1 }
    (by decide) (by decide) (by decide) (by rfl)

/-- C4: whenever `generate_maze` returns, every entry of the returned matrix is `WALL`,
a space or `POTION`; in particular none is the visited mark `v`. -/
theorem no_visited_mark_left (heap : Nat → cell) (draws : Nat → Nat) (fuel : Nat)
    (width height cell_size : Nat) (m : maze)
    (hw : 1 ≤ width) (hh : 1 ≤ height) (hs : 1 ≤ cell_size)
    (hret : generate_maze heap draws fuel width height cell_size = .ok m) :
    ∀ row ∈ m.a, ∀ ch ∈ row, (ch = WALL ∨ ch = ' ' ∨ ch = POTION) ∧ ch ≠ 'v' := by
  obtain ⟨m0, k, m1, m2, r1, c1, r2, c2, r3, c3, h0, e1, e2, e3, e4, e5, f1, f2, f3,
    a1, a2, a3, a4, b1, b2, b3, b4, d1, d2, d3, d4⟩ := generate_maze_inv hs hw hh hret
  have key : ∀ y x, rd m.a y x = WALL ∨ rd m.a y x = ' ' ∨ rd m.a y x = POTION := by
    intro y x
    rw [d4]
    split
    · exact Or.inr (Or.inr rfl)
    · rw [b4]
      split
      · exact Or.inr (Or.inr rfl)
      · rw [a4]
        split
        · exact Or.inr (Or.inr rfl)
        · rcases e5 y x with h | h
          · exact Or.inl h
          · exact Or.inr (Or.inl h)
  intro row hrow ch hch
  obtain ⟨y, x, hyx⟩ := mem_rd hrow hch
  have h := key y x
  rw [hyx] at h
  refine ⟨h, ?_⟩
  rcases h with h | h | h <;> rw [h] <;> decide

/-- Witness for C4: a 3 x 3 maze of cell size 1. -/
theorem no_visited_mark_left_witness :
    ∃ m, generate_maze heap_zero (draws_of [0, 0, 0, 0, 0, 0, 0, 0, 0, 1, 2, 1, 3, 1, 4]) 20 3 3 1
        = .ok m ∧
      m.a = [['w', 'w', 'w', 'w', 'w', 'w', 'w'],
             [' ', ' ', '#', '#', '#', ' ', 'w'],
             ['w', 'w', 'w', 'w', 'w', ' ', 'w'],
             ['w', ' ', ' ', ' ', ' ', ' ', 'w'],
             ['w', ' ', 'w', 'w', 'w', 'w', 'w'],
             ['w', ' ', ' ', ' ', ' ', ' ', ' '],
             ['w', 'w', 'w', 'w', 'w', 'w', 'w']] ∧
      ∀ row ∈ m.a, ∀ ch ∈ row, (ch = WALL ∨ ch = ' ' ∨ ch = POTION) ∧ ch ≠ 'v' :=
  ⟨_, rfl, rfl, no_visited_mark_left heap_zero
    (draws_of [0, 0, 0, 0, 0, 0, 0, 0, 0, 1, 2, 1, 3, 1, 4]) 20 3 3 1 _
    (by decide) (by decide) (by decide) rfl⟩

/-- For `width, height, cell_size >= 1`, the part of `generate_maze` that builds the
matrix and sets the fields `w` and `h` (lines 195-271) always returns, given
`2 * width * height - 1` iterations for the carving loop, with
`h = (cell_size + 1) * height + 1`, `w = (cell_size + 1) * width + 1` and a matrix of
exactly `h` rows of exactly `w` characters; and every maze that `generate_maze` returns
has these fields and this shape. -/
theorem generate_maze_dimensions (heap : Nat → cell) (draws : Nat → Nat) (fuel : Nat)
    (width height cell_size : Nat)
    (hw : 1 ≤ width) (hh : 1 ≤ height) (hs : 1 ≤ cell_size)
    (hfuel : 2 * (width * height) ≤ fuel + 1) :
    (∃ m k, carve_maze heap draws fuel width height cell_size = .ok (m, k) ∧
      m.h = (cell_size + 1) * height + 1 ∧ m.w = (cell_size + 1) * width + 1 ∧
      m.a.length = m.h ∧ ∀ row ∈ m.a, row.length = m.w) ∧
    (∀ m, generate_maze heap draws fuel width height cell_size = .ok m →
      m.h = (cell_size + 1) * height + 1 ∧ m.w = (cell_size + 1) * width + 1 ∧
      m.a.length = m.h ∧ ∀ row ∈ m.a, row.length = m.w) := by
  constructor
  · rcases carve_maze_ok heap draws fuel hs hw hh with ⟨-, hlt⟩ | ⟨m0, k, h0, e1, e2, e3, e4, -⟩
    · omega
    · exact ⟨m0, k, h0, e2, e1, e4.1, e4.2⟩
  · intro m hret
    obtain ⟨m0, k, m1, m2, r1, c1, r2, c2, r3, c3, h0, e1, e2, e3, e4, e5, f1, f2, f3, -⟩ :=
      generate_maze_inv hs hw hh hret
    have hmh : m.h = m0.h := f3.2.1.trans (f2.2.1.trans f1.2.1)
    have hmw : m.w = m0.w := f3.1.trans (f2.1.trans f1.1)
    refine ⟨hmh.trans e2, hmw.trans e1, ?_, ?_⟩
    · rw [hmh]; exact f3.2.2.2.1
    · rw [hmw]; exact f3.2.2.2.2

/-- An instance: `width = height = 3`, `cell_size = 1` gives a 7 x 7 matrix. -/
theorem generate_maze_dimensions_witness :
    ∃ m, generate_maze heap_zero (draws_of [0, 0, 0, 0, 0, 0, 0, 0, 0, 1, 1, 1, 2, 1, 3]) 20 3 3 1
        = .ok m ∧
      m.h = 7 ∧ m.w = 7 ∧ m.a.length = 7 ∧ ∀ row ∈ m.a, row.length = 7 :=
  ⟨_, rfl, (generate_maze_dimensions heap_zero
    (draws_of [0, 0, 0, 0, 0, 0, 0, 0, 0, 1, 1, 1, 2, 1, 3]) 20 3 3 1
    (by decide) (by decide) (by decide) (by decide)).2 _ rfl⟩

/-- C7: for every cell size `s` (in particular `s >= 1`) and every logical cell
`(col, row)` of the maze, `fill_cell` called with the centre of that cell and a value
`v` returns a maze in which the entries with row index in
`[(s + 1) * row + 1, (s + 1) * row + s]` and column index in
`[(s + 1) * col + 1, (s + 1) * col + s]` hold `v` and every other entry is unchanged;
these are `s * s` positions, and the other fields and the shape of the matrix are
unchanged. -/
theorem fill_cell_writes_block (m : maze) (col row : Nat) (v : Char)
    (hc : col < m.w) (hr : row < m.h)
    (hwf : well_formed m.a (maze_dimension_to_matrix m m.h) (maze_dimension_to_matrix m m.w)) :
    ∃ m1, fill_cell m { x := cell_to_matrix_idx m col, y := cell_to_matrix_idx m row } v
        = .ok m1 ∧
      m1.w = m.w ∧ m1.h = m.h ∧ m1.cell_size = m.cell_size ∧
      well_formed m1.a (maze_dimension_to_matrix m m.h) (maze_dimension_to_matrix m m.w) ∧
      (∀ y x,
        ((m.cell_size + 1) * row + 1 ≤ y ∧ y ≤ (m.cell_size + 1) * row + m.cell_size ∧
         (m.cell_size + 1) * col + 1 ≤ x ∧ x ≤ (m.cell_size + 1) * col + m.cell_size →
          rd m1.a y x = v) ∧
        (¬ ((m.cell_size + 1) * row + 1 ≤ y ∧ y ≤ (m.cell_size + 1) * row + m.cell_size ∧
            (m.cell_size + 1) * col + 1 ≤ x ∧ x ≤ (m.cell_size + 1) * col + m.cell_size) →
          rd m1.a y x = rd m.a y x)) ∧
      (Finset.Icc ((m.cell_size + 1) * row + 1) ((m.cell_size + 1) * row + m.cell_size) ×ˢ
        Finset.Icc ((m.cell_size + 1) * col + 1) ((m.cell_size + 1) * col + m.cell_size)).card
        = m.cell_size * m.cell_size := by
  have hbc := @block_le m.cell_size col m.w hc
  have hbr := @block_le m.cell_size row m.h hr
  have hsc := centre_sub m.cell_size col
  have hsr := centre_sub m.cell_size row
  have hgc : m.cell_size / 2 + 1 ≤ centre m.cell_size col := by unfold centre; omega
  have hgr : m.cell_size / 2 + 1 ≤ centre m.cell_size row := by unfold centre; omega
  unfold maze_dimension_to_matrix at hwf ⊢
  obtain ⟨m1, g1, g2, g3⟩ := fill_cell_ok hwf
    ⟨centre m.cell_size col, centre m.cell_size row⟩ v
    (by show _ ≤ centre m.cell_size row; omega) (by show _ ≤ centre m.cell_size col; omega)
    (by show centre m.cell_size row - _ + _ ≤ _; omega)
    (by show centre m.cell_size col - _ + _ ≤ _; omega)
  simp only [hsc, hsr] at g3
  refine ⟨m1, g1, g2.1, g2.2.1, g2.2.2.1, g2.2.2.2, ?_, ?_⟩
  · intro y x
    constructor
    · intro hin
      exact (g3 y x).1 (by omega)
    · intro hout
      exact (g3 y x).2 (by omega)
  · simp [Finset.card_product, Nat.card_Icc]

/-- Witness for C7: cell `(1, 0)` of a 2 x 1 maze of cell size 2. -/
theorem fill_cell_writes_block_witness :
    ∃ m1, fill_cell { a := List.replicate 4 (List.replicate 7 WALL), w := 2, h := 1,
                      cell_size := 2 } { x := 5, y := 2 } ' ' = .ok m1 ∧
      m1.a = [['w', 'w', 'w', 'w', 'w', 'w', 'w'],
              ['w', 'w', 'w', 'w', ' ', ' ', 'w'],
              ['w', 'w', 'w', 'w', ' ', ' ', 'w'],
              ['w', 'w', 'w', 'w', 'w', 'w', 'w']] := by
  obtain ⟨m1, h1, -⟩ := fill_cell_writes_block
    { a := List.replicate 4 (List.replicate 7 WALL), w := 2, h := 1, cell_size := 2 } 1 0 ' '
    (by decide) (by decide) (well_formed_replicate 4 7)
  exact ⟨_, rfl, rfl⟩

/-- C1 (the code differs): a 2 x 2 maze of cell size 2.  The last cell visited, `(0, 1)`,
is reached by a move to the left; `remove_wall` then writes inside the block of cell
`(1, 1)` instead of the seam, so both seams of cell `(0, 1)` stay entirely `WALL`: the
cell is cut off and only 2 pairs of cells are joined, not `2 * 2 - 1 = 3`. -/
theorem even_cell_size_cuts_off_a_cell :
    ∃ m, generate_maze heap_zero (draws_of [0, 0, 0, 0, 1, 1, 1, 2, 2, 1]) 10 2 2 2 = .ok m ∧
      m.a = [['w', 'w', 'w', 'w', 'w', 'w', 'w'],
             [' ', '#', '#', ' ', ' ', ' ', 'w'],
             ['w', '#', ' ', ' ', ' ', ' ', 'w'],
             ['w', 'w', 'w', 'w', ' ', ' ', 'w'],
             ['w', ' ', ' ', 'w', ' ', ' ', 'w'],
             ['w', ' ', ' ', 'w', ' ', ' ', ' '],
             ['w', 'w', 'w', 'w', 'w', 'w', 'w']] ∧
      joined_pairs m 2 2 = 2 ∧
      joined_right m 0 1 = false ∧ joined_down m 0 0 = false ∧
      rd m.a 4 3 = WALL ∧ rd m.a 5 3 = WALL ∧ rd m.a 3 1 = WALL ∧ rd m.a 3 2 = WALL :=
  ⟨_, rfl, rfl, by decide, by decide, by decide, by decide, by decide, by decide, by decide⟩

/-- C2 (the code differs): a 2 x 2 maze of cell size 1.  The first potion is drawn at
row 1, column 0, the entry opening, so column 0 of the returned matrix holds a potion
and no space at all. -/
theorem potion_on_entry :
    ∃ m, generate_maze heap_zero (draws_of [0, 0, 0, 0, 1, 0, 1, 1, 1, 2]) 10 2 2 1 = .ok m ∧
      m.a = [['w', 'w', 'w', 'w', 'w'],
             ['#', '#', '#', ' ', 'w'],
             ['w', 'w', 'w', ' ', 'w'],
             ['w', ' ', ' ', ' ', ' '],
             ['w', 'w', 'w', 'w', 'w']] ∧
      rd m.a 1 0 = POTION ∧ ∀ row, row < m.h → rd m.a row 0 ≠ ' ' :=
  ⟨_, rfl, rfl, by decide, by decide⟩

/-- C6 (the code differs): cell size 2, `a` the centre of cell `(1, 0)` and `b` the centre
of cell `(0, 0)`, to its left.  The seam between the two blocks is column 3;
`remove_wall` writes column 4, which is inside the block of `a` (columns 4 and 5), and
leaves the seam `WALL`. -/
theorem remove_wall_even_left :
    ∃ m1, remove_wall
        { a := List.replicate 4 (List.replicate 7 WALL), w := 2, h := 1, cell_size := 2 }
        { x := 5, y := 2 } { x := 2, y := 2 } = .ok m1 ∧
      m1.a = [['w', 'w', 'w', 'w', 'w', 'w', 'w'],
              ['w', 'w', 'w', 'w', ' ', 'w', 'w'],
              ['w', 'w', 'w', 'w', ' ', 'w', 'w'],
              ['w', 'w', 'w', 'w', 'w', 'w', 'w']] ∧
      cell_to_matrix_idx
        { a := List.replicate 4 (List.replicate 7 WALL), w := 2, h := 1, cell_size := 2 } 1 = 5 ∧
      cell_to_matrix_idx
        { a := List.replicate 4 (List.replicate 7 WALL), w := 2, h := 1, cell_size := 2 } 0 = 2 ∧
      wall_idx 5 2 = 4 ∧ rd m1.a 1 3 = WALL ∧ rd m1.a 2 3 = WALL :=
  ⟨_, rfl, rfl, rfl, rfl, by decide, by decide, by decide⟩

/-- The `do ... while` loop either runs out of iterations or returns a position of the
sampled region that holds a space; it has no other outcome. -/
theorem pick_passage_cases (draws : Nat → Nat) (m : maze) (hwf : well_formed m.a m.h m.w)
    (hh : 2 ≤ m.h) (hw : 2 ≤ m.w) (fuel : Nat) :
    ∀ k, pick_passage draws m fuel k = .error .outOfFuel ∨
      ∃ row col k1, pick_passage draws m fuel k = .ok (row, col, k1) ∧
        row < m.h - 1 ∧ col < m.w - 1 ∧ rd m.a row col = ' ' := by
  induction fuel with
  | zero => intro k; exact Or.inl rfl
  | succ n ih =>
    intro k
    have h1 : m.h - 1 ≠ 0 := by omega
    have h2 : m.w - 1 ≠ 0 := by omega
    have b1 : draws k % (m.h - 1) < m.h - 1 := Nat.mod_lt _ (by omega)
    have b2 : draws (k + 1) % (m.w - 1) < m.w - 1 := Nat.mod_lt _ (by omega)
    unfold pick_passage
    simp only [c_mod, h1, h2, if_false, bind, Except.bind]
    rw [matrix_get_ok hwf (by omega) (by omega)]
    simp only []
    by_cases hsp : rd m.a (draws k % (m.h - 1)) (draws (k + 1) % (m.w - 1)) = ' '
    · right
      exact ⟨_, _, k + 2, by simp [hsp], b1, b2, hsp⟩
    · simp only [ne_eq, hsp, not_false_eq_true, if_true]
      exact ih (k + 2)

theorem carve_run_empty (draws : Nat → Nat) (n : Nat) (st : carve_state)
    (h : st.stk.top_of_stack = 0) : carve_run draws n st = .ok st := by
  cases n with
  | zero => rfl
  | succ k => simp [carve_run, stack_isempty, h]

theorem carve_init_one (heap : Nat → cell) (draws : Nat → Nat) :
    carve_init heap draws 1 1 1 =
      .ok { mz := { a := [['w', 'w', 'w'], ['w', 'v', 'w'], ['w', 'w', 'w']], w := 1, h := 1,
                    cell_size := 1 },
            stk := { cell_list := [heap 0, ⟨1, 1⟩], top_of_stack := 1, capacity := 1 },
            drawn := 1, push_results := [0], marked := [⟨1, 1⟩], removed := [] } := by
  simp only [carve_init, c_mod, Nat.mod_one]
  rfl

/-- For `width = height = cell_size = 1` the carving phase returns the 3 x 3 matrix
whose middle row is open, whatever the draws. -/
theorem carve_maze_one (heap : Nat → cell) (draws : Nat → Nat) (n : Nat) :
    carve_maze heap draws (n + 1) 1 1 1 =
      .ok ({ a := [['w', 'w', 'w'], [' ', ' ', ' '], ['w', 'w', 'w']], w := 3, h := 3,
             cell_size := 1 }, 1) := by
  have h1 : carve_loop draws (n + 1)
      { mz := { a := [['w', 'w', 'w'], ['w', 'v', 'w'], ['w', 'w', 'w']], w := 1, h := 1,
                cell_size := 1 },
        stk := { cell_list := [heap 0, ⟨1, 1⟩], top_of_stack := 1, capacity := 1 },
        drawn := 1, push_results := [0], marked := [⟨1, 1⟩], removed := [] } =
      .ok { mz := { a := [['w', 'w', 'w'], ['w', 'v', 'w'], ['w', 'w', 'w']], w := 1, h := 1,
                    cell_size := 1 },
            stk := { cell_list := [heap 0, ⟨1, 1⟩], top_of_stack := 0, capacity := 1 },
            drawn := 1, push_results := [0], marked := [⟨1, 1⟩], removed := [] } := by
    have hstep : carve_step draws
        { mz := { a := [['w', 'w', 'w'], ['w', 'v', 'w'], ['w', 'w', 'w']], w := 1, h := 1,
                  cell_size := 1 },
          stk := { cell_list := [heap 0, ⟨1, 1⟩], top_of_stack := 1, capacity := 1 },
          drawn := 1, push_results := [0], marked := [⟨1, 1⟩], removed := [] } =
        .ok { mz := { a := [['w', 'w', 'w'], ['w', 'v', 'w'], ['w', 'w', 'w']], w := 1, h := 1,
                      cell_size := 1 },
              stk := { cell_list := [heap 0, ⟨1, 1⟩], top_of_stack := 0, capacity := 1 },
              drawn := 1, push_results := [0], marked := [⟨1, 1⟩], removed := [] } := by
      have p1 : stack_pop { cell_list := [heap 0, ⟨1, 1⟩], top_of_stack := 1, capacity := 1 }
          = .ok (⟨1, 1⟩, { cell_list := [heap 0, ⟨1, 1⟩], top_of_stack := 0, capacity := 1 }) :=
        rfl
      have p2 : get_available_neighbours
          { a := [['w', 'w', 'w'], ['w', 'v', 'w'], ['w', 'w', 'w']], w := 1, h := 1,
            cell_size := 1 } ⟨1, 1⟩ = .ok [] := rfl
      unfold carve_step
      simp only [p1, p2, bind, Except.bind]
      rfl
    unfold carve_loop carve_run
    simp only [stack_isempty, hstep, bind, Except.bind]
    rw [carve_run_empty draws n _ rfl]
    rfl
  unfold carve_maze
  simp only [carve_init_one, h1, bind, Except.bind]
  rfl

/-- One round of the placement loop either runs out of iterations or turns one space of
the sampled region into a potion. -/
theorem place_round_cases (draws : Nat → Nat) (fuel : Nat) (s : maze × Nat)
    (hwf : well_formed s.1.a s.1.h s.1.w) (hh : 2 ≤ s.1.h) (hw : 2 ≤ s.1.w) :
    (pick_passage draws s.1 fuel s.2 >>= fun p =>
        maze_set s.1 p.1 p.2.1 POTION >>= fun m1 => .ok (m1, p.2.2))
      = (.error .outOfFuel : Except Fault (maze × Nat)) ∨
    ∃ s1 : maze × Nat, (pick_passage draws s.1 fuel s.2 >>= fun p =>
        maze_set s.1 p.1 p.2.1 POTION >>= fun m1 => .ok (m1, p.2.2)) = .ok s1 ∧
      same_frame s.1 s1.1 s.1.h s.1.w ∧
      (region_spaces s1.1).card + 1 = (region_spaces s.1).card := by
  rcases pick_passage_cases draws s.1 hwf hh hw fuel s.2 with he | ⟨row, col, k1, hp, b1, b2, hsp⟩
  · left
    simp [he, bind, Except.bind]
  · right
    obtain ⟨m1, g1, g2, g3⟩ := @maze_set_ok s.1 _ _ hwf row col (by omega) (by omega) POTION
    refine ⟨(m1, k1), by simp [hp, bind, Except.bind, g1], g2, ?_⟩
    have hmem : (row, col) ∈ region_spaces s.1 := by
      simp [region_spaces, b1, b2, hsp]
    have herase : region_spaces m1 = (region_spaces s.1).erase (row, col) := by
      ext p
      obtain ⟨y, x⟩ := p
      simp only [region_spaces, Finset.mem_filter, Finset.mem_product, Finset.mem_range,
        Finset.mem_erase, g2.1, g2.2.1, g3, ne_eq, Prod.mk.injEq]
      by_cases hyx : y = row ∧ x = col
      · simp only [hyx, and_self, if_true, not_true_eq_false, false_and, iff_false, not_and]
        intro _
        decide
      · simp [hyx]
    rw [herase, Finset.card_erase_of_mem hmem]
    have := Finset.card_pos.mpr ⟨_, hmem⟩
    omega

theorem for_loop_succ_ok {σ : Type} {body : Nat → σ → Except Fault σ} {n : Nat} {s s1 : σ}
    (h : for_loop body n s = .ok s1) : for_loop body (n + 1) s = body n s1 := by
  show (for_loop body n s >>= body n) = _
  rw [h]
  rfl

theorem for_loop_succ_error {σ : Type} {body : Nat → σ → Except Fault σ} {n : Nat} {s : σ}
    {e : Fault} (h : for_loop body n s = .error e) : for_loop body (n + 1) s = .error e := by
  show (for_loop body n s >>= body n) = _
  rw [h]
  rfl

/-- The placement loop for `n` potions either runs out of iterations or uses up `n`
spaces of the sampled region. -/
theorem place_potions_cases (draws : Nat → Nat) (fuel : Nat) (n : Nat) (s : maze × Nat)
    (hwf : well_formed s.1.a s.1.h s.1.w) (hh : 2 ≤ s.1.h) (hw : 2 ≤ s.1.w) :
    place_potions draws fuel n s = .error .outOfFuel ∨
    ∃ s1, place_potions draws fuel n s = .ok s1 ∧ same_frame s.1 s1.1 s.1.h s.1.w ∧
      (region_spaces s1.1).card + n = (region_spaces s.1).card := by
  induction n with
  | zero => exact Or.inr ⟨s, rfl, same_frame_refl hwf, rfl⟩
  | succ k ih =>
    unfold place_potions at ih ⊢
    rcases ih with he | ⟨s1, h1, h2, h3⟩
    · left
      exact for_loop_succ_error he
    · have e1 : s1.1.h = s.1.h := h2.2.1
      have e2 : s1.1.w = s.1.w := h2.1
      rcases place_round_cases draws fuel s1 (by rw [e1, e2]; exact h2.2.2.2)
          (by omega) (by omega) with he | ⟨s2, g1, g2, g3⟩
      · left
        rw [for_loop_succ_ok h1]
        exact he
      · right
        refine ⟨s2, ?_, ?_, by omega⟩
        · rw [for_loop_succ_ok h1]
          exact g1
        · rw [e1, e2] at g2
          exact same_frame_trans h2 g2

/-- C9 (the code differs): for `width = height = cell_size = 1` the sampled region of the
3 x 3 matrix holds only two spaces, and `generate_maze` never returns and reports no
error: whatever the memory content, the draws and the number of iterations allowed,
the run ends by exhausting the iterations of a loop. -/
theorem generate_maze_one_never_returns (heap : Nat → cell) (draws : Nat → Nat) (fuel : Nat) :
    generate_maze heap draws fuel 1 1 1 = .error .outOfFuel := by
  cases fuel with
  | zero =>
    unfold generate_maze carve_maze
    simp only [carve_init_one, bind, Except.bind]
    rfl
  | succ n =>
    unfold generate_maze
    rw [carve_maze_one]
    simp only [bind, Except.bind]
    rcases place_potions_cases draws (n + 1) NEEDED_POTIONS
      ({ a := [['w', 'w', 'w'], [' ', ' ', ' '], ['w', 'w', 'w']], w := 3, h := 3,
         cell_size := 1 }, 1) (by simp only; exact ⟨rfl, by decide⟩) (by decide) (by decide)
      with he | ⟨s1, h1, h2, h3⟩
    · rw [he]
    · exfalso
      have hc : (region_spaces
          { a := [['w', 'w', 'w'], [' ', ' ', ' '], ['w', 'w', 'w']], w := 3, h := 3,
            cell_size := 1 }).card = 2 := by decide
      simp only [hc, NEEDED_POTIONS] at h3
      omega

/-! ## Independence of the memory content -/

theorem rel_bind {α β : Type} {R : α → α → Prop} {S : β → β → Prop}
    {e1 e2 : Except Fault α} {f g : α → Except Fault β} (h : rel_result R e1 e2)
    (hfg : ∀ a b, R a b → rel_result S (f a) (g b)) :
    rel_result S (e1 >>= f) (e2 >>= g) := by
  cases e1 with
  | error x =>
    cases e2 with
    | error y => exact h
    | ok b => exact h.elim
  | ok a =>
    cases e2 with
    | error y => exact h.elim
    | ok b => exact hfg a b h

theorem rel_refl {α : Type} (e : Except Fault α) : rel_result (fun a b => a = b) e e := by
  cases e with
  | error x => exact rfl
  | ok a => exact rfl

theorem rel_eq {α : Type} {e1 e2 : Except Fault α} (h : rel_result (fun a b => a = b) e1 e2) :
    e1 = e2 := by
  cases e1 with
  | error x =>
    cases e2 with
    | error y => exact congrArg _ h
    | ok b => exact h.elim
  | ok a =>
    cases e2 with
    | error y => exact h.elim
    | ok b => exact congrArg _ h

theorem stack_pop_rel {s1 s2 : stack} (h : stack_eqv s1 s2) (h0 : s1.top_of_stack ≠ 0) :
    rel_result (fun p q => p.1 = q.1 ∧ stack_eqv p.2 q.2) (stack_pop s1) (stack_pop s2) := by
  obtain ⟨e1, e2, e3, e4⟩ := h
  have h5 := e4 s1.top_of_stack (by omega) le_rfl
  unfold stack_pop
  rw [← e1, ← h5]
  cases hc : s1.cell_list[s1.top_of_stack]? with
  | none => exact rfl
  | some c =>
    have hpos : s1.top_of_stack > 0 := by omega
    simp only [hpos, if_true]
    exact ⟨rfl, rfl, e2, e3, fun i hi1 hi2 => e4 i hi1 (by simp only at hi2; omega)⟩

theorem stack_push_rel {s1 s2 : stack} (h : stack_eqv s1 s2) (c : cell) :
    rel_result (fun p q => p.1 = q.1 ∧ stack_eqv p.2 q.2) (stack_push s1 c) (stack_push s2 c) := by
  obtain ⟨e1, e2, e3, e4⟩ := h
  unfold stack_push
  rw [← e1, ← e2, ← e3]
  by_cases h1 : s1.top_of_stack = s1.capacity
  · simp only [h1, if_true]
    exact ⟨rfl, h1 ▸ e1, e2, e3, e4⟩
  · simp only [h1, if_false]
    by_cases h2 : s1.top_of_stack + 1 < s1.cell_list.length
    · simp only [h2, if_true]
      refine ⟨rfl, rfl, rfl, by simp only [List.length_set]; exact e3, ?_⟩
      intro i hi1 hi2
      simp only [List.getElem?_set, e3]
      by_cases hi : s1.top_of_stack + 1 = i
      · simp only [hi, if_true]
      · simp only [hi, if_false]
        exact e4 i hi1 (by simp only at hi2; omega)
    · simp only [h2, if_false]
      exact rfl

theorem carve_step_rel (draws : Nat → Nat) {st1 st2 : carve_state} (h : state_eqv st1 st2)
    (h0 : st1.stk.top_of_stack ≠ 0) :
    rel_result state_eqv (carve_step draws st1) (carve_step draws st2) := by
  obtain ⟨e1, e2, e3, e4, e5, e6⟩ := h
  unfold carve_step
  refine rel_bind (stack_pop_rel e4 h0) ?_
  rintro p q ⟨hpq, hst⟩
  rw [← e1, ← hpq, ← e2, ← e3, ← e5, ← e6]
  refine rel_bind (rel_refl _) ?_
  rintro nb nb2 rfl
  by_cases hl : nb.length > 0
  · simp only [hl, if_true]
    refine rel_bind (stack_push_rel hst p.1) ?_
    rintro p1 q1 ⟨hrc1, hst1⟩
    refine rel_bind (rel_refl _) ?_
    rintro i i2 rfl
    cases hn : nb[i]? with
    | none => exact rfl
    | some next =>
      simp only []
      refine rel_bind (rel_refl _) ?_
      rintro m1 m1b rfl
      refine rel_bind (rel_refl _) ?_
      rintro m2 m2b rfl
      refine rel_bind (stack_push_rel hst1 next) ?_
      rintro p2 q2 ⟨hrc2, hst2⟩
      exact ⟨rfl, rfl, by simp only [hrc1, hrc2], hst2, rfl, rfl⟩
  · simp only [hl, if_false]
    exact ⟨rfl, rfl, rfl, hst, rfl, rfl⟩

theorem carve_run_rel (draws : Nat → Nat) (n : Nat) :
    ∀ st1 st2, state_eqv st1 st2 →
      rel_result state_eqv (carve_run draws n st1) (carve_run draws n st2) := by
  induction n with
  | zero => intro st1 st2 h; exact h
  | succ k ih =>
    intro st1 st2 h
    have htop : st1.stk.top_of_stack = st2.stk.top_of_stack := h.2.2.2.1.1
    unfold carve_run
    by_cases he : st1.stk.top_of_stack = 0
    · have he2 : st2.stk.top_of_stack = 0 := by omega
      simp only [stack_isempty, he, he2, beq_self_eq_true, if_true]
      exact h
    · have he2 : st2.stk.top_of_stack ≠ 0 := by omega
      simp only [stack_isempty, beq_iff_eq, he, he2, if_false]
      exact rel_bind (carve_step_rel draws h he) (fun a b hab => ih a b hab)

/-- The carving phase does not depend on the content of the memory allocated for the
stack. -/
theorem carve_maze_heap (heap1 heap2 : Nat → cell) (draws : Nat → Nat) (fuel : Nat)
    (width height cell_size : Nat) :
    carve_maze heap1 draws fuel width height cell_size
      = carve_maze heap2 draws fuel width height cell_size := by
  apply rel_eq
  unfold carve_maze
  have hinit : rel_result state_eqv (carve_init heap1 draws width height cell_size)
      (carve_init heap2 draws width height cell_size) := by
    unfold carve_init
    refine rel_bind (rel_refl _) ?_
    rintro r r2 rfl
    refine rel_bind (rel_refl _) ?_
    rintro m m2 rfl
    have hs0 : stack_eqv (init_stack heap1 (width * height))
        (init_stack heap2 (width * height)) :=
      ⟨rfl, rfl, by simp [init_stack], fun i hi1 hi2 => by
        simp only [init_stack] at hi2
        omega⟩
    refine rel_bind (stack_push_rel hs0 _) ?_
    rintro p q ⟨hrc, hst⟩
    exact ⟨rfl, rfl, by simp only [hrc], hst, rfl, rfl⟩
  refine rel_bind hinit ?_
  intro s0 t0 h0
  have hloop : rel_result state_eqv (carve_loop draws fuel s0) (carve_loop draws fuel t0) := by
    unfold carve_loop
    refine rel_bind (carve_run_rel draws fuel s0 t0 h0) ?_
    intro a b hab
    have htop : a.stk.top_of_stack = b.stk.top_of_stack := hab.2.2.2.1.1
    simp only [stack_isempty, htop]
    by_cases he : b.stk.top_of_stack = 0
    · simp only [he, beq_self_eq_true, if_true]
      exact hab
    · simp only [beq_iff_eq, he, if_false]
      exact rfl
  refine rel_bind hloop ?_
  intro s1 t1 h1
  rw [h1.1, h1.2.1]
  exact rel_refl _

/-! ## Independence of the number of iterations allowed -/

theorem bind_ok_inv {α β : Type} {e : Except Fault α} {f : α → Except Fault β} {b : β}
    (h : (e >>= f) = .ok b) : ∃ a, e = .ok a ∧ f a = .ok b := by
  cases e with
  | error x => cases h
  | ok a => exact ⟨a, rfl, h⟩

theorem bind_ok {α β : Type} {e : Except Fault α} {f : α → Except Fault β} {a : α}
    (h : e = .ok a) : (e >>= f) = f a := by
  rw [h]
  rfl

theorem carve_run_mono (draws : Nat → Nat) (d : Nat) (n : Nat) :
    ∀ st st1, carve_run draws n st = .ok st1 → st1.stk.top_of_stack = 0 →
      carve_run draws (n + d) st = .ok st1 := by
  induction n with
  | zero =>
    intro st st1 h h0
    injection h with h
    subst h
    rw [Nat.zero_add]
    exact carve_run_empty draws d st h0
  | succ k ih =>
    intro st st1 h h0
    have e : k + 1 + d = (k + d) + 1 := by omega
    rw [e]
    unfold carve_run at h ⊢
    by_cases he : stack_isempty st.stk = true
    · simp only [he, if_true] at h ⊢
      exact h
    · simp only [he] at h ⊢
      obtain ⟨st2, h1, h2⟩ := bind_ok_inv h
      rw [bind_ok h1]
      exact ih st2 st1 h2 h0

theorem carve_loop_mono (draws : Nat → Nat) (d n : Nat) (st st1 : carve_state)
    (h : carve_loop draws n st = .ok st1) : carve_loop draws (n + d) st = .ok st1 := by
  unfold carve_loop at h ⊢
  obtain ⟨st2, h1, h2⟩ := bind_ok_inv h
  by_cases he : stack_isempty st2.stk = true
  · simp only [he, if_true] at h2
    injection h2 with h2
    subst h2
    have h0 : st2.stk.top_of_stack = 0 := by simpa [stack_isempty] using he
    rw [bind_ok (carve_run_mono draws d n st st2 h1 h0)]
    simp only [he, if_true]
  · simp only [he] at h2
    cases h2

theorem pick_passage_mono (draws : Nat → Nat) (m : maze) (d : Nat) (fuel : Nat) :
    ∀ k r, pick_passage draws m fuel k = .ok r → pick_passage draws m (fuel + d) k = .ok r := by
  induction fuel with
  | zero => intro k r h; cases h
  | succ n ih =>
    intro k r h
    have e : n + 1 + d = (n + d) + 1 := by omega
    rw [e]
    unfold pick_passage at h ⊢
    obtain ⟨row, h1, h2⟩ := bind_ok_inv h
    obtain ⟨col, h3, h4⟩ := bind_ok_inv h2
    obtain ⟨ch, h5, h6⟩ := bind_ok_inv h4
    rw [bind_ok h1, bind_ok h3, bind_ok h5]
    by_cases hsp : ch ≠ ' '
    · rw [if_pos hsp] at h6 ⊢
      exact ih _ _ h6
    · rw [if_neg hsp] at h6 ⊢
      exact h6

theorem place_potions_mono (draws : Nat → Nat) (d fuel n : Nat) :
    ∀ s s1, place_potions draws fuel n s = .ok s1 →
      place_potions draws (fuel + d) n s = .ok s1 := by
  induction n with
  | zero => intro s s1 h; exact h
  | succ k ih =>
    intro s s1 h
    unfold place_potions at h ih ⊢
    obtain ⟨s2, h1, h2⟩ := for_loop_succ_inv h
    rw [for_loop_succ_ok (ih s s2 h1)]
    obtain ⟨p, h3, h4⟩ := bind_ok_inv h2
    rw [bind_ok (pick_passage_mono draws s2.1 d fuel s2.2 p h3)]
    exact h4

/-- A result obtained with some number of iterations allowed is obtained with any
larger number. -/
theorem generate_maze_mono (heap : Nat → cell) (draws : Nat → Nat) (d fuel : Nat)
    (width height cell_size : Nat) (m : maze)
    (h : generate_maze heap draws fuel width height cell_size = .ok m) :
    generate_maze heap draws (fuel + d) width height cell_size = .ok m := by
  unfold generate_maze at h ⊢
  obtain ⟨s, h1, h2⟩ := bind_ok_inv h
  obtain ⟨r, h3, h4⟩ := bind_ok_inv h2
  have hc : carve_maze heap draws (fuel + d) width height cell_size = .ok s := by
    unfold carve_maze at h1 ⊢
    obtain ⟨s0, a1, a2⟩ := bind_ok_inv h1
    obtain ⟨s1, a3, a4⟩ := bind_ok_inv a2
    rw [bind_ok a1, bind_ok (carve_loop_mono draws d fuel s0 s1 a3)]
    exact a4
  rw [bind_ok hc, bind_ok (place_potions_mono draws d fuel NEEDED_POTIONS s r h3)]
  exact h4

/-- C10: `generate_maze` reads nothing but its arguments and the draws: two calls with
the same `width`, `height`, `cell_size` and the same draw sequence that both return,
whatever the content of the memory they allocate and the number of loop iterations they
are allowed, return the same maze: equal fields `w` and `h` and equal matrices, entry
for entry. -/
theorem generate_maze_deterministic (heap1 heap2 : Nat → cell) (draws1 draws2 : Nat → Nat)
    (fuel1 fuel2 : Nat) (width height cell_size : Nat) (m1 m2 : maze)
    (hd : ∀ k, draws1 k = draws2 k)
    (h1 : generate_maze heap1 draws1 fuel1 width height cell_size = .ok m1)
    (h2 : generate_maze heap2 draws2 fuel2 width height cell_size = .ok m2) :
    m1 = m2 ∧ m1.w = m2.w ∧ m1.h = m2.h ∧ m1.a = m2.a ∧
      ∀ row col, rd m1.a row col = rd m2.a row col := by
  have hdraws : draws1 = draws2 := funext hd
  subst hdraws
  have g1 := generate_maze_mono heap1 draws1 fuel2 fuel1 width height cell_size m1 h1
  have g2 := generate_maze_mono heap2 draws1 fuel1 fuel2 width height cell_size m2 h2
  have hheap : generate_maze heap1 draws1 (fuel1 + fuel2) width height cell_size
      = generate_maze heap2 draws1 (fuel1 + fuel2) width height cell_size := by
    unfold generate_maze
    rw [carve_maze_heap heap1 heap2]
  rw [Nat.add_comm fuel2 fuel1, ← hheap, g1] at g2
  injection g2 with g2
  subst g2
  exact ⟨rfl, rfl, rfl, rfl, fun _ _ => rfl⟩

/-- Witness for C10: two runs on a 3 x 3 maze of cell size 1 with different memory
content and different numbers of iterations allowed. -/
theorem generate_maze_deterministic_witness :
    ∃ m1 m2,
      generate_maze heap_zero (draws_of [0, 0, 0, 0, 0, 0, 0, 0, 0, 1, 1, 1, 2, 1, 3]) 20 3 3 1
        = .ok m1 ∧
      generate_maze (fun i => { x := i, y := 7 })
        (draws_of [0, 0, 0, 0, 0, 0, 0, 0, 0, 1, 1, 1, 2, 1, 3]) 30 3 3 1 = .ok m2 ∧
      m1 = m2 ∧ m1.w = m2.w ∧ m1.h = m2.h ∧ m1.a = m2.a ∧
      ∀ row col, rd m1.a row col = rd m2.a row col :=
  ⟨_, _, rfl, rfl, generate_maze_deterministic heap_zero (fun i => { x := i, y := 7 })
    (draws_of [0, 0, 0, 0, 0, 0, 0, 0, 0, 1, 1, 1, 2, 1, 3])
    (draws_of [0, 0, 0, 0, 0, 0, 0, 0, 0, 1, 1, 1, 2, 1, 3]) 20 30 3 3 1 _ _
    (fun _ => rfl) rfl rfl⟩

/-- C12: for every stack whose array has `capacity + 1` slots and whose top index is at
most `capacity` (as `init_stack` builds it and `stack_push`, `stack_pop` keep it) and
every cell: if `top_of_stack = capacity`, `stack_push` returns -1 and leaves the stack
unchanged; otherwise it returns 0, increases `top_of_stack` by exactly one, stores the
cell at the new top and leaves every other slot, the capacity and the array length
unchanged. -/
theorem stack_push_spec (s : stack) (c : cell)
    (hlen : s.cell_list.length = s.capacity + 1) (htop : s.top_of_stack ≤ s.capacity) :
    (s.top_of_stack = s.capacity → stack_push s c = .ok (-1, s)) ∧
    (s.top_of_stack ≠ s.capacity →
      ∃ s1, stack_push s c = .ok (0, s1) ∧
        s1.top_of_stack = s.top_of_stack + 1 ∧ s1.capacity = s.capacity ∧
        s1.cell_list.length = s.cell_list.length ∧
        s1.cell_list[s1.top_of_stack]? = some c ∧
        ∀ i, i ≠ s.top_of_stack + 1 → s1.cell_list[i]? = s.cell_list[i]?) := by
  constructor
  · intro h
    simp [stack_push, h]
  · intro h
    have h1 : s.top_of_stack + 1 < s.cell_list.length := by omega
    refine ⟨_, stack_push_eq c h h1, rfl, rfl, by simp, ?_, ?_⟩
    · simp only [List.getElem?_set, if_true, h1]
    · intro i hi
      simp only [List.getElem?_set]
      rw [if_neg (fun h2 => hi h2.symm)]

/-- Witness for C12: a push on the stack of a 1 x 2 maze that holds one cell. -/
theorem stack_push_spec_witness :
    (1 = 2 → stack_push { cell_list := [⟨0, 0⟩, ⟨1, 1⟩, ⟨0, 0⟩], top_of_stack := 1, capacity := 2 }
        ⟨1, 3⟩ = .ok (-1, { cell_list := [⟨0, 0⟩, ⟨1, 1⟩, ⟨0, 0⟩], top_of_stack := 1,
                            capacity := 2 })) ∧
    (1 ≠ 2 →
      ∃ s1, stack_push { cell_list := [⟨0, 0⟩, ⟨1, 1⟩, ⟨0, 0⟩], top_of_stack := 1,
                         capacity := 2 } ⟨1, 3⟩ = .ok (0, s1) ∧
        s1.top_of_stack = 1 + 1 ∧ s1.capacity = 2 ∧
        s1.cell_list.length = [(⟨0, 0⟩ : cell), ⟨1, 1⟩, ⟨0, 0⟩].length ∧
        s1.cell_list[s1.top_of_stack]? = some ⟨1, 3⟩ ∧
        ∀ i, i ≠ 1 + 1 → s1.cell_list[i]? = [(⟨0, 0⟩ : cell), ⟨1, 1⟩, ⟨0, 0⟩][i]?) :=
  stack_push_spec { cell_list := [⟨0, 0⟩, ⟨1, 1⟩, ⟨0, 0⟩], top_of_stack := 1, capacity := 2 }
    ⟨1, 3⟩ (by decide) (by decide)

/-- C13 as stated fails: for cell size 2 and cell 0 the block is `[1, 2]`, its two middle
positions are 1 and 2, and `cell_to_matrix_idx` returns 2, the higher one; one block
position lies below the centre and none above it. -/
theorem centre_even_not_lower :
    cell_to_matrix_idx { a := [], w := 1, h := 1, cell_size := 2 } 0 = 2 ∧
    cell_to_matrix_idx { a := [], w := 1, h := 1, cell_size := 2 } 0 ≠ (2 + 1) * 0 + 2 / 2 ∧
    ((Finset.Icc ((2 + 1) * 0 + 1) ((2 + 1) * 0 + 2)).filter
      (fun i => i < cell_to_matrix_idx { a := [], w := 1, h := 1, cell_size := 2 } 0)).card = 1 ∧
    ((Finset.Icc ((2 + 1) * 0 + 1) ((2 + 1) * 0 + 2)).filter
      (fun i => cell_to_matrix_idx { a := [], w := 1, h := 1, cell_size := 2 } 0 < i)).card = 0 := by
  refine ⟨rfl, by decide, by decide, by decide⟩

/-- C13 amended: for every even cell size `s >= 2` and every cell index `c`, the centre
returned by `cell_to_matrix_idx` is the higher-indexed of the two middle positions
`(s + 1) * c + s / 2` and `(s + 1) * c + s / 2 + 1` of the block
`[(s + 1) * c + 1, (s + 1) * c + s]`: `s / 2` block positions lie below it and
`s / 2 - 1` above it. -/
theorem centre_even_upper (m : maze) (c : Nat) (heven : m.cell_size % 2 = 0)
    (hs : 2 ≤ m.cell_size) :
    cell_to_matrix_idx m c = (m.cell_size + 1) * c + m.cell_size / 2 + 1 ∧
    (m.cell_size + 1) * c + 1 ≤ cell_to_matrix_idx m c ∧
    cell_to_matrix_idx m c ≤ (m.cell_size + 1) * c + m.cell_size ∧
    ((Finset.Icc ((m.cell_size + 1) * c + 1) ((m.cell_size + 1) * c + m.cell_size)).filter
      (fun i => i < cell_to_matrix_idx m c)).card = m.cell_size / 2 ∧
    ((Finset.Icc ((m.cell_size + 1) * c + 1) ((m.cell_size + 1) * c + m.cell_size)).filter
      (fun i => cell_to_matrix_idx m c < i)).card = m.cell_size / 2 - 1 := by
  have e : cell_to_matrix_idx m c = (m.cell_size + 1) * c + m.cell_size / 2 + 1 := rfl
  refine ⟨e, by omega, by omega, ?_, ?_⟩
  · have h1 : (Finset.Icc ((m.cell_size + 1) * c + 1) ((m.cell_size + 1) * c + m.cell_size)).filter
        (fun i => i < cell_to_matrix_idx m c)
        = Finset.Icc ((m.cell_size + 1) * c + 1) ((m.cell_size + 1) * c + m.cell_size / 2) := by
      ext i
      simp only [Finset.mem_filter, Finset.mem_Icc, e]
      omega
    rw [h1, Nat.card_Icc]
    omega
  · have h1 : (Finset.Icc ((m.cell_size + 1) * c + 1) ((m.cell_size + 1) * c + m.cell_size)).filter
        (fun i => cell_to_matrix_idx m c < i)
        = Finset.Icc ((m.cell_size + 1) * c + m.cell_size / 2 + 2)
            ((m.cell_size + 1) * c + m.cell_size) := by
      ext i
      simp only [Finset.mem_filter, Finset.mem_Icc, e]
      omega
    rw [h1, Nat.card_Icc]
    omega

/-- Witness for C13 amended: cell size 4, cell 1: block `[6, 9]`, centre 8. -/
theorem centre_even_upper_witness :
    cell_to_matrix_idx { a := [], w := 2, h := 1, cell_size := 4 } 1 = (4 + 1) * 1 + 4 / 2 + 1 ∧
    (4 + 1) * 1 + 1 ≤ cell_to_matrix_idx { a := [], w := 2, h := 1, cell_size := 4 } 1 ∧
    cell_to_matrix_idx { a := [], w := 2, h := 1, cell_size := 4 } 1 ≤ (4 + 1) * 1 + 4 ∧
    ((Finset.Icc ((4 + 1) * 1 + 1) ((4 + 1) * 1 + 4)).filter
      (fun i => i < cell_to_matrix_idx { a := [], w := 2, h := 1, cell_size := 4 } 1)).card
        = 4 / 2 ∧
    ((Finset.Icc ((4 + 1) * 1 + 1) ((4 + 1) * 1 + 4)).filter
      (fun i => cell_to_matrix_idx { a := [], w := 2, h := 1, cell_size := 4 } 1 < i)).card
        = 4 / 2 - 1 :=
  centre_even_upper { a := [], w := 2, h := 1, cell_size := 4 } 1 (by decide) (by decide)

/-- C19: for `width, height, cell_size >= 1`, every draw sequence, every memory content
and every number of iterations allowed, a run of `generate_maze` never makes an access
outside the matrix, the stack array or the neighbour array and never divides by zero:
it returns a maze, or it is cut off by the iteration bound before any such access. -/
theorem generate_maze_in_bounds (heap : Nat → cell) (draws : Nat → Nat) (fuel : Nat)
    (width height cell_size : Nat)
    (hw : 1 ≤ width) (hh : 1 ≤ height) (hs : 1 ≤ cell_size) :
    generate_maze heap draws fuel width height cell_size ≠ .error .outOfBounds ∧
    generate_maze heap draws fuel width height cell_size ≠ .error .divByZero ∧
    (generate_maze heap draws fuel width height cell_size = .error .outOfFuel ∨
      ∃ m, generate_maze heap draws fuel width height cell_size = .ok m) := by
  have key : generate_maze heap draws fuel width height cell_size = .error .outOfFuel ∨
      ∃ m, generate_maze heap draws fuel width height cell_size = .ok m := by
    rcases carve_maze_ok heap draws fuel hs hw hh with ⟨he, -⟩ | ⟨m0, k, h0, e1, e2, e3, e4, -⟩
    · left
      simp [generate_maze, he, bind, Except.bind]
    · have hpw : 0 < (cell_size + 1) * width := Nat.mul_pos (by omega) hw
      have hph : 0 < (cell_size + 1) * height := Nat.mul_pos (by omega) hh
      rcases place_potions_cases draws fuel NEEDED_POTIONS (m0, k) e4 (by simp only; omega)
        (by simp only; omega) with he | ⟨s1, h1, -⟩
      · left
        simp [generate_maze, h0, he, bind, Except.bind]
      · right
        exact ⟨s1.1, by simp [generate_maze, h0, h1, bind, Except.bind]⟩
  refine ⟨?_, ?_, key⟩
  · rcases key with h | ⟨m, h⟩ <;> rw [h] <;> simp
  · rcases key with h | ⟨m, h⟩ <;> rw [h] <;> simp

/-- Witness for C19: a run on a 3 x 3 maze that returns and one on a 1 x 1 maze that is
cut off. -/
theorem generate_maze_in_bounds_witness :
    (generate_maze heap_zero (draws_of [0, 0, 0, 0, 0, 0, 0, 0, 0, 1, 1, 1, 2, 1, 3]) 20 3 3 1
        ≠ .error .outOfBounds ∧
      generate_maze heap_zero (draws_of [0, 0, 0, 0, 0, 0, 0, 0, 0, 1, 1, 1, 2, 1, 3]) 20 3 3 1
        ≠ .error .divByZero ∧
      (generate_maze heap_zero (draws_of [0, 0, 0, 0, 0, 0, 0, 0, 0, 1, 1, 1, 2, 1, 3]) 20 3 3 1
          = .error .outOfFuel ∨
        ∃ m, generate_maze heap_zero (draws_of [0, 0, 0, 0, 0, 0, 0, 0, 0, 1, 1, 1, 2, 1, 3])
          20 3 3 1 = .ok m)) :=
  generate_maze_in_bounds heap_zero (draws_of [0, 0, 0, 0, 0, 0, 0, 0, 0, 1, 1, 1, 2, 1, 3])
    20 3 3 1 (by decide) (by decide) (by decide)

/-! ## One iteration of the carving loop, in detail -/

theorem remove_wall_spec {m : maze} {s width height : Nat} (hs : 1 ≤ s)
    (hms : m.cell_size = s)
    (h : well_formed m.a ((s + 1) * height + 1) ((s + 1) * width + 1))
    {c r : Nat} (hc : c < width) (hr : r < height) {n : cell}
    (hn : is_neighbour s width height c r n) :
    ∃ m1, remove_wall m ⟨centre s c, centre s r⟩ n = .ok m1 ∧
      same_frame m m1 ((s + 1) * height + 1) ((s + 1) * width + 1) ∧
      written m.a m1.a (wall_of s ⟨centre s c, centre s r⟩ n) ' ' := by
  subst hms
  obtain ⟨c1, r1, hc1, hr1, hx, hy, hadj⟩ := hn
  have hbc := @block_le m.cell_size c width hc
  have hbr := @block_le m.cell_size r height hr
  have hsc := centre_sub m.cell_size c
  have hsr := centre_sub m.cell_size r
  have hcc : m.cell_size / 2 ≤ centre m.cell_size c := by unfold centre; omega
  have hcr : m.cell_size / 2 ≤ centre m.cell_size r := by unfold centre; omega
  rcases hadj with ⟨h1, h2⟩ | ⟨h1, h2⟩
  · obtain ⟨Y, e1, e2, e3, e4, e5, e6⟩ := wall_idx_centre hs r r1 h2
    have hne : centre m.cell_size r ≠ n.y := by
      rw [hy]; intro hh; have := centre_inj hh; omega
    have hYH : Y < (m.cell_size + 1) * height + 1 := by
      rcases h2 with h2 | h2
      · have := e6 h2; omega
      · have := e5 h2
        have h3 := @centre_lt m.cell_size r1 height hs hr1
        rw [h2, centre_succ] at h3
        omega
    obtain ⟨m1, g1, g2, g3⟩ := remove_wall_col h ⟨centre m.cell_size c, centre m.cell_size r⟩
      n Y hne (by rw [hy]; exact e1) hYH hcc (by simp only; omega)
    refine ⟨m1, g1, g2, written_congr g3 ?_⟩
    intro row col
    simp only [wall_of, hy]
    constructor
    · rintro ⟨p1, p2, p3⟩
      right
      rw [← hy]
      exact ⟨hne, by rw [hy, e1, p1], p2, p3⟩
    · rintro (⟨p0, -⟩ | ⟨-, p1, p2, p3⟩)
      · exact absurd p0 (by rw [← hy]; exact hne)
      · exact ⟨by rw [e1] at p1; exact_mod_cast p1, p2, p3⟩
  · obtain ⟨X, e1, e2, e3, e4, e5, e6⟩ := wall_idx_centre hs c c1 h2
    have hXW : X < (m.cell_size + 1) * width + 1 := by
      rcases h2 with h2 | h2
      · have := e6 h2; omega
      · have := e5 h2
        have h3 := @centre_lt m.cell_size c1 width hs hc1
        rw [h2, centre_succ] at h3
        omega
    obtain ⟨m1, g1, g2, g3⟩ := remove_wall_row h ⟨centre m.cell_size c, centre m.cell_size r⟩
      n X (by rw [hy, h1]) (by rw [hx]; exact e1) hXW hcr (by simp only; omega)
    refine ⟨m1, g1, g2, written_congr g3 ?_⟩
    intro row col
    simp only [wall_of, hy, hx, h1]
    constructor
    · rintro ⟨p1, p2, p3⟩
      left
      exact ⟨trivial, by rw [e1, p1], p2, p3⟩
    · rintro (⟨-, p1, p2, p3⟩ | ⟨p0, -⟩)
      · exact ⟨by rw [e1] at p1; exact_mod_cast p1, p2, p3⟩
      · exact absurd rfl p0

theorem set_self {α : Type} (l : List α) (i : Nat) (c : α) (h : l[i]? = some c) :
    l.set i c = l := by
  apply List.ext_getElem?
  intro j
  rw [List.getElem?_set]
  by_cases hij : i = j
  · subst hij
    obtain ⟨h1, -⟩ := List.getElem?_eq_some_iff.mp h
    rw [if_pos rfl, if_pos h1, h]
  · rw [if_neg hij]

/-- One iteration of the carving loop, from a state with a non-empty stack whose top is
the centre of cell `(c, r)`: either every neighbour of the cell is visited and the
iteration only pops; or it visits an unvisited neighbour `(c1, r1)`: the matrix gets
the mark at that centre and spaces at the positions `remove_wall` writes, the stack gets
the neighbour on top, and the history is extended. -/
theorem carve_step_cases (draws : Nat → Nat) {s width height : Nat} (hs : 1 ≤ s)
    {st : carve_state} (inv : carve_inv s width height st)
    (hne : st.stk.top_of_stack ≠ 0) :
    ∃ c r, c < width ∧ r < height ∧
      st.stk.cell_list[st.stk.top_of_stack]? = some ⟨centre s c, centre s r⟩ ∧
      (((∀ c1 r1, c1 < width → r1 < height → adjacent c r c1 r1 → visited st.mz.a s c1 r1) ∧
        carve_step draws st
          = .ok { st with stk := { st.stk with top_of_stack := st.stk.top_of_stack - 1 } }) ∨
       (∃ c1 r1 st1, c1 < width ∧ r1 < height ∧ adjacent c r c1 r1 ∧
          ¬ visited st.mz.a s c1 r1 ∧ carve_step draws st = .ok st1 ∧
          same_frame st.mz st1.mz ((s + 1) * height + 1) ((s + 1) * width + 1) ∧
          (∀ y x,
            (wall_of s ⟨centre s c, centre s r⟩ ⟨centre s c1, centre s r1⟩ y x →
              rd st1.mz.a y x = ' ') ∧
            (¬ wall_of s ⟨centre s c, centre s r⟩ ⟨centre s c1, centre s r1⟩ y x →
              rd st1.mz.a y x
                = if y = centre s r1 ∧ x = centre s c1 then 'v' else rd st.mz.a y x)) ∧
          st1.stk.top_of_stack = st.stk.top_of_stack + 1 ∧
          st1.stk.capacity = st.stk.capacity ∧
          st1.stk.cell_list
            = st.stk.cell_list.set (st.stk.top_of_stack + 1) ⟨centre s c1, centre s r1⟩ ∧
          st1.drawn = st.drawn + 1 ∧ st1.push_results = st.push_results ++ [0, 0] ∧
          st1.marked = st.marked ++ [⟨centre s c1, centre s r1⟩] ∧
          st1.removed = st.removed
            ++ [(⟨centre s c, centre s r⟩, ⟨centre s c1, centre s r1⟩)])) := by
  obtain ⟨cl, hcl, c, r, hc, hr, hx, hy⟩ := inv.live st.stk.top_of_stack (by omega) le_rfl
  have hcl2 : cl = ⟨centre s c, centre s r⟩ := by
    cases cl; simp only at hx hy; rw [hx, hy]
  subst hcl2
  refine ⟨c, r, hc, hr, hcl, ?_⟩
  have hpop := stack_pop_eq hcl hne
  have hnbeq := get_available_neighbours_eq hs inv.frame_s inv.frame_w inv.frame_h inv.shape
    hc hr
  obtain ⟨nb, hnb, hnbp⟩ := get_available_neighbours_ok hs inv.frame_s inv.frame_w
    inv.frame_h inv.shape hc hr
  have hvle := visited_count_le st.mz.a s width height
  have htop := inv.top_le
  have hcap := inv.cap
  have hlen := inv.len
  unfold carve_step
  simp only [hpop, bind, Except.bind, hnb]
  by_cases hl : nb.length > 0
  · right
    simp only [hl, if_true]
    rw [stack_push_eq _ (by simp only; omega) (by simp only; omega)]
    simp only [c_mod, Nat.ne_of_gt hl, if_false]
    have hi : draws st.drawn % nb.length < nb.length := Nat.mod_lt _ hl
    rw [List.getElem?_eq_getElem hi]
    simp only []
    have hmem : nb[draws st.drawn % nb.length] ∈ nb := List.getElem_mem hi
    obtain ⟨hnei, hnv⟩ := hnbp _ hmem
    obtain ⟨c1, r1, hc1, hr1, hx1, hy1, hadj⟩ := hnei
    have hnext : nb[draws st.drawn % nb.length] = ⟨centre s c1, centre s r1⟩ := by
      generalize nb[draws st.drawn % nb.length] = nx at hx1 hy1
      cases nx; simp only at hx1 hy1; rw [hx1, hy1]
    rw [hnext] at hnv ⊢
    have hnei : is_neighbour s width height c r ⟨centre s c1, centre s r1⟩ :=
      ⟨c1, r1, hc1, hr1, rfl, rfl, hadj⟩
    have b1 := @centre_lt s r1 height hs hr1
    have b2 := @centre_lt s c1 width hs hc1
    obtain ⟨m1, g1, g2, g3⟩ := @maze_set_ok st.mz _ _ inv.shape (centre s r1) (centre s c1)
      (by omega) (by omega) 'v'
    obtain ⟨m2, k1, k2, k3⟩ := remove_wall_spec hs (g2.2.2.1.trans inv.frame_s) g2.2.2.2
      hc hr hnei
    have hmv : mark_visited st.mz ⟨centre s c1, centre s r1⟩ = .ok m1 := g1
    rw [hmv]
    simp only []
    rw [k1]
    simp only []
    have hvlt : visited_count st.mz.a s width height < visited_count m2.a s width height := by
      obtain ⟨m1', m2', q1, q2, -, -, -, q6⟩ := visit_ok hs inv.frame_s inv.shape inv.marks
        inv.chars hc hr hnei hnv
      rw [hmv] at q1
      injection q1 with q1
      subst q1
      rw [k1] at q2
      injection q2 with q2
      subst q2
      exact q6
    have hvle2 := visited_count_le m2.a s width height
    rw [stack_push_eq _ (by simp only; omega) (by simp only [List.length_set]; omega)]
    have e1 : st.stk.top_of_stack - 1 + 1 = st.stk.top_of_stack := by omega
    refine ⟨c1, r1, _, hc1, hr1, hadj, hnv, rfl, same_frame_trans g2 k2, ?_, ?_, rfl, ?_,
      rfl, rfl, rfl, rfl⟩
    · intro y x
      refine ⟨fun hw => (k3 y x).1 hw, fun hw => ?_⟩
      rw [(k3 y x).2 hw, g3]
    · simp only [e1]
    · simp only [e1]
      rw [set_self _ _ _ hcl]
  · left
    simp only [hl, if_false]
    refine ⟨?_, trivial⟩
    have hnil : nb = [] := by
      cases nb with
      | nil => rfl
      | cons a l => simp at hl
    rw [hnbeq] at hnb
    injection hnb with hnb
    rw [hnil] at hnb
    simp only [List.append_eq_nil, ite_eq_right_iff, List.cons_ne_nil, imp_false, not_and,
      not_not] at hnb
    obtain ⟨⟨⟨n1, n2⟩, n3⟩, n4⟩ := hnb
    intro c1 r1 hc1 hr1 hadj
    unfold visited
    rcases hadj with ⟨e, e2 | e2⟩ | ⟨e, e2 | e2⟩
    · subst e
      have : r1 = r - 1 := by omega
      subst this
      exact n1 (by omega)
    · subst e e2
      exact n4 hr1
    · subst e
      have : c1 = c - 1 := by omega
      subst this
      exact n2 (by omega)
    · subst e e2
      exact n3 hc1

theorem wall_idx_line {s : Nat} (hs : 1 ≤ s) (k k1 : Nat) (hk : k1 + 1 = k ∨ k1 = k + 1) :
    wall_idx (centre s k) (centre s k1) = ((wall_line s k k1 : Nat) : Int) := by
  obtain ⟨X, e1, -, -, -, e5, e6⟩ := wall_idx_centre hs k k1 hk
  rw [e1]
  congr 1
  unfold wall_line
  rcases hk with hk | hk
  · have h1 := e6 hk
    have hne : ¬ k1 = k + 1 := by omega
    rw [if_neg hne]
    unfold centre at h1
    split <;> omega
  · have h1 := e5 hk
    rw [if_pos hk]
    unfold centre at h1
    rw [Nat.mul_add]
    omega

/-- The positions written by `remove_wall` between the centres of two adjacent cells:
a line of `s` characters at `wall_line`, spanning the rows (or columns) of the block of
the first cell. -/
theorem wall_of_iff {s : Nat} (hs : 1 ≤ s) {c r c1 r1 : Nat} (hadj : adjacent c r c1 r1)
    (row col : Nat) :
    wall_of s ⟨centre s c, centre s r⟩ ⟨centre s c1, centre s r1⟩ row col ↔
      (r1 = r ∧ col = wall_line s c c1 ∧ (s + 1) * r + 1 ≤ row ∧ row ≤ (s + 1) * r + s) ∨
      (c1 = c ∧ row = wall_line s r r1 ∧ (s + 1) * c + 1 ≤ col ∧ col ≤ (s + 1) * c + s) := by
  have hsc := centre_sub s c
  have hsr := centre_sub s r
  unfold wall_of
  simp only [hsc, hsr]
  rcases hadj with ⟨e, e2⟩ | ⟨e, e2⟩
  · subst e
    have hne : centre s r ≠ centre s r1 := by
      intro hh; have := centre_inj hh; omega
    have hne2 : r1 ≠ r := by omega
    rw [wall_idx_line hs r r1 e2]
    constructor
    · rintro (⟨p0, -⟩ | ⟨-, p1, p2, p3⟩)
      · exact absurd p0 hne
      · exact Or.inr ⟨rfl, by exact_mod_cast p1, p2, by omega⟩
    · rintro (⟨p0, -⟩ | ⟨-, p1, p2, p3⟩)
      · exact absurd p0 hne2
      · exact Or.inr ⟨hne, by exact_mod_cast p1, p2, by omega⟩
  · subst e
    have hne2 : c1 ≠ c := by omega
    rw [wall_idx_line hs c c1 e2]
    constructor
    · rintro (⟨-, p1, p2, p3⟩ | ⟨p0, -⟩)
      · exact Or.inl ⟨rfl, by exact_mod_cast p1, p2, by omega⟩
      · exact absurd rfl p0
    · rintro (⟨-, p1, p2, p3⟩ | ⟨p0, -⟩)
      · exact Or.inl ⟨rfl, by exact_mod_cast p1, p2, by omega⟩
      · exact absurd p0 hne2

/-- The line written lies strictly inside the matrix and on no centre. -/
theorem wall_line_bounds {s n : Nat} (hs : 1 ≤ s) (k k1 : Nat) (hk : k < n) (hk1 : k1 < n)
    (hadj : k1 + 1 = k ∨ k1 = k + 1) :
    1 ≤ wall_line s k k1 ∧ wall_line s k k1 < (s + 1) * n ∧ ∀ j, wall_line s k k1 ≠ centre s j := by
  have h1 := @block_le s k n hk
  have h2 := @block_le s k1 n hk1
  unfold wall_line
  rcases hadj with hadj | hadj
  · have hne : ¬ k1 = k + 1 := by omega
    rw [if_neg hne]
    subst hadj
    rw [Nat.mul_add] at h1 ⊢
    refine ⟨by split <;> omega, by split <;> omega, ?_⟩
    intro j hj
    unfold centre at hj
    by_cases hodd : s % 2 = 1
    · rw [if_pos hodd] at hj
      exact mul_ne_mul_add (s + 1) (k1 + 1) j (s / 2 + 1) (by omega) (by omega)
        (by rw [Nat.mul_add]; omega)
    · rw [if_neg hodd] at hj
      exact mul_ne_mul_add (s + 1) (k1 + 1) j (s / 2) (by omega) (by omega)
        (by rw [Nat.mul_add]; omega)
  · rw [if_pos hadj]
    subst hadj
    rw [Nat.mul_add] at h2 ⊢
    refine ⟨by omega, by omega, ?_⟩
    intro j hj
    unfold centre at hj
    exact mul_ne_mul_add (s + 1) (k + 1) j (s / 2 + 1) (by omega) (by omega)
      (by rw [Nat.mul_add]; omega)

theorem wall_of_props {s width height : Nat} (hs : 1 ≤ s) {c r c1 r1 : Nat}
    (hc : c < width) (hr : r < height) (hc1 : c1 < width) (hr1 : r1 < height)
    (hadj : adjacent c r c1 r1) {row col : Nat}
    (h : wall_of s ⟨centre s c, centre s r⟩ ⟨centre s c1, centre s r1⟩ row col) :
    1 ≤ row ∧ row < (s + 1) * height ∧ 1 ≤ col ∧ col < (s + 1) * width ∧
      ¬ is_centre s width height col row := by
  have hbc := @block_le s c width hc
  have hbr := @block_le s r height hr
  rw [wall_of_iff hs hadj] at h
  rcases h with ⟨e, p1, p2, p3⟩ | ⟨e, p1, p2, p3⟩
  · have hk : c1 + 1 = c ∨ c1 = c + 1 := by
      rcases hadj with ⟨e1, e2⟩ | ⟨e1, e2⟩
      · omega
      · exact e2
    obtain ⟨q1, q2, q3⟩ := wall_line_bounds hs c c1 hc hc1 hk
    refine ⟨by omega, by omega, by omega, by omega, ?_⟩
    rintro ⟨c2, r2, -, -, hx, -⟩
    exact q3 c2 (by rw [← p1, hx])
  · have hk : r1 + 1 = r ∨ r1 = r + 1 := by
      rcases hadj with ⟨e1, e2⟩ | ⟨e1, e2⟩
      · exact e2
      · omega
    obtain ⟨q1, q2, q3⟩ := wall_line_bounds hs r r1 hr hr1 hk
    refine ⟨by omega, by omega, by omega, by omega, ?_⟩
    rintro ⟨c2, r2, -, -, -, hy⟩
    exact q3 r2 (by rw [← p1, hy])

/-! ## The depth-first traversal -/

theorem visited_count_succ {a a1 : List (List Char)} {s width height c1 r1 : Nat}
    (hc1 : c1 < width) (hr1 : r1 < height) (hnot : ¬ visited a s c1 r1)
    (h : ∀ c r, c < width → r < height →
      (visited a1 s c r ↔ visited a s c r ∨ (c = c1 ∧ r = r1))) :
    visited_count a1 s width height = visited_count a s width height + 1 := by
  unfold visited_count
  have hset : (Finset.range width ×ˢ Finset.range height).filter
      (fun p => rd a1 (centre s p.2) (centre s p.1) = 'v')
      = insert (c1, r1) ((Finset.range width ×ˢ Finset.range height).filter
          (fun p => rd a (centre s p.2) (centre s p.1) = 'v')) := by
    ext p
    obtain ⟨c, r⟩ := p
    simp only [Finset.mem_filter, Finset.mem_product, Finset.mem_range, Finset.mem_insert,
      Prod.mk.injEq]
    constructor
    · rintro ⟨⟨hc, hr⟩, hv⟩
      rcases (h c r hc hr).mp hv with h1 | h1
      · exact Or.inr ⟨⟨hc, hr⟩, h1⟩
      · exact Or.inl h1
    · rintro (⟨e1, e2⟩ | ⟨⟨hc, hr⟩, hv⟩)
      · subst e1 e2
        exact ⟨⟨hc1, hr1⟩, (h c r hc1 hr1).mpr (Or.inr ⟨rfl, rfl⟩)⟩
      · exact ⟨⟨hc, hr⟩, (h c r hc hr).mpr (Or.inl hv)⟩
  rw [hset, Finset.card_insert_of_not_mem]
  simp only [Finset.mem_filter, not_and]
  intro _
  exact hnot

/-- One iteration keeps both invariants and takes exactly one unit off the measure. -/
theorem carve_step_dfs (draws : Nat → Nat) {s width height : Nat} (hs : 1 ≤ s)
    {st : carve_state} (inv : carve_inv s width height st) (dfs : dfs_inv s width height st)
    (hne : st.stk.top_of_stack ≠ 0) :
    ∃ st1, carve_step draws st = .ok st1 ∧ carve_inv s width height st1 ∧
      dfs_inv s width height st1 ∧
      carve_measure s width height st1 + 1 = carve_measure s width height st := by
  obtain ⟨st1', hstep, inv1, -⟩ := carve_step_ok draws hs inv hne
  obtain ⟨c, r, hc, hr, hcl, hcase⟩ := carve_step_cases draws hs inv hne
  rcases hcase with ⟨hall, heq⟩ | ⟨c1, r1, st1, hc1, hr1, hadj, hnv, heq, hfr, hrd, htop, hcap,
      hlist, hdrawn, hpush, hmarked, hremoved⟩
  · -- the iteration only pops
    rw [heq] at hstep
    injection hstep with hstep
    subst hstep
    refine ⟨_, heq, inv1, ?_, ?_⟩
    · refine ⟨?_, ?_, dfs.border, dfs.marked_iff, dfs.marked_nodup, dfs.marked_len,
        dfs.removed_snd, dfs.removed_fst⟩
      · intro c2 r2 hc2 hr2 hv2
        rcases dfs.closed c2 r2 hc2 hr2 hv2 with ⟨i, hi1, hi2, hi3⟩ | hcl2
        · by_cases hit : i = st.stk.top_of_stack
          · right
            subst hit
            rw [hcl] at hi3
            injection hi3 with hi3
            injection hi3 with e1 e2
            have e3 := centre_inj e1
            have e4 := centre_inj e2
            subst e3 e4
            exact hall
          · left
            exact ⟨i, hi1, by simp only; omega, hi3⟩
        · exact Or.inr hcl2
      · intro i hi1 hi2
        exact dfs.stack_visited i hi1 (by simp only at hi2; omega)
    · unfold carve_measure
      simp only
      omega
  · -- the iteration visits cell (c1, r1)
    rw [heq] at hstep
    injection hstep with hstep
    subst hstep
    have hvis : ∀ c2 r2, c2 < width → r2 < height →
        (visited st1.mz.a s c2 r2 ↔ visited st.mz.a s c2 r2 ∨ (c2 = c1 ∧ r2 = r1)) := by
      intro c2 r2 hc2 hr2
      unfold visited
      have hnw : ¬ wall_of s ⟨centre s c, centre s r⟩ ⟨centre s c1, centre s r1⟩
          (centre s r2) (centre s c2) := fun hw =>
        (wall_of_props hs hc hr hc1 hr1 hadj hw).2.2.2.2 ⟨c2, r2, hc2, hr2, rfl, rfl⟩
      rw [(hrd _ _).2 hnw]
      by_cases he : centre s r2 = centre s r1 ∧ centre s c2 = centre s c1
      · rw [if_pos he]
        have e1 := centre_inj he.1
        have e2 := centre_inj he.2
        simp [e1, e2]
      · rw [if_neg he]
        constructor
        · exact fun h => Or.inl h
        · rintro (h | ⟨e1, e2⟩)
          · exact h
          · subst e1 e2
            exact absurd ⟨rfl, rfl⟩ he
    have hmono : ∀ c2 r2, c2 < width → r2 < height → visited st.mz.a s c2 r2 →
        visited st1.mz.a s c2 r2 := fun c2 r2 hc2 hr2 h => (hvis c2 r2 hc2 hr2).mpr (Or.inl h)
    have hnew : visited st1.mz.a s c1 r1 := (hvis c1 r1 hc1 hr1).mpr (Or.inr ⟨rfl, rfl⟩)
    have hlen := inv.len
    have htopcap : st.stk.top_of_stack + 1 < st.stk.cell_list.length := by
      have := inv1.top_le
      have := visited_count_le st1.mz.a s width height
      omega
    have hget : ∀ i, i ≤ st.stk.top_of_stack → st1.stk.cell_list[i]? = st.stk.cell_list[i]? := by
      intro i hi
      rw [hlist, List.getElem?_set, if_neg (by omega)]
    have hgetnew : st1.stk.cell_list[st.stk.top_of_stack + 1]?
        = some ⟨centre s c1, centre s r1⟩ := by
      rw [hlist, List.getElem?_set, if_pos rfl, if_pos htopcap]
    have hcount := visited_count_succ hc1 hr1 hnv hvis
    refine ⟨st1, heq, inv1, ?_, ?_⟩
    · refine ⟨?_, ?_, ?_, ?_, ?_, ?_, ?_, ?_⟩
      · intro c2 r2 hc2 hr2 hv2
        rcases (hvis c2 r2 hc2 hr2).mp hv2 with hold | ⟨e1, e2⟩
        · rcases dfs.closed c2 r2 hc2 hr2 hold with ⟨i, hi1, hi2, hi3⟩ | hcl2
          · left
            exact ⟨i, hi1, by omega, by rw [hget i hi2]; exact hi3⟩
          · right
            intro c3 r3 hc3 hr3 hadj3
            exact hmono c3 r3 hc3 hr3 (hcl2 c3 r3 hc3 hr3 hadj3)
        · subst e1 e2
          left
          exact ⟨st.stk.top_of_stack + 1, by omega, by omega, hgetnew⟩
      · intro i hi1 hi2
        by_cases hit : i = st.stk.top_of_stack + 1
        · subst hit
          exact ⟨c1, r1, hc1, hr1, hgetnew, hnew⟩
        · obtain ⟨c2, r2, hc2, hr2, h1, h2⟩ := dfs.stack_visited i hi1 (by omega)
          exact ⟨c2, r2, hc2, hr2, by rw [hget i (by omega)]; exact h1, hmono c2 r2 hc2 hr2 h2⟩
      · intro y x hyx
        have hnw : ¬ wall_of s ⟨centre s c, centre s r⟩ ⟨centre s c1, centre s r1⟩ y x := by
          intro hw
          have := wall_of_props hs hc hr hc1 hr1 hadj hw
          omega
        rw [(hrd y x).2 hnw]
        have b1 := @centre_lt s r1 height hs hr1
        have b2 := @centre_lt s c1 width hs hc1
        have b3 : 1 ≤ centre s r1 := by unfold centre; omega
        have b4 : 1 ≤ centre s c1 := by unfold centre; omega
        rw [if_neg (by omega)]
        exact dfs.border y x hyx
      · intro cl
        rw [hmarked, List.mem_append, List.mem_singleton, dfs.marked_iff]
        constructor
        · rintro (⟨c2, r2, hc2, hr2, e, hv⟩ | e)
          · exact ⟨c2, r2, hc2, hr2, e, hmono c2 r2 hc2 hr2 hv⟩
          · exact ⟨c1, r1, hc1, hr1, e, hnew⟩
        · rintro ⟨c2, r2, hc2, hr2, e, hv⟩
          rcases (hvis c2 r2 hc2 hr2).mp hv with hold | ⟨e1, e2⟩
          · exact Or.inl ⟨c2, r2, hc2, hr2, e, hold⟩
          · subst e1 e2
            exact Or.inr e
      · rw [hmarked]
        refine List.Nodup.append dfs.marked_nodup (List.nodup_singleton _) ?_
        intro x hx1 hx2
        rw [List.mem_singleton] at hx2
        subst hx2
        obtain ⟨c2, r2, hc2, hr2, e, hv⟩ := (dfs.marked_iff _).mp hx1
        injection e with e1 e2
        have e3 := centre_inj e1
        have e4 := centre_inj e2
        subst e3 e4
        exact hnv hv
      · rw [hmarked, List.length_append, List.length_singleton, dfs.marked_len, hcount]
      · obtain ⟨start, hst⟩ := dfs.removed_snd
        exact ⟨start, by rw [hmarked, hremoved, hst]; simp⟩
      · intro e he
        rw [hremoved, List.mem_append, List.mem_singleton] at he
        rw [hmarked, List.mem_append]
        rcases he with he | he
        · exact Or.inl (dfs.removed_fst e he)
        · subst he
          left
          obtain ⟨c2, r2, hc2, hr2, h1, h2⟩ :=
            dfs.stack_visited st.stk.top_of_stack (by omega) le_rfl
          rw [hcl] at h1
          injection h1 with h1
          exact (dfs.marked_iff _).mpr ⟨c2, r2, hc2, hr2, h1, h2⟩
    · unfold carve_measure
      have := inv.top_le
      have := visited_count_le st1.mz.a s width height
      rw [hcount, htop]
      rw [hcount] at this
      omega

theorem line_closed (P : Nat → Prop) (n k0 : Nat) (hk0 : k0 < n) (h0 : P k0)
    (hstep : ∀ k k1, k < n → k1 < n → (k1 + 1 = k ∨ k1 = k + 1) → P k → P k1) :
    ∀ k, k < n → P k := by
  have up : ∀ d, k0 + d < n → P (k0 + d) := by
    intro d
    induction d with
    | zero => intro _; exact h0
    | succ e ih =>
      intro h
      exact hstep (k0 + e) (k0 + (e + 1)) (by omega) h (Or.inr (by omega)) (ih (by omega))
  have down : ∀ d, d ≤ k0 → P (k0 - d) := by
    intro d
    induction d with
    | zero => intro _; exact h0
    | succ e ih =>
      intro h
      exact hstep (k0 - e) (k0 - (e + 1)) (by omega) (by omega) (Or.inl (by omega))
        (ih (by omega))
  intro k hk
  by_cases hle : k0 ≤ k
  · have := up (k - k0) (by omega)
    rwa [Nat.add_sub_cancel' hle] at this
  · have := down (k0 - k) (by omega)
    have e : k0 - (k0 - k) = k := by omega
    rwa [e] at this

/-- When the stack is empty every logical cell has been visited. -/
theorem dfs_complete {s width height : Nat} {st : carve_state}
    (dfs : dfs_inv s width height st) (h0 : st.stk.top_of_stack = 0) :
    ∀ c r, c < width → r < height → visited st.mz.a s c r := by
  obtain ⟨start, hst⟩ := dfs.removed_snd
  have hmem : start ∈ st.marked := by rw [hst]; exact List.mem_cons_self _ _
  obtain ⟨c0, r0, hc0, hr0, -, hv0⟩ := (dfs.marked_iff start).mp hmem
  have hclosed : ∀ c r, c < width → r < height → visited st.mz.a s c r →
      ∀ c1 r1, c1 < width → r1 < height → adjacent c r c1 r1 → visited st.mz.a s c1 r1 := by
    intro c r hc hr hv
    rcases dfs.closed c r hc hr hv with ⟨i, hi1, hi2, -⟩ | h
    · omega
    · exact h
  have hrow : ∀ c, c < width → visited st.mz.a s c r0 :=
    line_closed (fun c => visited st.mz.a s c r0) width c0 hc0 hv0
      (fun k k1 hk hk1 hadj hv => hclosed k r0 hk hr0 hv k1 r0 hk1 hr0 (Or.inr ⟨rfl, hadj⟩))
  intro c r hc hr
  exact line_closed (fun r => visited st.mz.a s c r) height r0 hr0 (hrow c hc)
    (fun k k1 hk hk1 hadj hv => hclosed c k hc hk hv c k1 hc hk1 (Or.inl ⟨rfl, hadj⟩)) r hr

theorem visited_count_full {a : List (List Char)} {s width height : Nat}
    (h : ∀ c r, c < width → r < height → visited a s c r) :
    visited_count a s width height = width * height := by
  unfold visited_count
  rw [Finset.filter_true_of_mem]
  · simp
  · intro p hp
    simp only [Finset.mem_product, Finset.mem_range] at hp
    exact h p.1 p.2 hp.1 hp.2

/-- With both invariants, the stack is empty exactly when the measure is zero. -/
theorem measure_zero_iff {s width height : Nat} {st : carve_state}
    (dfs : dfs_inv s width height st) :
    st.stk.top_of_stack = 0 ↔ carve_measure s width height st = 0 := by
  unfold carve_measure
  constructor
  · intro h0
    rw [visited_count_full (dfs_complete dfs h0), h0]
    omega
  · intro h
    omega

/-- From a state satisfying both invariants, `n` iterations (at most the measure) can be
made: the stack is not empty before any of them, the measure goes down by `n`, and the
iterations split into `v` that visit a cell (one draw and one more cell on the stack
each) and `p` that discard a cell. -/
theorem carve_run_exact (draws : Nat → Nat) {s width height : Nat} (hs : 1 ≤ s) (n : Nat) :
    ∀ st, carve_inv s width height st → dfs_inv s width height st →
      n ≤ carve_measure s width height st →
      ∃ st1, carve_run draws n st = .ok st1 ∧ carve_inv s width height st1 ∧
        dfs_inv s width height st1 ∧
        carve_measure s width height st1 + n = carve_measure s width height st ∧
        st1.marked.head? = st.marked.head? ∧
        ∃ v p, v + p = n ∧ st1.drawn = st.drawn + v ∧
          st1.stk.top_of_stack + p = st.stk.top_of_stack + v := by
  induction n with
  | zero =>
    intro st inv dfs _
    exact ⟨st, rfl, inv, dfs, rfl, rfl, 0, 0, rfl, rfl, rfl⟩
  | succ k ih =>
    intro st inv dfs hn
    have hne : st.stk.top_of_stack ≠ 0 := by
      intro h0
      have := (measure_zero_iff dfs).mp h0
      omega
    obtain ⟨st1, h1, inv1, dfs1, hm⟩ := carve_step_dfs draws hs inv dfs hne
    obtain ⟨st2, k1, inv2, dfs2, hm2, hh2, v, p, hvp, hd2, ht2⟩ := ih st1 inv1 dfs1 (by omega)
    have hstepd : st1.marked.head? = st.marked.head? ∧
        ((st1.drawn = st.drawn ∧ st1.stk.top_of_stack + 1 = st.stk.top_of_stack) ∨
        (st1.drawn = st.drawn + 1 ∧ st1.stk.top_of_stack = st.stk.top_of_stack + 1)) := by
      obtain ⟨c, r, hc, hr, hcl, hcase⟩ := carve_step_cases draws hs inv hne
      rcases hcase with ⟨-, heq⟩ |
        ⟨c1, r1, st1', -, -, -, -, heq, -, -, htop, -, -, hdrawn, -, hmarked, -⟩
      · rw [heq] at h1
        injection h1 with h1
        subst h1
        exact ⟨rfl, Or.inl ⟨rfl,
          by show st.stk.top_of_stack - 1 + 1 = st.stk.top_of_stack; omega⟩⟩
      · rw [heq] at h1
        injection h1 with h1
        subst h1
        refine ⟨?_, Or.inr ⟨hdrawn, htop⟩⟩
        obtain ⟨start, hst⟩ := dfs.removed_snd
        rw [hmarked, hst]
        rfl
    have he : stack_isempty st.stk = false := by simp [stack_isempty, hne]
    refine ⟨st2, ?_, inv2, dfs2, by omega, hh2.trans hstepd.1, ?_⟩
    · simp only [carve_run, he, Bool.false_eq_true, if_false, bind, Except.bind, h1]
      exact k1
    · rcases hstepd.2 with ⟨e1, e2⟩ | ⟨e1, e2⟩
      · exact ⟨v, p + 1, by omega, by omega, by omega⟩
      · exact ⟨v + 1, p, by omega, by omega, by omega⟩

/-- Lines 201-224 in detail: the start cell `(0, rand() % height)` is marked and pushed,
nothing else is written, and both invariants hold. -/
theorem carve_init_spec (heap : Nat → cell) (draws : Nat → Nat) {s width height : Nat}
    (hs : 1 ≤ s) (hw : 1 ≤ width) (hh : 1 ≤ height) :
    ∃ st, carve_init heap draws width height s = .ok st ∧ carve_inv s width height st ∧
      dfs_inv s width height st ∧
      carve_measure s width height st + 1 = 2 * (width * height) ∧
      st.drawn = 1 ∧ st.stk.top_of_stack = 1 ∧
      st.marked = [⟨centre s 0, centre s (draws 0 % height)⟩] ∧ st.removed = [] ∧
      ∀ y x, rd st.mz.a y x
        = if y = centre s (draws 0 % height) ∧ x = centre s 0 then 'v' else WALL := by
  obtain ⟨st, hinit, inv, -, hdrawn⟩ := carve_init_ok heap draws hs hw hh
  have hr : draws 0 % height < height := Nat.mod_lt _ (by omega)
  have b1 := @centre_lt s (draws 0 % height) height hs hr
  have b2 := @centre_lt s 0 width hs (by omega)
  have b3 : 1 ≤ centre s (draws 0 % height) := by unfold centre; omega
  have b4 : 1 ≤ centre s 0 := by unfold centre; omega
  have hwf := well_formed_replicate ((s + 1) * height + 1) ((s + 1) * width + 1)
  obtain ⟨m1, g1, g2, g3⟩ := @maze_set_ok
    { a := List.replicate ((s + 1) * height + 1) (List.replicate ((s + 1) * width + 1) WALL),
      w := width, h := height, cell_size := s } _ _ hwf
    (centre s (draws 0 % height)) (centre s 0) (by omega) (by omega) 'v'
  have hpos : 1 ≤ width * height := Nat.mul_pos hw hh
  have hexp : carve_init heap draws width height s = .ok
      { mz := m1,
        stk := { cell_list := ((List.range (width * height + 1)).map heap).set 1
                   ⟨centre s 0, centre s (draws 0 % height)⟩,
                 top_of_stack := 1, capacity := width * height },
        drawn := 1, push_results := [0],
        marked := [⟨centre s 0, centre s (draws 0 % height)⟩], removed := [] } := by
    unfold carve_init
    simp only [c_mod, Nat.ne_of_gt hh, if_false, bind, Except.bind, mark_visited,
      maze_dimension_to_matrix, cell_to_matrix_idx_eq, g1]
    rw [stack_push_eq _ (by simp only [init_stack]; omega)
      (by simp only [init_stack, List.length_map, List.length_range]; omega)]
    rfl
  rw [hexp] at hinit
  injection hinit with hinit
  subst hinit
  have hrd : ∀ y x, rd m1.a y x
      = if y = centre s (draws 0 % height) ∧ x = centre s 0 then 'v' else WALL := by
    intro y x
    rw [g3, rd_replicate]
  have hvis : ∀ c r, c < width → r < height →
      (visited m1.a s c r ↔ visited
        (List.replicate ((s + 1) * height + 1) (List.replicate ((s + 1) * width + 1) WALL))
        s c r ∨ (c = 0 ∧ r = draws 0 % height)) := by
    intro c r hc hr'
    unfold visited
    rw [hrd, rd_replicate]
    constructor
    · intro h
      split at h
      · rename_i he
        exact Or.inr ⟨centre_inj he.2, centre_inj he.1⟩
      · exact absurd h (by decide)
    · rintro (h | ⟨e1, e2⟩)
      · exact absurd h (by decide)
      · subst e1 e2
        simp
  have hv0 : visited_count
      (List.replicate ((s + 1) * height + 1) (List.replicate ((s + 1) * width + 1) WALL))
      s width height = 0 := by
    unfold visited_count
    rw [Finset.card_eq_zero, Finset.filter_eq_empty_iff]
    intro p _
    rw [rd_replicate]
    decide
  have hnot : ¬ visited
      (List.replicate ((s + 1) * height + 1) (List.replicate ((s + 1) * width + 1) WALL))
      s 0 (draws 0 % height) := by
    unfold visited
    rw [rd_replicate]
    decide
  have hcount := visited_count_succ (by omega : 0 < width) hr hnot hvis
  rw [hv0] at hcount
  have hstart : visited m1.a s 0 (draws 0 % height) :=
    (hvis 0 _ (by omega) hr).mpr (Or.inr ⟨rfl, rfl⟩)
  have hget : (((List.range (width * height + 1)).map heap).set 1
      (⟨centre s 0, centre s (draws 0 % height)⟩ : cell))[1]?
      = some ⟨centre s 0, centre s (draws 0 % height)⟩ := by
    rw [List.getElem?_set, if_pos rfl, if_pos (by simp; omega)]
  have honly : ∀ c r, c < width → r < height → visited m1.a s c r →
      c = 0 ∧ r = draws 0 % height := by
    intro c r hc hr' hv
    rcases (hvis c r hc hr').mp hv with h | h
    · unfold visited at h
      rw [rd_replicate] at h
      exact absurd h (by decide)
    · exact h
  refine ⟨_, hexp, inv, ?_, ?_, rfl, rfl, rfl, rfl, hrd⟩
  · refine ⟨?_, ?_, ?_, ?_, List.nodup_singleton _, ?_, ⟨_, rfl⟩, ?_⟩
    · intro c r hc hr' hv
      obtain ⟨e1, e2⟩ := honly c r hc hr' hv
      subst e1 e2
      exact Or.inl ⟨1, le_rfl, le_rfl, hget⟩
    · intro i hi1 hi2
      have hi : i = 1 := by simp only at hi2; omega
      subst hi
      exact ⟨0, _, by omega, hr, hget, hstart⟩
    · intro y x hyx
      rw [hrd, if_neg (by omega)]
    · intro cl
      simp only [List.mem_singleton]
      constructor
      · intro e
        exact ⟨0, _, by omega, hr, e, hstart⟩
      · rintro ⟨c, r, hc, hr', e, hv⟩
        obtain ⟨e1, e2⟩ := honly c r hc hr' hv
        subst e1 e2
        exact e
    · simp only [List.length_singleton]
      omega
    · intro e he
      simp at he
  · unfold carve_measure
    simp only
    omega

/-- The carving loop as a whole: it makes exactly `2 * width * height - 1` iterations and
ends with every cell visited, the stack empty and `width * height` draws made. -/
theorem carve_loop_spec (heap : Nat → cell) (draws : Nat → Nat) (fuel : Nat)
    {s width height : Nat} (hs : 1 ≤ s) (hw : 1 ≤ width) (hh : 1 ≤ height)
    (hfuel : 2 * (width * height) ≤ fuel + 1) :
    ∃ st0 st1, carve_init heap draws width height s = .ok st0 ∧
      carve_run draws (2 * (width * height) - 1) st0 = .ok st1 ∧
      carve_loop draws fuel st0 = .ok st1 ∧
      carve_inv s width height st1 ∧ dfs_inv s width height st1 ∧
      st1.stk.top_of_stack = 0 ∧ st1.drawn = width * height ∧
      (∀ c r, c < width → r < height → visited st1.mz.a s c r) ∧
      st1.marked.head? = some ⟨centre s 0, centre s (draws 0 % height)⟩ := by
  obtain ⟨st0, h0, inv0, dfs0, hm0, hd0, ht0, hmk0, -, -⟩ := carve_init_spec heap draws hs hw hh
  obtain ⟨st1, h1, inv1, dfs1, hm1, hh1, v, p, hvp, hd1, ht1⟩ :=
    carve_run_exact draws hs (2 * (width * height) - 1) st0 inv0 dfs0 (by omega)
  have hz : carve_measure s width height st1 = 0 := by omega
  have htop : st1.stk.top_of_stack = 0 := (measure_zero_iff dfs1).mpr hz
  refine ⟨st0, st1, h0, h1, ?_, inv1, dfs1, htop, by omega, dfs_complete dfs1 htop, ?_⟩
  · have hmono := carve_run_mono draws (fuel - (2 * (width * height) - 1)) _ st0 st1 h1 htop
    have e : 2 * (width * height) - 1 + (fuel - (2 * (width * height) - 1)) = fuel := by omega
    rw [e] at hmono
    simp [carve_loop, hmono, bind, Except.bind, stack_isempty, htop]
  · rw [hh1, hmk0]
    rfl

theorem find_range_one (p : Nat → Bool) (k : Nat) (h0 : p 0 = false) (h1 : p 1 = true) :
    (List.range (k + 2)).find? p = some 1 := by
  rw [List.range_succ_eq_map, List.range_succ_eq_map]
  simp [List.find?_cons, h0, h1]

theorem find_range_reverse (p : Nat → Bool) (k : Nat) (h0 : p (k + 1) = false)
    (h1 : p k = true) : (List.range (k + 2)).reverse.find? p = some k := by
  rw [List.range_succ, List.range_succ]
  simp [List.find?_cons, h0, h1]

theorem in_some_block_bounds {s width height row col : Nat}
    (h : in_some_block s width height row col) :
    1 ≤ row ∧ row < (s + 1) * height ∧ 1 ≤ col ∧ col < (s + 1) * width := by
  obtain ⟨c, r, hc, hr, h1, h2, h3, h4⟩ := h
  have := @block_le s c width hc
  have := @block_le s r height hr
  omega

/-- After a complete traversal the sweep fills the block of every cell with spaces and
changes nothing else. -/
theorem sweep_complete {m : maze} {s width height : Nat} (hs : 1 ≤ s)
    (hms : m.cell_size = s) (hmw : m.w = width) (hmh : m.h = height)
    (h : well_formed m.a ((s + 1) * height + 1) ((s + 1) * width + 1))
    (hmarks : ∀ y x, rd m.a y x = 'v' → is_centre s width height x y)
    (hall : ∀ c r, c < width → r < height → visited m.a s c r) :
    ∃ m1, sweep_visited m = .ok m1 ∧
      same_frame m m1 ((s + 1) * height + 1) ((s + 1) * width + 1) ∧
      written m.a m1.a (in_some_block s width height) ' ' := by
  obtain ⟨m1, g1, g2, g3⟩ := sweep_visited_ok hs hms hmw hmh h hmarks
  refine ⟨m1, g1, g2, written_congr g3 ?_⟩
  intro row col
  constructor
  · rintro ⟨c, r, hc, hr, -, hin⟩
    exact ⟨c, r, hc, hr, hin⟩
  · rintro ⟨c, r, hc, hr, hin⟩
    exact ⟨c, r, hc, hr, hall c r hc hr, hin⟩

/-- The entry step on a swept matrix whose border is intact: the first row with a space
in column 1 is row 1, and the step writes a space at row 1, column 0. -/
theorem select_entry_spec {m : maze} {s width height : Nat} (hs : 1 ≤ s)
    (hw : 1 ≤ width) (hh : 1 ≤ height)
    (hms : m.cell_size = s) (hmh : m.h = height)
    (h : well_formed m.a ((s + 1) * height + 1) ((s + 1) * width + 1))
    (h01 : rd m.a 0 1 ≠ ' ') (h11 : rd m.a 1 1 = ' ') :
    ∃ m1, select_entry m = .ok m1 ∧
      same_frame m m1 ((s + 1) * height + 1) ((s + 1) * width + 1) ∧
      (List.range (maze_dimension_to_matrix m m.h)).find? (fun row => decide (rd m.a row 1 = ' '))
        = some 1 ∧
      ∀ y x, rd m1.a y x = if y = 1 ∧ x = 0 then ' ' else rd m.a y x := by
  have hpw : 0 < (s + 1) * width := Nat.mul_pos (by omega) hw
  have hph : s + 1 ≤ (s + 1) * height := Nat.le_mul_of_pos_right _ hh
  have hfind : (List.range ((s + 1) * height + 1)).find? (fun row => decide (rd m.a row 1 = ' '))
      = some 1 := by
    have e : (s + 1) * height + 1 = ((s + 1) * height - 1) + 2 := by omega
    rw [e]
    exact find_range_one _ _ (by simp [h01]) (by simp [h11])
  obtain ⟨m1, g1, g2, g3⟩ := @maze_set_ok m _ _ h 1 0 (by omega) (by omega) ' '
  refine ⟨m1, ?_, g2, ?_, g3⟩
  · unfold select_entry maze_dimension_to_matrix
    rw [hms, hmh]
    have := open_border_eq h 1 (by omega) 0 (List.range ((s + 1) * height + 1))
      (fun row hrow => List.mem_range.mp hrow)
    rw [hfind] at this
    exact this.trans g1
  · unfold maze_dimension_to_matrix
    rw [hms, hmh]
    exact hfind

/-- The exit step: the last row with a space in the centre column of the last cell
column is row `h - 2`, and the step writes a space at that row in the last column. -/
theorem select_exit_spec {m : maze} {s width height : Nat} (hs : 1 ≤ s)
    (hw : 1 ≤ width) (hh : 1 ≤ height)
    (hms : m.cell_size = s) (hmw : m.w = width) (hmh : m.h = height)
    (h : well_formed m.a ((s + 1) * height + 1) ((s + 1) * width + 1))
    (hlast : rd m.a ((s + 1) * height) (centre s (width - 1)) ≠ ' ')
    (hprev : rd m.a ((s + 1) * height - 1) (centre s (width - 1)) = ' ') :
    ∃ m1, select_exit m = .ok m1 ∧
      same_frame m m1 ((s + 1) * height + 1) ((s + 1) * width + 1) ∧
      (List.range (maze_dimension_to_matrix m m.h)).reverse.find?
          (fun row => decide (rd m.a row (cell_to_matrix_idx m (m.w - 1)) = ' '))
        = some ((s + 1) * height - 1) ∧
      ∀ y x, rd m1.a y x
        = if y = (s + 1) * height - 1 ∧ x = (s + 1) * width then ' ' else rd m.a y x := by
  have hpw : 0 < (s + 1) * width := Nat.mul_pos (by omega) hw
  have hph : s + 1 ≤ (s + 1) * height := Nat.le_mul_of_pos_right _ hh
  have hcl := @centre_lt s (width - 1) width hs (by omega)
  have hfind : (List.range ((s + 1) * height + 1)).reverse.find?
      (fun row => decide (rd m.a row (centre s (width - 1)) = ' '))
      = some ((s + 1) * height - 1) := by
    have e : (s + 1) * height + 1 = ((s + 1) * height - 1) + 2 := by omega
    rw [e]
    refine find_range_reverse _ _ ?_ ?_
    · have e2 : (s + 1) * height - 1 + 1 = (s + 1) * height := by omega
      rw [e2]
      simp [hlast]
    · simp [hprev]
  obtain ⟨m1, g1, g2, g3⟩ := @maze_set_ok m _ _ h ((s + 1) * height - 1) ((s + 1) * width)
    (by omega) (by omega) ' '
  refine ⟨m1, ?_, g2, ?_, g3⟩
  · unfold select_exit maze_dimension_to_matrix
    rw [cell_to_matrix_idx_eq, hms, hmh, hmw]
    have e3 : (((s + 1) * width + 1 : Nat) : Int) - 1 = (((s + 1) * width : Nat) : Int) := by
      omega
    rw [e3]
    have := open_border_eq h (centre s (width - 1)) (by omega) (((s + 1) * width : Nat) : Int)
      (List.range ((s + 1) * height + 1)).reverse
      (fun row hrow => List.mem_range.mp (List.mem_reverse.mp hrow))
    rw [hfind] at this
    exact this.trans g1
  · unfold maze_dimension_to_matrix
    rw [cell_to_matrix_idx_eq, hms, hmh, hmw]
    exact hfind

theorem mul_pred_add {s n : Nat} (hn : 1 ≤ n) : (s + 1) * (n - 1) + (s + 1) = (s + 1) * n := by
  obtain ⟨k, rfl⟩ : ∃ k, n = k + 1 := ⟨n - 1, by omega⟩
  rw [Nat.add_sub_cancel, Nat.mul_add]
  omega

/-- The phases of lines 195-271 for a run that is allowed enough iterations: the state
`st1` at the end of the carving loop, the matrix `m1` after the sweep, `m2` after the
entry step and `m3` after the exit step, with what each phase writes. -/
theorem carve_maze_phases (heap : Nat → cell) (draws : Nat → Nat) (fuel : Nat)
    {s width height : Nat} (hs : 1 ≤ s) (hw : 1 ≤ width) (hh : 1 ≤ height)
    (hfuel : 2 * (width * height) ≤ fuel + 1) :
    ∃ st0 st1 m1 m2 m3, carve_init heap draws width height s = .ok st0 ∧
      carve_loop draws fuel st0 = .ok st1 ∧
      carve_inv s width height st1 ∧ dfs_inv s width height st1 ∧
      (∀ c r, c < width → r < height → visited st1.mz.a s c r) ∧
      sweep_visited st1.mz = .ok m1 ∧
      same_frame st1.mz m1 ((s + 1) * height + 1) ((s + 1) * width + 1) ∧
      written st1.mz.a m1.a (in_some_block s width height) ' ' ∧
      select_entry m1 = .ok m2 ∧
      same_frame m1 m2 ((s + 1) * height + 1) ((s + 1) * width + 1) ∧
      (List.range (maze_dimension_to_matrix m1 m1.h)).find?
        (fun row => decide (rd m1.a row 1 = ' ')) = some 1 ∧
      (∀ y x, rd m2.a y x = if y = 1 ∧ x = 0 then ' ' else rd m1.a y x) ∧
      select_exit m2 = .ok m3 ∧
      same_frame m2 m3 ((s + 1) * height + 1) ((s + 1) * width + 1) ∧
      (List.range (maze_dimension_to_matrix m2 m2.h)).reverse.find?
          (fun row => decide (rd m2.a row (cell_to_matrix_idx m2 (m2.w - 1)) = ' '))
        = some ((s + 1) * height - 1) ∧
      (∀ y x, rd m3.a y x
        = if y = (s + 1) * height - 1 ∧ x = (s + 1) * width then ' ' else rd m2.a y x) ∧
      carve_maze heap draws fuel width height s
        = .ok ({ m3 with w := (s + 1) * width + 1, h := (s + 1) * height + 1 }, st1.drawn) := by
  obtain ⟨st0, st1, h0, -, h2, inv1, dfs1, htop, -, hall, -⟩ :=
    carve_loop_spec heap draws fuel hs hw hh hfuel
  obtain ⟨m1, c1, c2, c3⟩ := sweep_complete hs inv1.frame_s inv1.frame_w inv1.frame_h
    inv1.shape inv1.marks hall
  have e1w : m1.w = width := c2.1.trans inv1.frame_w
  have e1h : m1.h = height := c2.2.1.trans inv1.frame_h
  have e1s : m1.cell_size = s := c2.2.2.1.trans inv1.frame_s
  have hpw : 0 < (s + 1) * width := Nat.mul_pos (by omega) hw
  have hph : s + 1 ≤ (s + 1) * height := Nat.le_mul_of_pos_right _ hh
  have hout : ∀ y x, (y = 0 ∨ x = 0 ∨ (s + 1) * height ≤ y ∨ (s + 1) * width ≤ x) →
      rd m1.a y x = WALL := by
    intro y x hyx
    have hnb : ¬ in_some_block s width height y x := by
      intro hb
      have := in_some_block_bounds hb
      omega
    rw [(c3 y x).2 hnb]
    exact dfs1.border y x hyx
  have h11 : rd m1.a 1 1 = ' ' :=
    (c3 1 1).1 ⟨0, 0, by omega, by omega, by unfold in_block; omega⟩
  have h01 : rd m1.a 0 1 ≠ ' ' := by
    rw [hout 0 1 (Or.inl rfl)]
    decide
  obtain ⟨m2, d1, d2, d3, d4⟩ := select_entry_spec hs hw hh e1s e1h c2.2.2.2 h01 h11
  have e2w : m2.w = width := d2.1.trans e1w
  have e2h : m2.h = height := d2.2.1.trans e1h
  have e2s : m2.cell_size = s := d2.2.2.1.trans e1s
  have hctr : 1 ≤ centre s (width - 1) := by unfold centre; omega
  have hlast : rd m2.a ((s + 1) * height) (centre s (width - 1)) ≠ ' ' := by
    rw [d4, if_neg (by omega), hout _ _ (Or.inr (Or.inr (Or.inl le_rfl)))]
    decide
  have hprev : rd m2.a ((s + 1) * height - 1) (centre s (width - 1)) = ' ' := by
    rw [d4, if_neg (by omega)]
    refine (c3 _ _).1 ⟨width - 1, height - 1, by omega, by omega, ?_⟩
    have := @mul_pred_add s height hh
    unfold in_block centre
    omega
  obtain ⟨m3, f1, f2, f3, f4⟩ := select_exit_spec hs hw hh e2s e2w e2h d2.2.2.2 hlast hprev
  have e3w : m3.w = width := f2.1.trans e2w
  have e3h : m3.h = height := f2.2.1.trans e2h
  have e3s : m3.cell_size = s := f2.2.2.1.trans e2s
  refine ⟨st0, st1, m1, m2, m3, h0, h2, inv1, dfs1, hall, c1, c2, c3, d1, d2, d3, d4,
    f1, f2, f3, f4, ?_⟩
  unfold carve_maze
  simp only [h0, h2, c1, d1, f1, bind, Except.bind, maze_dimension_to_matrix, e3w, e3h, e3s]

/-- The phases of a carving run that returned: as `carve_maze_phases`, for whatever
number of iterations the run was allowed. -/
theorem carve_maze_returned {heap : Nat → cell} {draws : Nat → Nat} {fuel : Nat}
    {s width height : Nat} (hs : 1 ≤ s) (hw : 1 ≤ width) (hh : 1 ≤ height)
    {m0 : maze} {k : Nat} (hret : carve_maze heap draws fuel width height s = .ok (m0, k)) :
    ∃ st0 st1 m1 m2 m3, carve_init heap draws width height s = .ok st0 ∧
      carve_loop draws fuel st0 = .ok st1 ∧
      carve_inv s width height st1 ∧ dfs_inv s width height st1 ∧
      (∀ c r, c < width → r < height → visited st1.mz.a s c r) ∧
      sweep_visited st1.mz = .ok m1 ∧
      same_frame st1.mz m1 ((s + 1) * height + 1) ((s + 1) * width + 1) ∧
      written st1.mz.a m1.a (in_some_block s width height) ' ' ∧
      select_entry m1 = .ok m2 ∧
      (∀ y x, rd m2.a y x = if y = 1 ∧ x = 0 then ' ' else rd m1.a y x) ∧
      select_exit m2 = .ok m3 ∧
      (∀ y x, rd m3.a y x
        = if y = (s + 1) * height - 1 ∧ x = (s + 1) * width then ' ' else rd m2.a y x) ∧
      m0.a = m3.a ∧ m0.cell_size = s ∧ k = st1.drawn := by
  obtain ⟨st0, st1, m1, m2, m3, h0, h1, inv1, dfs1, hall, c1, c2, c3, d1, d2, -, d4,
    f1, f2, -, f4, hc⟩ := carve_maze_phases heap draws (fuel + 2 * (width * height)) hs hw hh
      (by omega)
  have hret1 := hret
  unfold carve_maze at hret1
  obtain ⟨s0, a1, a2⟩ := bind_ok_inv hret1
  obtain ⟨s1, a3, a4⟩ := bind_ok_inv a2
  have e0 : s0 = st0 := by
    rw [h0] at a1
    injection a1 with a1
    exact a1.symm
  subst e0
  have a5 := carve_loop_mono draws (2 * (width * height)) fuel s0 s1 a3
  rw [h1] at a5
  injection a5 with a5
  subst a5
  have hc1 : carve_maze heap draws (fuel + 2 * (width * height)) width height s = .ok (m0, k) := by
    unfold carve_maze
    rw [bind_ok h0, bind_ok h1]
    exact a4
  rw [hc] at hc1
  injection hc1 with hc1
  injection hc1 with e1 e2
  refine ⟨s0, st1, m1, m2, m3, h0, a3, inv1, dfs1, hall, c1, c2, c3, d1, d4, f1, f4, ?_, ?_,
    e2.symm⟩
  · rw [← e1]
  · rw [← e1]
    exact (f2.2.2.1.trans (d2.2.2.1.trans (c2.2.2.1.trans inv1.frame_s)))

/-- The matrix `generate_maze` returns is the matrix the carving phase returned with
potions put on three of its spaces. -/
theorem generate_maze_final {heap : Nat → cell} {draws : Nat → Nat} {fuel : Nat}
    {s width height : Nat} (hs : 1 ≤ s) (hw : 1 ≤ width) (hh : 1 ≤ height) {m : maze}
    (hret : generate_maze heap draws fuel width height s = .ok m) :
    ∃ m0 k, carve_maze heap draws fuel width height s = .ok (m0, k) ∧
      m.cell_size = s ∧
      ∀ y x, rd m.a y x = rd m0.a y x ∨ (rd m0.a y x = ' ' ∧ rd m.a y x = POTION) := by
  obtain ⟨m0, k, m1, m2, r1, c1, r2, c2, r3, c3, h0, -, -, e3, -, -, f1, f2, f3, -, -, p1, q1,
    -, -, p2, q2, -, -, p3, q3⟩ := generate_maze_inv hs hw hh hret
  refine ⟨m0, k, h0, ?_, ?_⟩
  · exact (f3.2.2.1.trans (f2.2.2.1.trans (f1.2.2.1.trans e3)))
  intro y x
  have hP : POTION ≠ ' ' := by decide
  have g2 : rd m0.a r2 c2 = ' ' := by
    rw [q1] at p2
    by_cases hh1 : r2 = r1 ∧ c2 = c1
    · rw [if_pos hh1] at p2
      exact absurd p2 hP
    · rw [if_neg hh1] at p2
      exact p2
  have g3 : rd m0.a r3 c3 = ' ' := by
    rw [q2] at p3
    by_cases hh2 : r3 = r2 ∧ c3 = c2
    · rw [if_pos hh2] at p3
      exact absurd p3 hP
    · rw [if_neg hh2, q1] at p3
      by_cases hh1 : r3 = r1 ∧ c3 = c1
      · rw [if_pos hh1] at p3
        exact absurd p3 hP
      · rw [if_neg hh1] at p3
        exact p3
  rw [q3]
  by_cases k3 : y = r3 ∧ x = c3
  · rw [if_pos k3, k3.1, k3.2]
    exact Or.inr ⟨g3, rfl⟩
  rw [if_neg k3, q2]
  by_cases k2 : y = r2 ∧ x = c2
  · rw [if_pos k2, k2.1, k2.2]
    exact Or.inr ⟨g2, rfl⟩
  rw [if_neg k2, q1]
  by_cases k1 : y = r1 ∧ x = c1
  · rw [if_pos k1, k1.1, k1.2]
    exact Or.inr ⟨p1, rfl⟩
  rw [if_neg k1]
  exact Or.inl rfl

/-- After the sweep of a fully visited maze the border of the matrix is still `WALL`. -/
theorem sweep_border {s width height : Nat} {a a1 : List (List Char)}
    (hb : ∀ y x, (y = 0 ∨ x = 0 ∨ (s + 1) * height ≤ y ∨ (s + 1) * width ≤ x) → rd a y x = WALL)
    (hwr : written a a1 (in_some_block s width height) ' ') :
    ∀ y x, (y = 0 ∨ x = 0 ∨ (s + 1) * height ≤ y ∨ (s + 1) * width ≤ x) → rd a1 y x = WALL := by
  intro y x hyx
  have hnb : ¬ in_some_block s width height y x := by
    intro hb1
    have := in_some_block_bounds hb1
    omega
  rw [(hwr y x).2 hnb]
  exact hb y x hyx

theorem play_get_in (pad : Nat → Char) {a : List (List Char)} {H W : Nat}
    (h : well_formed a H W) {y x : Nat} (hy : y < H) (hx : x < W) :
    play_get pad a (y : Int) (x : Int) = .ok (rd a y x) := by
  unfold play_get
  rw [if_neg (by omega)]
  exact matrix_get_ok h hy hx

theorem play_get_pad (pad : Nat → Char) {a : List (List Char)} {H W : Nat}
    (h : well_formed a H W) {y : Nat} (hy : y < H) :
    play_get pad a (y : Int) (-1) = .ok (pad y) := by
  unfold play_get
  have hl : a.length = H := h.1
  rw [if_pos ⟨rfl, by omega, by omega⟩]
  simp

/-- One iteration of the play loop on a state that satisfies the invariant makes no
access outside the matrix other than the read before a row, and ends in a state that
satisfies the invariant. -/
theorem play_step_total (m : maze) (pad : Nat → Char) (hh : 3 ≤ m.h) (hw : 3 ≤ m.w)
    (s : play_state) (input : Char) (inv : play_inv m s)
    (hrun : play_running m s = true) :
    ∃ s1, play_step m pad s input = .ok s1 ∧ play_inv m s1 := by
  obtain ⟨a, x, y, p⟩ := s
  obtain ⟨hwf, htop, hbot, hleft, hright, hy1, hy2, hx1, hx2, hent, hex⟩ := inv
  simp only at hwf htop hbot hleft hright hy1 hy2 hx1 hx2 hent hex
  simp only [play_running, Bool.and_eq_true, decide_eq_true_eq] at hrun
  obtain ⟨y0, rfl⟩ : ∃ y0 : Nat, y = y0 := ⟨y.toNat, (Int.toNat_of_nonneg (by omega)).symm⟩
  obtain ⟨x0, rfl⟩ : ∃ x0 : Nat, x = x0 := ⟨x.toNat, (Int.toNat_of_nonneg hx1).symm⟩
  have by0 : y0 < m.h := by omega
  have bx0 : x0 < m.w := by omega
  have bx1 : x0 + 1 < m.w := by omega
  have g0 := matrix_get_ok hwf by0 bx0
  obtain ⟨b1, k1, k2, k3⟩ := matrix_set_ok hwf by0 bx0 '@'
  obtain ⟨b2, l1, l2, l3⟩ := matrix_set_ok k2 by0 bx0 ' '
  have hb2 : ∀ row col, ¬ (row = y0 ∧ col = x0) → rd b2 row col = rd a row col := by
    intro row col hne
    rw [l3, if_neg hne, k3, if_neg hne]
  have htop2 : ∀ col, rd b2 0 col = WALL := by
    intro col
    rw [hb2 0 col (by omega)]
    exact htop col
  have hbot2 : ∀ col, rd b2 (m.h - 1) col = WALL := by
    intro col
    rw [hb2 _ col (by omega)]
    exact hbot col
  have hleft2 : ∀ row, row ≠ 1 → rd b2 row 0 = WALL := by
    intro row hrow
    rw [hb2 row 0 (by omega)]
    exact hleft row hrow
  have hright2 : ∀ row, row + 2 ≠ m.h → rd b2 row (m.w - 1) = WALL := by
    intro row hrow
    rw [hb2 row _ (by omega)]
    exact hright row hrow
  unfold play_step
  simp only [bind_ok g0, bind_ok k1, bind_ok l1]
  by_cases hiw : input = 'w'
  · rw [if_pos hiw]
    have e : (y0 : Int) - 1 = ((y0 - 1 : Nat) : Int) := by omega
    rw [e, bind_ok (matrix_get_ok l2 (show y0 - 1 < m.h by omega) bx0)]
    refine ⟨_, rfl, ?_⟩
    by_cases hch : rd b2 (y0 - 1) x0 ≠ 'w'
    · have hne0 : y0 - 1 ≠ 0 := by
        intro h0
        rw [h0] at hch
        exact hch (htop2 x0)
      have hx00 : x0 ≠ 0 := by
        intro h0
        have := hent (by omega)
        omega
      simp only [if_pos hch]
      exact ⟨l2, htop2, hbot2, hleft2, hright2, by simp only; omega, by simp only; omega,
        hx1, hx2, fun h => by simp only at h; omega, fun h => by simp only at h; omega⟩
    · simp only [if_neg hch]
      exact ⟨l2, htop2, hbot2, hleft2, hright2, hy1, hy2, hx1, hx2, hent,
        fun h => by simp only at h; omega⟩
  rw [if_neg hiw]
  by_cases his : input = 's'
  · rw [if_pos his]
    have e : (y0 : Int) + 1 = ((y0 + 1 : Nat) : Int) := by omega
    rw [e, bind_ok (matrix_get_ok l2 (show y0 + 1 < m.h by omega) bx0)]
    refine ⟨_, rfl, ?_⟩
    by_cases hch : rd b2 (y0 + 1) x0 ≠ 'w'
    · have hne0 : y0 + 1 ≠ m.h - 1 := by
        intro h0
        rw [h0] at hch
        exact hch (hbot2 x0)
      have hx00 : x0 ≠ 0 := by
        intro h0
        have := hent (by omega)
        rw [h0] at hch
        exact hch (hleft2 (y0 + 1) (by omega))
      simp only [if_pos hch]
      exact ⟨l2, htop2, hbot2, hleft2, hright2, by simp only; omega, by simp only; omega,
        hx1, hx2, fun h => by simp only at h; omega, fun h => by simp only at h; omega⟩
    · simp only [if_neg hch]
      exact ⟨l2, htop2, hbot2, hleft2, hright2, hy1, hy2, hx1, hx2, hent,
        fun h => by simp only at h; omega⟩
  rw [if_neg his]
  by_cases hia : input = 'a'
  · rw [if_pos hia]
    have hpad1 := play_get_pad pad l2 (show 1 < m.h by omega)
    simp only [Nat.cast_one] at hpad1
    by_cases hx00 : x0 = 0
    · subst hx00
      have hy01 : y0 = 1 := by
        have := hent rfl
        omega
      subst hy01
      have e : ((0 : Nat) : Int) - 1 = -1 := by omega
      simp only [e, Nat.cast_one, bind_ok hpad1]
      by_cases hch : pad 1 ≠ 'w'
      · simp only [if_pos hch, bind_ok hpad1, ne_eq, not_true_eq_false, if_false]
        exact ⟨_, rfl, l2, htop2, hbot2, hleft2, hright2, hy1, hy2, hx1, hx2, hent,
          fun h => by simp only at h; omega⟩
      · simp only [if_neg hch]
        exact ⟨_, rfl, l2, htop2, hbot2, hleft2, hright2, hy1, hy2, hx1, hx2, hent,
          fun h => by simp only at h; omega⟩
    · have e : (x0 : Int) - 1 = ((x0 - 1 : Nat) : Int) := by omega
      rw [e, bind_ok (play_get_in pad l2 by0 (show x0 - 1 < m.w by omega))]
      by_cases hch : rd b2 y0 (x0 - 1) ≠ 'w'
      · simp only [if_pos hch, bind_ok hpad1]
        refine ⟨_, rfl, ?_⟩
        by_cases hmv : rd b2 y0 (x0 - 1) ≠ pad 1
        · simp only [if_pos hmv]
          refine ⟨l2, htop2, hbot2, hleft2, hright2, hy1, hy2, by simp only; omega,
            by simp only; omega, ?_, fun h => by simp only at h; omega⟩
          intro h
          simp only at h ⊢
          have hx01 : x0 - 1 = 0 := by omega
          rw [hx01] at hch
          by_contra hy
          exact hch (hleft2 y0 (by omega))
        · simp only [if_neg hmv]
          exact ⟨l2, htop2, hbot2, hleft2, hright2, hy1, hy2, hx1, hx2, hent,
            fun h => by simp only at h; omega⟩
      · simp only [if_neg hch]
        exact ⟨_, rfl, l2, htop2, hbot2, hleft2, hright2, hy1, hy2, hx1, hx2, hent,
          fun h => by simp only at h; omega⟩
  rw [if_neg hia]
  by_cases hid : input = 'd'
  · rw [if_pos hid]
    by_cases hg : (y0 : Int) + 2 = (m.h : Int) ∧ (x0 : Int) = (m.w : Int) - 2 ∧
        (if rd a y0 x0 = POTION then p + 1 else p) ≠ 3
    · rw [if_pos hg]
      exact ⟨_, rfl, l2, htop2, hbot2, hleft2, hright2, hy1, hy2, hx1, hx2, hent,
        fun h => by simp only at h; omega⟩
    · rw [if_neg hg]
      have e : (x0 : Int) + 1 = ((x0 + 1 : Nat) : Int) := by omega
      rw [e, bind_ok (matrix_get_ok l2 by0 bx1)]
      refine ⟨_, rfl, ?_⟩
      by_cases hch : rd b2 y0 (x0 + 1) ≠ 'w'
      · simp only [if_pos hch]
        refine ⟨l2, htop2, hbot2, hleft2, hright2, hy1, hy2, by simp only; omega,
          by simp only; omega, fun h => by simp only at h; omega, ?_⟩
        intro h
        simp only at h ⊢
        have hx01 : x0 + 1 = m.w - 1 := by omega
        rw [hx01] at hch
        have hrow : y0 + 2 = m.h := by
          by_contra hne
          exact hch (hright2 y0 hne)
        by_contra hp
        exact hg ⟨by omega, by omega, hp⟩
      · simp only [if_neg hch]
        exact ⟨l2, htop2, hbot2, hleft2, hright2, hy1, hy2, hx1, hx2, hent,
          fun h => by simp only at h; omega⟩
  · rw [if_neg hid]
    exact ⟨_, rfl, l2, htop2, hbot2, hleft2, hright2, hy1, hy2, hx1, hx2, hent,
      fun h => by simp only at h; omega⟩

theorem play_loop_total (m : maze) (pad : Nat → Char) (hh : 3 ≤ m.h) (hw : 3 ≤ m.w)
    (inputs : List Char) :
    ∀ s0, play_inv m s0 → ∃ s, play_loop m pad inputs s0 = .ok s ∧ play_inv m s := by
  induction inputs with
  | nil => intro s0 inv; exact ⟨s0, rfl, inv⟩
  | cons c cs ih =>
    intro s0 inv
    unfold play_loop
    by_cases hr : play_running m s0 = true
    · rw [if_pos hr]
      obtain ⟨s1, g1, inv1⟩ := play_step_total m pad hh hw s0 c inv hr
      rw [bind_ok g1]
      exact ih s1 inv1
    · rw [if_neg hr]
      exact ⟨s0, rfl, inv⟩

/-- One iteration of the play loop, on any matrix with at least two columns, keeps the
shape of the matrix and its last column, and the player reaches the last column only
with exactly three potions. -/
theorem play_step_guard (m : maze) (pad : Nat → Char) (hw : 2 ≤ m.w) (s s1 : play_state)
    (input : Char) (hwf : well_formed s.a m.h m.w)
    (hcol : ∀ row, row < m.h → row + 2 ≠ m.h → rd s.a row (m.w - 1) = WALL)
    (hrun : play_running m s = true) (hstep : play_step m pad s input = .ok s1) :
    well_formed s1.a m.h m.w ∧
    (∀ row, row < m.h → row + 2 ≠ m.h → rd s1.a row (m.w - 1) = WALL) ∧
    (s1.x = (m.w : Int) - 1 → s1.potion = 3) := by
  unfold play_step at hstep
  obtain ⟨here, g0, hstep⟩ := bind_ok_inv hstep
  obtain ⟨y0, x0, ey, ex, by0, bx0, -⟩ := matrix_get_inv hwf g0
  obtain ⟨a1, g1, hstep⟩ := bind_ok_inv hstep
  obtain ⟨a2, g2, hstep⟩ := bind_ok_inv hstep
  have hx0 : x0 ≠ m.w - 1 := by
    simp only [play_running, Bool.and_eq_true, decide_eq_true_eq] at hrun
    omega
  rw [ey, ex] at g1 g2
  obtain ⟨b1, k1, k2, k3⟩ := matrix_set_ok hwf by0 bx0 '@'
  rw [k1] at g1
  injection g1 with g1
  subst g1
  obtain ⟨b2, l1, l2, l3⟩ := matrix_set_ok k2 by0 bx0 ' '
  rw [l1] at g2
  injection g2 with g2
  subst g2
  have hcol2 : ∀ row, row < m.h → row + 2 ≠ m.h → rd b2 row (m.w - 1) = WALL := by
    intro row h1 h2
    rw [l3, k3]
    rw [if_neg (fun h => hx0 h.2.symm), if_neg (fun h => hx0 h.2.symm)]
    exact hcol row h1 h2
  by_cases hiw : input = 'w'
  · rw [if_pos hiw] at hstep
    obtain ⟨ch, -, hstep⟩ := bind_ok_inv hstep
    injection hstep with hstep
    subst hstep
    exact ⟨l2, hcol2, fun h => by simp only at h; omega⟩
  rw [if_neg hiw] at hstep
  by_cases his : input = 's'
  · rw [if_pos his] at hstep
    obtain ⟨ch, -, hstep⟩ := bind_ok_inv hstep
    injection hstep with hstep
    subst hstep
    exact ⟨l2, hcol2, fun h => by simp only at h; omega⟩
  rw [if_neg his] at hstep
  by_cases hia : input = 'a'
  · rw [if_pos hia] at hstep
    obtain ⟨ch, -, hstep⟩ := bind_ok_inv hstep
    by_cases hch : ch ≠ 'w'
    · rw [if_pos hch] at hstep
      obtain ⟨ch1, -, hstep⟩ := bind_ok_inv hstep
      injection hstep with hstep
      subst hstep
      refine ⟨l2, hcol2, ?_⟩
      intro h
      simp only at h
      split at h <;> omega
    · rw [if_neg hch] at hstep
      injection hstep with hstep
      subst hstep
      exact ⟨l2, hcol2, fun h => by simp only at h; omega⟩
  rw [if_neg hia] at hstep
  by_cases hid : input = 'd'
  · rw [if_pos hid] at hstep
    by_cases hg : s.y + 2 = (m.h : Int) ∧ s.x = (m.w : Int) - 2 ∧
        (if here = POTION then s.potion + 1 else s.potion) ≠ 3
    · rw [if_pos hg] at hstep
      injection hstep with hstep
      subst hstep
      exact ⟨l2, hcol2, fun h => by simp only at h; omega⟩
    · rw [if_neg hg] at hstep
      obtain ⟨ch, g3, hstep⟩ := bind_ok_inv hstep
      injection hstep with hstep
      subst hstep
      refine ⟨l2, hcol2, ?_⟩
      intro h
      simp only at h ⊢
      by_cases hch : ch ≠ 'w'
      · rw [if_pos hch] at h
        obtain ⟨y1, x1, ey1, ex1, by1, bx1, hrd⟩ := matrix_get_inv l2 g3
        have e1 : y1 = y0 := by omega
        have e2 : x1 = m.w - 1 := by omega
        subst e1
        rw [e2] at hrd
        have hrow : y1 + 2 = m.h := by
          by_contra hne
          have := hcol2 y1 by1 hne
          rw [this] at hrd
          exact hch hrd.symm
        by_contra hp
        exact hg ⟨by omega, by omega, hp⟩
      · rw [if_neg hch] at h
        omega
  · rw [if_neg hid] at hstep
    injection hstep with hstep
    subst hstep
    exact ⟨l2, hcol2, fun h => by simp only at h; omega⟩

theorem play_loop_guard (m : maze) (pad : Nat → Char) (hw : 2 ≤ m.w) (inputs : List Char) :
    ∀ s0 s : play_state, well_formed s0.a m.h m.w →
      (∀ row, row < m.h → row + 2 ≠ m.h → rd s0.a row (m.w - 1) = WALL) →
      (s0.x = (m.w : Int) - 1 → s0.potion = 3) →
      play_loop m pad inputs s0 = .ok s → (s.x = (m.w : Int) - 1 → s.potion = 3) := by
  induction inputs with
  | nil =>
    intro s0 s h1 h2 h3 h4
    injection h4 with h4
    subst h4
    exact h3
  | cons c cs ih =>
    intro s0 s h1 h2 h3 h4
    unfold play_loop at h4
    by_cases hr : play_running m s0 = true
    · rw [if_pos hr] at h4
      obtain ⟨s1, g1, g2⟩ := bind_ok_inv h4
      obtain ⟨k1, k2, k3⟩ := play_step_guard m pad hw s0 s1 c h1 h2 hr g1
      exact ih s1 s k1 k2 k3 g2
    · rw [if_neg hr] at h4
      injection h4 with h4
      subst h4
      exact h3

/-- A maze that `generate_maze` returned has at least three rows and three columns and
satisfies the invariant of the play loop in the state in which `main` enters the loop. -/
theorem generated_play_inv {heap : Nat → cell} {draws : Nat → Nat} {fuel : Nat}
    {s width height : Nat} (hs : 1 ≤ s) (hw : 1 ≤ width) (hh : 1 ≤ height) {m : maze}
    (hret : generate_maze heap draws fuel width height s = .ok m) :
    3 ≤ m.h ∧ 3 ≤ m.w ∧ play_inv m (play_init m) := by
  obtain ⟨m0, k, m1', m2', r1, c1, r2, c2, r3, c3, h0, e1, e2, -, -, -, f1, f2, f3, -⟩ :=
    generate_maze_inv hs hw hh hret
  obtain ⟨m0', k', hcm, -, hfin⟩ := generate_maze_final hs hw hh hret
  rw [h0] at hcm
  injection hcm with hcm
  injection hcm with hcm1 hcm2
  subst hcm1
  obtain ⟨st0, st1, m1, m2, m3, -, -, -, dfs1, -, -, -, c3w, -, d4, -, f4, ea, -, -⟩ :=
    carve_maze_returned hs hw hh h0
  have emw : m.w = (s + 1) * width + 1 := (f3.1.trans (f2.1.trans f1.1)).trans e1
  have emh : m.h = (s + 1) * height + 1 := (f3.2.1.trans (f2.2.1.trans f1.2.1)).trans e2
  have hwf : well_formed m.a m.h m.w := by
    have := f3.2.2.2
    rw [emh, emw, ← e1, ← e2]
    exact this
  have hpw : s + 1 ≤ (s + 1) * width := Nat.le_mul_of_pos_right _ hw
  have hph : s + 1 ≤ (s + 1) * height := Nat.le_mul_of_pos_right _ hh
  have hout := sweep_border dfs1.border c3w
  have hborder : ∀ y x, (y = 0 ∨ x = 0 ∨ (s + 1) * height ≤ y ∨ (s + 1) * width ≤ x) →
      ¬ (y = 1 ∧ x = 0) → ¬ (y = (s + 1) * height - 1 ∧ x = (s + 1) * width) →
      rd m.a y x = WALL := by
    intro y x hb hn1 hn2
    have e : rd m0.a y x = WALL := by
      rw [ea, f4, if_neg hn2, d4, if_neg hn1]
      exact hout y x hb
    rcases hfin y x with h | ⟨h, -⟩
    · rw [h, e]
    · rw [e] at h
      exact absurd h (by decide)
  refine ⟨by omega, by omega, hwf, ?_, ?_, ?_, ?_, ?_, ?_, ?_, ?_, ?_, ?_⟩
  · intro col
    exact hborder 0 col (Or.inl rfl) (by omega) (by omega)
  · intro col
    exact hborder _ col (Or.inr (Or.inr (Or.inl (by omega)))) (by omega) (by omega)
  · intro row hrow
    exact hborder row 0 (Or.inr (Or.inl rfl)) (by omega) (by omega)
  · intro row hrow
    exact hborder row _ (Or.inr (Or.inr (Or.inr (by omega)))) (by omega) (by omega)
  · simp [play_init]
  · simp only [play_init]; omega
  · simp [play_init]
  · simp only [play_init]; omega
  · intro _; rfl
  · intro h
    simp only [play_init] at h
    omega

/-- C11: the player never leaves through the exit without three potions.  For every
matrix with at least two columns whose last column is `WALL` everywhere except row
`h - 2`, every content of the memory before the rows and every sequence of commands
from `x = 0`, `y = 1`, `potion = 0`: if the play loop ends with the player on the exit
column (`x = w - 1`), then `potion = 3`.  And every maze that `generate_maze` returns is
such a matrix, with at least three columns and a last row that is all `WALL`, and on it
the play loop makes no access outside the matrix other than the read before a row: for
every sequence of commands it reaches a state, and in that state `x = w - 1` only with
`potion = 3`. -/
theorem play_exit_needs_potions :
    (∀ (m : maze) (pad : Nat → Char) (inputs : List Char) (s : play_state),
      well_formed m.a m.h m.w → 2 ≤ m.w →
      (∀ row, row < m.h → row + 2 ≠ m.h → rd m.a row (m.w - 1) = WALL) →
      play_loop m pad inputs (play_init m) = .ok s →
      s.x = (m.w : Int) - 1 → s.potion = 3) ∧
    (∀ (heap : Nat → cell) (draws : Nat → Nat) (fuel width height cell_size : Nat) (m : maze)
      (pad : Nat → Char) (inputs : List Char),
      1 ≤ width → 1 ≤ height → 1 ≤ cell_size →
      generate_maze heap draws fuel width height cell_size = .ok m →
      well_formed m.a m.h m.w ∧ 3 ≤ m.w ∧
      (∀ row, row < m.h → row + 2 ≠ m.h → rd m.a row (m.w - 1) = WALL) ∧
      (∀ col, col < m.w → rd m.a (m.h - 1) col = WALL) ∧
      ∃ s, play_loop m pad inputs (play_init m) = .ok s ∧
        (s.x = (m.w : Int) - 1 → s.potion = 3)) := by
  constructor
  · intro m pad inputs s hwf hw hcol hrun hx
    exact play_loop_guard m pad hw inputs (play_init m) s hwf hcol
      (fun h => by simp only [play_init] at h; omega) hrun hx
  · intro heap draws fuel width height cell_size m pad inputs hw hh hs hret
    obtain ⟨h3, w3, inv⟩ := generated_play_inv hs hw hh hret
    obtain ⟨s, hrun, inv1⟩ := play_loop_total m pad h3 w3 inputs (play_init m) inv
    exact ⟨inv.shape, w3, fun row _ h => inv.right_col row h, fun col _ => inv.bottom_row col,
      s, hrun, inv1.at_exit⟩

/-- Witness for C11: on the maze returned for `width = height = 3`, `cell_size = 1`, the
commands `a`, five `d`, two `s`, four `a`, two `s`, five `d` walk the player from the
entry over the three potions to the exit. -/
theorem play_exit_needs_potions_witness :
    generate_maze heap_zero (draws_of [0, 0, 0, 0, 0, 0, 0, 0, 0, 1, 1, 1, 2, 1, 3]) 20 3 3 1
      = .ok { a := [['w', 'w', 'w', 'w', 'w', 'w', 'w'],
             [' ', '#', '#', '#', ' ', ' ', 'w'],
             ['w', 'w', 'w', 'w', 'w', ' ', 'w'],
             ['w', ' ', ' ', ' ', ' ', ' ', 'w'],
             ['w', ' ', 'w', 'w', 'w', 'w', 'w'],
             ['w', ' ', ' ', ' ', ' ', ' ', ' '],
             ['w', 'w', 'w', 'w', 'w', 'w', 'w']], w := 7, h := 7, cell_size := 1 } ∧
    play_loop
        { a := [['w', 'w', 'w', 'w', 'w', 'w', 'w'],
             [' ', '#', '#', '#', ' ', ' ', 'w'],
             ['w', 'w', 'w', 'w', 'w', ' ', 'w'],
             ['w', ' ', ' ', ' ', ' ', ' ', 'w'],
             ['w', ' ', 'w', 'w', 'w', 'w', 'w'],
             ['w', ' ', ' ', ' ', ' ', ' ', ' '],
             ['w', 'w', 'w', 'w', 'w', 'w', 'w']], w := 7, h := 7, cell_size := 1 }
        pad_zero
        ['a', 'd', 'd', 'd', 'd', 'd', 's', 's', 'a', 'a', 'a', 'a', 's', 's',
         'd', 'd', 'd', 'd', 'd']
        (play_init
          { a := [['w', 'w', 'w', 'w', 'w', 'w', 'w'],
             [' ', '#', '#', '#', ' ', ' ', 'w'],
             ['w', 'w', 'w', 'w', 'w', ' ', 'w'],
             ['w', ' ', ' ', ' ', ' ', ' ', 'w'],
             ['w', ' ', 'w', 'w', 'w', 'w', 'w'],
             ['w', ' ', ' ', ' ', ' ', ' ', ' '],
             ['w', 'w', 'w', 'w', 'w', 'w', 'w']], w := 7, h := 7, cell_size := 1 })
      = .ok { a := [['w', 'w', 'w', 'w', 'w', 'w', 'w'],
             [' ', ' ', ' ', ' ', ' ', ' ', 'w'],
             ['w', 'w', 'w', 'w', 'w', ' ', 'w'],
             ['w', ' ', ' ', ' ', ' ', ' ', 'w'],
             ['w', ' ', 'w', 'w', 'w', 'w', 'w'],
             ['w', ' ', ' ', ' ', ' ', ' ', ' '],
             ['w', 'w', 'w', 'w', 'w', 'w', 'w']], x := 6, y := 5, potion := 3 } ∧
    ({ a := [['w', 'w', 'w', 'w', 'w', 'w', 'w'],
             [' ', ' ', ' ', ' ', ' ', ' ', 'w'],
             ['w', 'w', 'w', 'w', 'w', ' ', 'w'],
             ['w', ' ', ' ', ' ', ' ', ' ', 'w'],
             ['w', ' ', 'w', 'w', 'w', 'w', 'w'],
             ['w', ' ', ' ', ' ', ' ', ' ', ' '],
             ['w', 'w', 'w', 'w', 'w', 'w', 'w']], x := 6, y := 5, potion := 3 } : play_state).potion = 3 :=
  ⟨rfl, rfl, play_exit_needs_potions.1
    { a := [['w', 'w', 'w', 'w', 'w', 'w', 'w'],
             [' ', '#', '#', '#', ' ', ' ', 'w'],
             ['w', 'w', 'w', 'w', 'w', ' ', 'w'],
             ['w', ' ', ' ', ' ', ' ', ' ', 'w'],
             ['w', ' ', 'w', 'w', 'w', 'w', 'w'],
             ['w', ' ', ' ', ' ', ' ', ' ', ' '],
             ['w', 'w', 'w', 'w', 'w', 'w', 'w']], w := 7, h := 7, cell_size := 1 }
    pad_zero
    ['a', 'd', 'd', 'd', 'd', 'd', 's', 's', 'a', 'a', 'a', 'a', 's', 's',
         'd', 'd', 'd', 'd', 'd']
    { a := [['w', 'w', 'w', 'w', 'w', 'w', 'w'],
             [' ', ' ', ' ', ' ', ' ', ' ', 'w'],
             ['w', 'w', 'w', 'w', 'w', ' ', 'w'],
             ['w', ' ', ' ', ' ', ' ', ' ', 'w'],
             ['w', ' ', 'w', 'w', 'w', 'w', 'w'],
             ['w', ' ', ' ', ' ', ' ', ' ', ' '],
             ['w', 'w', 'w', 'w', 'w', 'w', 'w']], x := 6, y := 5, potion := 3 }
    ⟨rfl, by decide⟩ (by decide) (by decide) rfl rfl⟩

/-- C5 (the code differs): for `width = height = cell_size = 1` the claim promises a
returned maze with `h = w = (1 + 1) * 1 + 1 = 3` and a matrix of 3 rows of 3 characters.
Lines 195-271 build exactly that matrix and set `w = h = 3`, whatever the memory content
and the draws, but `generate_maze` returns no maze: the third round of the placement
loop never ends, so for no memory content, draw sequence and number of iterations
allowed is the result a maze. -/
theorem generate_maze_one_no_maze :
    (∀ (heap : Nat → cell) (draws : Nat → Nat) (n : Nat),
      carve_maze heap draws (n + 1) 1 1 1 =
        .ok ({ a := [['w', 'w', 'w'], [' ', ' ', ' '], ['w', 'w', 'w']], w := 3, h := 3,
               cell_size := 1 }, 1)) ∧
    (∀ (heap : Nat → cell) (draws : Nat → Nat) (fuel : Nat) (m : maze),
      generate_maze heap draws fuel 1 1 1 ≠ .ok m) := by
  refine ⟨carve_maze_one, ?_⟩
  intro heap draws fuel m hret
  cases fuel with
  | zero =>
    unfold generate_maze carve_maze at hret
    simp only [carve_init_one, bind, Except.bind] at hret
    cases hret
  | succ n =>
    unfold generate_maze at hret
    rw [carve_maze_one] at hret
    simp only [bind, Except.bind] at hret
    rcases place_potions_cases draws (n + 1) NEEDED_POTIONS
      ({ a := [['w', 'w', 'w'], [' ', ' ', ' '], ['w', 'w', 'w']], w := 3, h := 3,
         cell_size := 1 }, 1) (by simp only; exact ⟨rfl, by decide⟩) (by decide) (by decide)
      with he | ⟨s1, h1, h2, h3⟩
    · rw [he] at hret
      cases hret
    · have hc : (region_spaces
          { a := [['w', 'w', 'w'], [' ', ' ', ' '], ['w', 'w', 'w']], w := 3, h := 3,
            cell_size := 1 }).card = 2 := by decide
      simp only [hc, NEEDED_POTIONS] at h3
      omega

end MazeGen
